import Mathlib

/-!
Verification of the host/path routing core of pandora-web-server.

Byte strings are modelled as `List Nat` (one `Nat` per byte). The definitions
in this file are shallow embeddings of the Rust functions in
`module-utils/src/trie.rs`, `headers-module/src/configuration.rs` and
`virtual-hosts-module/src/handler.rs`.
-/

namespace Pandora

/-- Character used to separate label segments (`b'/'` in `trie.rs`). -/
def SEPARATOR : Nat := 47

/-- Loop body of `common_prefix_length` in `trie.rs`: walks both labels in
parallel (index `i`, running result `len`). Returns `(true, len)` when the
loop hit a mismatch and returned early, `(false, len)` when the loop ran to
the end of the shorter label. The running result is set to `i` whenever
position `i` holds the separator in both labels. -/
def cplLoop : List Nat → List Nat → Nat → Nat → Bool × Nat
  | x :: xs, y :: ys, i, len =>
    if x ≠ y then (true, len)
    else cplLoop xs ys (i + 1) (if x = SEPARATOR then i else len)
  | _, _, _, len => (false, len)

/-- Embedding of `common_prefix_length` from `trie.rs`: the length of the
longest common prefix of two labels that ends at a boundary (end of the label
or a separator character) in both labels. -/
def common_prefix_length (a b : List Nat) : Nat :=
  match cplLoop a b 0 0 with
  | (true, len) => len
  | (false, len) =>
    if a.length = b.length ∨ (a.length < b.length ∧ b[a.length]? = some SEPARATOR) then
      a.length
    else if b.length < a.length ∧ a[b.length]? = some SEPARATOR then
      b.length
    else len

/-- Whether the byte-by-byte comparison loop of `common_prefix_length` stops
early (a mismatch within the overlap of the two labels). -/
def earlyStop : List Nat → List Nat → Bool
  | x :: xs, y :: ys => if x ≠ y then true else earlyStop xs ys
  | _, _ => false

/-- Position of the last separator shared by both labels strictly inside their
agreeing prefix, if any. This is the value the loop of `common_prefix_length`
accumulates. -/
def lastRec : List Nat → List Nat → Option Nat
  | x :: xs, y :: ys =>
    if x ≠ y then none
    else
      match lastRec xs ys with
      | some j => some (j + 1)
      | none => if x = SEPARATOR then some 0 else none
  | _, _ => none

/-- A position `n` is a whole-segment boundary of label `s` when it is the
end of the label or the position of a separator character. -/
def bnd (s : List Nat) (n : Nat) : Prop := n = s.length ∨ s[n]? = some SEPARATOR

instance (s : List Nat) (n : Nat) : Decidable (bnd s n) := by
  unfold bnd; infer_instance

/-- A valid common-prefix cut of labels `a` and `b`: the first `n` bytes agree
and `n` lies on a whole-segment boundary of both labels (or is 0). -/
def goodCut (a b : List Nat) (n : Nat) : Prop :=
  n ≤ a.length ∧ n ≤ b.length ∧ a.take n = b.take n ∧ (n = 0 ∨ (bnd a n ∧ bnd b n))

instance (a b : List Nat) (n : Nat) : Decidable (goodCut a b n) := by
  unfold goodCut; infer_instance

/-- Renders a list of segments into a label: segments joined by the separator
character. Normalized labels (no leading/trailing separator, no empty
segment) are exactly the renderings of lists of non-empty separator-free
segments. -/
def render : List (List Nat) → List Nat
  | [] => []
  | [s] => s
  | s :: s2 :: rest => s ++ SEPARATOR :: render (s2 :: rest)

/-- A well-formed segment: non-empty and free of separator characters. -/
def SegOK (s : List Nat) : Prop := s ≠ [] ∧ SEPARATOR ∉ s

instance (s : List Nat) : Decidable (SegOK s) := by
  unfold SegOK; infer_instance

/-- All segments of a list are well-formed. -/
def SegsOK (ms : List (List Nat)) : Prop := ∀ s ∈ ms, SegOK s

instance (ms : List (List Nat)) : Decidable (SegsOK ms) := by
  unfold SegsOK; infer_instance

/-- Longest common prefix of two segment lists, at whole-segment granularity. -/
def cpSegs : List (List Nat) → List (List Nat) → List (List Nat)
  | x :: xs, y :: ys => if x = y then x :: cpSegs xs ys else []
  | _, _ => []

/-- Builder node, mirroring `BuilderNode` in `trie.rs`: owns its label bytes,
child list and optional value directly. -/
inductive BuilderNode (V : Type) where
  | mk (label : List Nat) (children : List (BuilderNode V)) (value : Option V)

def BuilderNode.label {V : Type} : BuilderNode V → List Nat
  | .mk l _ _ => l

def BuilderNode.children {V : Type} : BuilderNode V → List (BuilderNode V)
  | .mk _ c _ => c

def BuilderNode.value {V : Type} : BuilderNode V → Option V
  | .mk _ _ v => v

mutual

/-- Number of nodes in a builder subtree (the subtree root included). -/
def treeNodes {V : Type} : BuilderNode V → Nat
  | .mk _ children _ => 1 + treeNodesL children

def treeNodesL {V : Type} : List (BuilderNode V) → Nat
  | [] => 0
  | c :: cs => treeNodes c + treeNodesL cs

end

mutual

/-- Total number of label bytes in a builder subtree. -/
def treeLabels {V : Type} : BuilderNode V → Nat
  | .mk label children _ => label.length + treeLabelsL children

def treeLabelsL {V : Type} : List (BuilderNode V) → Nat
  | [] => 0
  | c :: cs => treeLabels c + treeLabelsL cs

end

mutual

/-- Number of values stored in a builder subtree. -/
def treeValues {V : Type} : BuilderNode V → Nat
  | .mk _ children value => (if value.isSome then 1 else 0) + treeValuesL children

def treeValuesL {V : Type} : List (BuilderNode V) → Nat
  | [] => 0
  | c :: cs => treeValues c + treeValuesL cs

end

/-- Embedding of `TrieBuilder` from `trie.rs`: the mutable tree plus the
running counters for the number of nodes, label bytes and values. -/
structure TrieBuilder (V : Type) where
  nodes : Nat
  labels : Nat
  values : Nat
  root : BuilderNode V

/-- Embedding of `TrieBuilder::new`. -/
def TrieBuilder.new (V : Type) : TrieBuilder V :=
  ⟨1, 0, 0, .mk [] [] none⟩

/-- The child-scanning loop at the start of `find_insertion_point`: index and
common prefix length of the first child sharing a non-trivial prefix with the
label, if any. -/
def findChild {V : Type} (label : List Nat) : List (BuilderNode V) → Option (Nat × Nat)
  | [] => none
  | c :: cs =>
    let length := common_prefix_length c.label label
    if length > 0 then some (0, length)
    else
      match findChild label cs with
      | some (i, len) => some (i + 1, len)
      | none => none

/-- The node-splitting step of `find_insertion_point`: a new intermediate node
holding the first `length` bytes of the child label (the separator at position
`length` is dropped), with the original child, its label trimmed, as the only
child. -/
def splitNode {V : Type} (node : BuilderNode V) (length : Nat) : BuilderNode V :=
  .mk (node.label.take length) [.mk (node.label.drop (length + 1)) node.children node.value] none

/-- Fused embedding of `TrieBuilder::find_insertion_point` and the insertion
step of `TrieBuilder::push`: recursively descends to the insertion point
(splitting a partially overlapping child on the way, as
`find_insertion_point` does), then either replaces the value at the found
node (when the remaining label is empty) or appends a new leaf child.
Returns the updated subtree, the updated `nodes`/`labels`/`values` counters
and the `push` return flag (whether an existing value was overwritten). -/
def pushAt {V : Type} (node : BuilderNode V) (nodes labels values : Nat)
    (label : List Nat) (value : V) : BuilderNode V × Nat × Nat × Nat × Bool :=
  match h : findChild label node.children with
  | some (i, length) =>
    let child := node.children.getD i (.mk [] [] none)
    let nodes2 := if length < child.label.length then nodes + 1 else nodes
    let labels2 := if length < child.label.length then labels - 1 else labels
    let child2 := if length < child.label.length then splitNode child length else child
    let r := pushAt child2 nodes2 labels2 values (label.drop (min (length + 1) label.length)) value
    (.mk node.label (node.children.set i r.1) node.value, r.2.1, r.2.2.1, r.2.2.2.1, r.2.2.2.2)
  | none =>
    if label.isEmpty then
      (.mk node.label node.children (some value), nodes, labels,
        if node.value.isSome then values else values + 1, node.value.isSome)
    else
      (.mk node.label (node.children ++ [.mk label [] (some value)]) node.value,
        nodes + 1, labels + label.length, values + 1, false)
termination_by label.length
decreasing_by
  simp_wf
  have hnil : ∀ (a : List Nat), common_prefix_length a [] = 0 := by
    intro a
    cases a with
    | nil => rfl
    | cons x xs =>
      have hcl : cplLoop (x :: xs) [] 0 0 = (false, 0) := rfl
      unfold common_prefix_length
      rw [hcl]
      simp
  have key : ∀ (cs : List (BuilderNode V)) (i len : Nat),
      findChild label cs = some (i, len) → 0 < len ∧ label ≠ [] := by
    intro cs
    induction cs with
    | nil => intro i len hh; simp [findChild] at hh
    | cons c cs ih =>
      intro i len hh
      unfold findChild at hh
      by_cases hp : common_prefix_length c.label label > 0
      · rw [if_pos hp] at hh
        simp only [Option.some_inj, Prod.mk.injEq] at hh
        refine ⟨hh.2 ▸ hp, ?_⟩
        intro hc
        rw [hc, hnil] at hp
        omega
      · rw [if_neg hp] at hh
        cases hfc : findChild label cs with
        | none => rw [hfc] at hh; exact absurd hh (by simp)
        | some p =>
          rw [hfc] at hh
          obtain ⟨i0, len0⟩ := p
          simp only [Option.some_inj, Prod.mk.injEq] at hh
          have := ih i0 len0 hfc
          exact ⟨hh.2 ▸ this.1, this.2⟩
  obtain ⟨hpos, hlab⟩ := key _ _ _ h
  have hlen : 0 < label.length := List.length_pos.mpr hlab
  omega

/-- Embedding of `TrieBuilder::push`: adds a value for the given label,
returning `true` when an existing value was overwritten. -/
def TrieBuilder.push {V : Type} (b : TrieBuilder V) (label : List Nat) (value : V) :
    TrieBuilder V × Bool :=
  let r := pushAt b.root b.nodes b.labels b.values label value
  (⟨r.2.1, r.2.2.1, r.2.2.2.1, r.1⟩, r.2.2.2.2)

/-- Flat trie node, mirroring `Node` in `trie.rs`: ranges are `(start, end)`
pairs indexing into the shared label/node vectors. -/
structure Node where
  label : Nat × Nat
  value : Option Nat
  children : Nat × Nat

/-- Flat trie, mirroring `Trie` in `trie.rs`. -/
structure Trie (V : Type) where
  nodes : List Node
  values : List V
  labels : List Nat

/-- Empty node as pushed by `TrieBuilder::push_trie_node`. -/
def blankNode : Node := ⟨(0, 0), none, (0, 0)⟩

/-- Embedding of `TrieBuilder::push_trie_node`: appends an empty entry to the
nodes vector, allocating the slot for a node. -/
def push_trie_node (nodes : List Node) : List Node :=
  nodes ++ [blankNode]

/-- In-place update of one slot in the nodes vector (the `nodes[index]`
assignments of `into_trie_node`). -/
def updateNode (nodes : List Node) (i : Nat) (f : Node → Node) : List Node :=
  nodes.set i (f (nodes.getD i blankNode))

/-- Lexicographic byte-string comparison, mirroring `Vec::<u8>::cmp` as used
by the `sort_by` call in `into_trie_node` (a proper prefix is smaller). -/
def bytesLe : List Nat → List Nat → Bool
  | [], _ => true
  | _ :: _, [] => false
  | x :: xs, y :: ys => if x < y then true else if y < x then false else bytesLe xs ys

instance : IsTotal (List Nat) (fun a b => bytesLe a b = true) := by
  constructor
  intro a
  induction a with
  | nil => intro b; left; rfl
  | cons x xs ih =>
    intro b
    cases b with
    | nil => right; rfl
    | cons y ys =>
      rcases Nat.lt_trichotomy x y with h | h | h
      · left; simp [bytesLe, h]
      · subst h
        rcases ih ys with h2 | h2
        · left; simp [bytesLe, h2]
        · right; simp [bytesLe, h2]
      · right; simp [bytesLe, h]

instance : IsTrans (List Nat) (fun a b => bytesLe a b = true) := by
  constructor
  intro a
  induction a with
  | nil => intro b c _ _; rfl
  | cons x xs ih =>
    intro b c hab hbc
    cases b with
    | nil => simp [bytesLe] at hab
    | cons y ys =>
      cases c with
      | nil => simp [bytesLe] at hbc
      | cons z zs =>
        simp only [bytesLe] at hab hbc ⊢
        rcases Nat.lt_trichotomy x y with h1 | h1 | h1
        · rcases Nat.lt_trichotomy y z with h2 | h2 | h2
          · simp [Nat.lt_trans h1 h2]
          · subst h2; simp [h1]
          · rw [if_neg (by omega), if_pos h2] at hbc; exact absurd hbc (by simp)
        · subst h1
          rcases Nat.lt_trichotomy x z with h2 | h2 | h2
          · simp [h2]
          · subst h2
            simp only [Nat.lt_irrefl, if_false] at hab hbc ⊢
            exact ih ys zs hab hbc
          · rw [if_neg (by omega), if_pos h2] at hbc; exact absurd hbc (by simp)
        · rw [if_neg (by omega), if_pos h1] at hab; exact absurd hab (by simp)

/-- The `sort_by(|a, b| a.label.cmp(&b.label))` call of `into_trie_node`. -/
def sortChildren {V : Type} (cs : List (BuilderNode V)) : List (BuilderNode V) :=
  List.insertionSort (fun a b => bytesLe a.label b.label = true) cs

mutual

/-- Embedding of `TrieBuilder::into_trie_node`: transfers a builder node into
the trie node at slot `index`, appends its label bytes and value, sorts the
children by label, pre-allocates one consecutive slot per child and recurses
into the children. -/
def intoTrieNode {V : Type} (current : BuilderNode V) (index : Nat)
    (st : List Node × List Nat × List V) : List Node × List Nat × List V :=
  let nodes := st.1
  let labels := st.2.1
  let values := st.2.2
  let nodes1 := updateNode nodes index
    (fun nd => { nd with label := (labels.length, labels.length + current.label.length) })
  let labels1 := labels ++ current.label
  let nodes2 := match current.value with
    | some _ => updateNode nodes1 index (fun nd => { nd with value := some values.length })
    | none => nodes1
  let values1 := match current.value with
    | some v => values ++ [v]
    | none => values
  let sorted := sortChildren current.children
  let childStart := nodes2.length
  let nodes3 := updateNode nodes2 index
    (fun nd => { nd with children := (childStart, childStart + sorted.length) })
  let nodes4 := nodes3 ++ List.replicate sorted.length blankNode
  intoTrieChildren sorted childStart (nodes4, labels1, values1)
termination_by (treeNodes current, 0)
decreasing_by
  -- recursing from a node into its (sorted) children
  have hs : treeNodesL (sortChildren current.children) = treeNodesL current.children := by
    have hsum : ∀ (l : List (BuilderNode V)), treeNodesL l = (l.map treeNodes).sum := by
      intro l
      induction l with
      | nil => rfl
      | cons c cs ih => simp [treeNodesL, ih]
    calc treeNodesL (sortChildren current.children)
        = ((sortChildren current.children).map treeNodes).sum := hsum _
      _ = (current.children.map treeNodes).sum :=
          List.Perm.sum_eq (List.Perm.map treeNodes (List.perm_insertionSort _ _))
      _ = treeNodesL current.children := (hsum _).symm
  have e : treeNodes current = 1 + treeNodesL current.children := by
    cases current with
    | mk l c v => simp [treeNodes, BuilderNode.children]
  simp only [Prod.lex_def]
  omega

/-- The recursive loop at the end of `into_trie_node`: processes the sorted
children at consecutive pre-allocated indices. -/
def intoTrieChildren {V : Type} : List (BuilderNode V) → Nat →
    (List Node × List Nat × List V) → List Node × List Nat × List V
  | [], _, st => st
  | c :: cs, idx, st => intoTrieChildren cs (idx + 1) (intoTrieNode c idx st)
termination_by cs _ _ => (treeNodesL cs, 1)
decreasing_by
  · -- recursing from a child list into its head
    have e : treeNodesL (c :: cs) = treeNodes c + treeNodesL cs := by simp [treeNodesL]
    simp only [Prod.lex_def]
    omega
  · -- tail of the child list
    have e : treeNodesL (c :: cs) = treeNodes c + treeNodesL cs := by simp [treeNodesL]
    have hge : 1 ≤ treeNodes c := by
      cases c with
      | mk l cc v => simp [treeNodes]
    simp only [Prod.lex_def]
    omega

end

/-- Embedding of `TrieBuilder::build`: allocates the root slot and transfers
the whole builder tree into the three flat vectors. (The `assert_eq` calls of
the Rust function are the subject of the counter-consistency theorem.) -/
def TrieBuilder.build {V : Type} (b : TrieBuilder V) : Trie V :=
  let nodes0 := push_trie_node []
  let r := intoTrieNode b.root 0 (nodes0, [], [])
  ⟨r.1, r.2.2, r.2.1⟩

/-- Slice `l[s..e]` of a byte vector. -/
def slice (l : List Nat) (s e : Nat) : List Nat := (l.take e).drop s

/-- The inner `while label_end > label_start` loop of `Trie::lookup`: keeps
matching further input segments against the remainder of a child label (the
separator at the current position is skipped first). Returns the number of
additional input segments consumed, or `none` when the lookup should return
its current best result (input exhausted or partial segment match). The
caller consumes that many segments from its iterator. -/
def consumeLabel {V : Type} (t : Trie V) (pos endp : Nat) (segs : List (List Nat)) : Option Nat :=
  if endp > pos then
    let pos2 := pos + 1
    match segs with
    | [] => none
    | seg :: rest =>
      let length := common_prefix_length seg (slice t.labels pos2 endp)
      if length > 0 then
        match consumeLabel t (pos2 + length) endp rest with
        | some k => some (k + 1)
        | none => none
      else none
  else some 0
termination_by endp - pos
decreasing_by
  simp_wf
  omega

mutual

/-- Body of the `loop` of `Trie::lookup` at one node: records the node value
as the current best result, then takes the next segment and scans the
children. A dangling value index makes the whole lookup return `none` (the
`?` operator on `self.values.get`). -/
def lookupGo {V : Type} (t : Trie V) (node : Node) (segs : List (List Nat)) (cnt : Nat)
    (result : Option (V × Nat)) : Option (V × Nat) :=
  match node.value with
  | some vi =>
    match t.values[vi]? with
    | none => none
    | some v => lookupBody t node segs cnt (some (v, cnt))
  | none => lookupBody t node segs cnt result
termination_by (segs.length, 2, 0)
decreasing_by
  · exact Prod.Lex.right _ (Prod.Lex.left _ _ (by omega))
  · exact Prod.Lex.right _ (Prod.Lex.left _ _ (by omega))

/-- Segment-consuming part of the `loop` of `Trie::lookup`: at the end of the
input the current best result is returned, otherwise the children of the
current node are scanned for the next segment. -/
def lookupBody {V : Type} (t : Trie V) (node : Node) (segs : List (List Nat)) (cnt : Nat)
    (result : Option (V × Nat)) : Option (V × Nat) :=
  match segs with
  | [] => result
  | seg :: rest => scanChildren t node.children.1 node.children.2 seg rest (cnt + 1) result
termination_by (segs.length, 1, 0)
decreasing_by
  exact Prod.Lex.right _ (Prod.Lex.left _ _ (by omega))

/-- The `for child in current.children.start..current.children.end` loop of
`Trie::lookup`: linear scan for the first child whose label shares a
non-trivial common prefix with the current segment; on a match the rest of
the child label is consumed (`consumeLabel`) and the walk continues at that
child. A dangling child index makes the whole lookup return `none`. -/
def scanChildren {V : Type} (t : Trie V) (i endi : Nat) (seg : List Nat)
    (rest : List (List Nat)) (cnt : Nat) (result : Option (V × Nat)) : Option (V × Nat) :=
  if i < endi then
    match t.nodes[i]? with
    | none => none
    | some child =>
      let length := common_prefix_length seg (slice t.labels child.label.1 child.label.2)
      if length > 0 then
        match consumeLabel t (child.label.1 + length) child.label.2 rest with
        | none => result
        | some k => lookupGo t child (rest.drop k) (cnt + k) result
      else scanChildren t (i + 1) endi seg rest cnt result
  else result
termination_by (rest.length + 1, 0, endi - i)
decreasing_by
  · apply Prod.Lex.left
    simp only [List.length_drop]
    omega
  · exact Prod.Lex.right _ (Prod.Lex.right _ (by omega))

end

/-- Embedding of `Trie::lookup`: walks the trie from the root along the given
segments and returns the value of the deepest node with a value on the walk,
together with the number of segments consumed to reach it. -/
def Trie.lookup {V : Type} (t : Trie V) (segs : List (List Nat)) : Option (V × Nat) :=
  match t.nodes[0]? with
  | none => none
  | some root => lookupGo t root segs 0 none

/-- Splits a label into its separator-delimited segments (inverse of `render`
on normalized labels). -/
def splitSep : List Nat → List (List Nat)
  | [] => [[]]
  | x :: xs =>
    let r := splitSep xs
    if x = SEPARATOR then [] :: r else (x :: r.headD []) :: r.tail

/-- First segment of a label. -/
def firstSeg (l : List Nat) : List Nat := (splitSep l).headD []

/-- Denotational reading of the builder tree as a partial map from segment
lists to values: descend along the unique child whose label is a
whole-segment prefix of the remaining key. -/
def findTree {V : Type} : BuilderNode V → List (List Nat) → Option V
  | node, [] => node.value
  | node, s :: rest =>
    match hfind : node.children.find?
        (fun c => !c.label.isEmpty && (splitSep c.label).isPrefixOf (s :: rest)) with
    | some c => findTree c ((s :: rest).drop (splitSep c.label).length)
    | none => none
termination_by b segs => segs.length
decreasing_by
  have hne : ¬c.label.isEmpty := by
    have hp := List.find?_some hfind
    simp at hp
    simpa using hp.1
  have hlen : 1 ≤ (splitSep c.label).length := by
    cases hl : c.label with
    | nil => simp [hl] at hne
    | cons x xs =>
      simp only [splitSep]
      by_cases hx : x = SEPARATOR <;> simp [hx]
  simp only [List.length_drop, List.length_cons]
  omega

mutual

/-- Well-formedness invariant of a builder subtree: every child label is a
non-empty normalized label and no two sibling labels share a first segment. -/
def WFB {V : Type} : BuilderNode V → Prop
  | .mk _ children _ =>
    WFBL children ∧ List.Pairwise (fun a b => firstSeg a.label ≠ firstSeg b.label) children

def WFBL {V : Type} : List (BuilderNode V) → Prop
  | [] => True
  | c :: cs =>
    (∃ ms, ms ≠ [] ∧ SegsOK ms ∧ c.label = render ms) ∧ WFB c ∧ WFBL cs

end

/-- Value stored by a sequence of pushes at a given key (the last push at the
key wins). Keys are given as segment lists. -/
def pushedValue {V : Type} (ps : List (List (List Nat) × V)) (k : List (List Nat)) : Option V :=
  ((ps.filter (fun p => p.1 = k)).getLast?).map Prod.snd

/-- Search for the longest stored key that is a whole-segment prefix of the
input, from length `j` downwards. -/
def bestMatchAux {V : Type} (ps : List (List (List Nat) × V)) (segs : List (List Nat)) :
    Nat → Option (V × Nat)
  | 0 => (pushedValue ps []).map (fun v => (v, 0))
  | j + 1 =>
    match pushedValue ps (segs.take (j + 1)) with
    | some v => some (v, j + 1)
    | none => bestMatchAux ps segs j

/-- Longest-prefix-match semantics of a sequence of pushes: value of the
longest stored key that is a whole-segment prefix of the input, paired with
that key's segment count. -/
def bestMatch {V : Type} (ps : List (List (List Nat) × V)) (segs : List (List Nat)) :
    Option (V × Nat) :=
  bestMatchAux ps segs segs.length

/-- Applies a sequence of pushes to a builder. -/
def TrieBuilder.pushAll {V : Type} (b : TrieBuilder V) : List (List Nat × V) → TrieBuilder V
  | [] => b
  | (l, v) :: rest => ((b.push l v).1).pushAll rest

/-- Builder obtained by pushing a sequence of segment-list keys (rendered to
labels) into a fresh builder. -/
def buildFromSegs {V : Type} (ps : List (List (List Nat) × V)) : TrieBuilder V :=
  TrieBuilder.pushAll (.new V) (ps.map (fun p => (render p.1, p.2)))

/-- Labels of the children of a flat node, in slot order. -/
def childLabels {V : Type} (t : Trie V) (nd : Node) : List (List Nat) :=
  ((t.nodes.take nd.children.2).drop nd.children.1).map (fun c => slice t.labels c.label.1 c.label.2)

/-- Representation relation between a slot of the flat trie and a builder
node: the slot's label slice, value reference and children block all mirror
the builder node, the children appearing sorted at consecutive slots. -/
inductive Represents {V : Type} (t : Trie V) : Nat → BuilderNode V → Prop where
  | mk : ∀ (i : Nat) (b : BuilderNode V) (nd : Node),
      t.nodes[i]? = some nd →
      nd.label.1 ≤ nd.label.2 →
      nd.label.2 ≤ t.labels.length →
      slice t.labels nd.label.1 nd.label.2 = b.label →
      (match b.value with
        | some v => ∃ vi, nd.value = some vi ∧ t.values[vi]? = some v
        | none => nd.value = none) →
      nd.children.2 = nd.children.1 + (sortChildren b.children).length →
      (∀ j (hj : j < (sortChildren b.children).length),
        Represents t (nd.children.1 + j) ((sortChildren b.children).get ⟨j, hj⟩)) →
      Represents t i b

/-- Best whole-segment-prefix match in a builder tree: value of the deepest
key that is a whole-segment prefix of the input, with its segment count,
scanning candidate lengths downwards. -/
def treeBestAux {V : Type} (b : BuilderNode V) (segs : List (List Nat)) : Nat → Option (V × Nat)
  | 0 => (findTree b []).map (fun v => (v, 0))
  | j + 1 =>
    match findTree b (segs.take (j + 1)) with
    | some v => some (v, j + 1)
    | none => treeBestAux b segs j

/-- Best whole-segment-prefix match over all prefix lengths of the input. -/
def treeBest {V : Type} (b : BuilderNode V) (segs : List (List Nat)) : Option (V × Nat) :=
  treeBestAux b segs segs.length

/-- The state triple of the compaction pass read as a `Trie`. -/
def mkTrie {V : Type} (st : List Node × List Nat × List V) : Trie V :=
  ⟨st.1, st.2.2, st.2.1⟩

/-- The slot `i` of the flat trie represents the builder node `b`, with every
descendant slot lying in `[lo, hi)`: label slice, value reference and the
contiguous, sorted children block all mirror the builder node. -/
inductive RepIn {V : Type} (t : Trie V) (lo hi : Nat) : Nat → BuilderNode V → Prop where
  | mk : ∀ (i : Nat) (b : BuilderNode V) (nd : Node),
      t.nodes[i]? = some nd →
      nd.label.1 ≤ nd.label.2 →
      nd.label.2 ≤ t.labels.length →
      slice t.labels nd.label.1 nd.label.2 = b.label →
      (match b.value with
        | some v => ∃ vi, nd.value = some vi ∧ t.values[vi]? = some v
        | none => nd.value = none) →
      lo ≤ nd.children.1 →
      nd.children.2 = nd.children.1 + (sortChildren b.children).length →
      nd.children.2 ≤ hi →
      (∀ j (hj : j < (sortChildren b.children).length),
        RepIn t lo hi (nd.children.1 + j) ((sortChildren b.children).get ⟨j, hj⟩)) →
      RepIn t lo hi i b

/-- The byte suffix of a rendered label that remains after its first `k`
segments: empty at the end, otherwise a separator followed by the rendering
of the remaining segments. -/
def tailRender (msc : List (List Nat)) : List Nat :=
  match msc with
  | [] => []
  | _ :: _ => SEPARATOR :: render msc

instance {V : Type} : IsTotal (BuilderNode V) (fun a b => bytesLe a.label b.label = true) := by
  constructor
  intro a b
  exact total_of (fun x y => bytesLe x y = true) a.label b.label

instance {V : Type} : IsTrans (BuilderNode V) (fun a b => bytesLe a.label b.label = true) := by
  constructor
  intro a b c hab hbc
  exact trans_of (fun x y => bytesLe x y = true) hab hbc

/-- Structural invariant of a flat trie at a slot: the children occupy a
valid contiguous slot range of the nodes vector, their labels are sorted
lexicographically, no two sibling labels share a first segment, and every
child slot satisfies the same invariant. -/
inductive Structured {V : Type} (t : Trie V) : Nat → Prop where
  | mk : ∀ (i : Nat) (nd : Node),
      t.nodes[i]? = some nd →
      nd.children.1 ≤ nd.children.2 →
      nd.children.2 ≤ t.nodes.length →
      List.Pairwise (fun a b => bytesLe a b = true) (childLabels t nd) →
      List.Pairwise (fun a b => firstSeg a ≠ firstSeg b) (childLabels t nd) →
      (∀ k, nd.children.1 ≤ k → k < nd.children.2 → Structured t k) →
      Structured t i

/-- Modelled from the spec: `PathMatchResult` is an ordered classification of
how a pattern matched — whether the match was exact, a prefix match, and
whether it was a host-agnostic fallback match. -/
structure PathMatchResult where
  exact : Bool
  isPref : Bool
  fallback : Bool
deriving DecidableEq

/-- Modelled from the spec: the empty (non-applying) match result. -/
def PathMatchResult.EMPTY : PathMatchResult := ⟨false, false, false⟩

/-- Modelled from the spec: mark a result as an exact match. -/
def PathMatchResult.set_exact (r : PathMatchResult) : PathMatchResult := { r with exact := true }

/-- Modelled from the spec: mark a result as a prefix match. -/
def PathMatchResult.set_pref (r : PathMatchResult) : PathMatchResult := { r with isPref := true }

/-- Modelled from the spec: mark a result as a host-agnostic fallback match. -/
def PathMatchResult.set_fallback (r : PathMatchResult) : PathMatchResult :=
  { r with fallback := true }

/-- Modelled from the spec: a result applies when any of its flags is set. -/
def PathMatchResult.any (r : PathMatchResult) : Bool := r.exact || r.isPref || r.fallback

/-- Modelled from the spec: a host/path pattern — an optional host (empty
meaning host-agnostic fallback), a slash-segmented path, and a flag marking
prefix patterns (`/*`). -/
structure HostPathMatcher where
  host : List Nat
  path : List (List Nat)
  isPref : Bool
deriving DecidableEq

/-- Modelled from the spec: how one pattern matches a concrete host and path —
the host must be equal unless the pattern is host-agnostic, the path must be
equal, or a whole-segment prefix for prefix patterns and under forced prefix
matching; the result records the exact/prefix/fallback classification. -/
def HostPathMatcher.matches (m : HostPathMatcher) (host : List Nat)
    (path : List (List Nat)) (force : Bool) : PathMatchResult :=
  if m.host ≠ [] ∧ m.host ≠ host then PathMatchResult.EMPTY
  else
    let base := if m.host = [] then PathMatchResult.EMPTY.set_fallback
      else PathMatchResult.EMPTY
    if m.isPref || force then
      if m.path <+: path then
        if m.path = path then (base.set_pref).set_exact else base.set_pref
      else PathMatchResult.EMPTY
    else if m.path = path then (base.set_pref).set_exact
    else PathMatchResult.EMPTY

/-- Modelled from the spec: the specificity class of a pattern, low to high —
host-agnostic prefix, host-agnostic exact, host-specific prefix,
host-specific exact. -/
def HostPathMatcher.key (m : HostPathMatcher) : Nat :=
  (if m.host ≠ [] then 2 else 0) + (if m.isPref then 0 else 1)

/-- Modelled from the spec: the strict specificity order on patterns — a
higher specificity class wins, and within the same class a longer path wins. -/
def hpmGt (a b : HostPathMatcher) : Bool :=
  decide (HostPathMatcher.key b < HostPathMatcher.key a) ||
    (decide (HostPathMatcher.key a = HostPathMatcher.key b) &&
      decide (b.path.length < a.path.length))

/-- Include and exclude pattern lists of one configuration entry, mirroring
`MatchRules` in `configuration.rs`. -/
structure MatchRules where
  incl : List HostPathMatcher
  excl : List HostPathMatcher

/-- One step of the `find_match` fold: a pattern that matches at all replaces
the current best unless the current best is strictly more specific. -/
def fmStep (host : List Nat) (path : List (List Nat)) (force : Bool)
    (acc : PathMatchResult × Option HostPathMatcher) (current : HostPathMatcher) :
    PathMatchResult × Option HostPathMatcher :=
  if (current.matches host path force).any then
    match acc.2 with
    | some previous =>
      if hpmGt previous current then acc
      else (current.matches host path force, some current)
    | none => (current.matches host path force, some current)
  else acc

/-- Embedding of `find_match` from `configuration.rs`: folds over the rules
keeping the most specific matching pattern and its result. -/
def find_match (rules : List HostPathMatcher) (host : List Nat) (path : List (List Nat))
    (force : Bool) : PathMatchResult × Option HostPathMatcher :=
  rules.foldl (fmStep host path force) (PathMatchResult.EMPTY, none)

/-- Embedding of `MatchRules::matches` from `configuration.rs`: the universal
catch-all for empty rule sets, otherwise the best include result unless a
best exclude of equal-or-higher specificity suppresses it. -/
def MatchRules.matches (m : MatchRules) (host : List Nat) (path : List (List Nat))
    (force : Bool) : PathMatchResult :=
  if m.incl.isEmpty && m.excl.isEmpty then
    let result := if host.isEmpty then PathMatchResult.EMPTY
      else PathMatchResult.EMPTY.set_fallback
    if path.isEmpty then (result.set_exact).set_pref else result.set_pref
  else
    let er := find_match m.excl host path force
    let ir := find_match m.incl host path force
    match er.2 with
    | some ex =>
      match ir.2 with
      | some inc => if hpmGt inc ex then ir.1 else PathMatchResult.EMPTY
      | none => PathMatchResult.EMPTY
    | none => ir.1

/-- A pattern that matches, belongs to the rule list, and is maximal for the
specificity order among the matching patterns of that list. -/
def bestRuleFor (rules : List HostPathMatcher) (host : List Nat) (path : List (List Nat))
    (force : Bool) (c : HostPathMatcher) : Prop :=
  c ∈ rules ∧ (c.matches host path force).any = true ∧
    ∀ x ∈ rules, (x.matches host path force).any = true → hpmGt x c = false

/-- The full behaviour of `MatchRules::matches` on a non-empty rule set:
`find_match` characterized on both lists, and the exclude-suppression rule. -/
def excludeSuppressionSpec (m : MatchRules) (host : List Nat) (path : List (List Nat))
    (force : Bool) : Prop :=
  ((find_match m.excl host path force).2 = none ↔
    ∀ x ∈ m.excl, (x.matches host path force).any = false) ∧
  (∀ ex, (find_match m.excl host path force).2 = some ex →
    bestRuleFor m.excl host path force ex) ∧
  ((find_match m.incl host path force).2 = none ↔
    ∀ x ∈ m.incl, (x.matches host path force).any = false) ∧
  (∀ inc, (find_match m.incl host path force).2 = some inc →
    bestRuleFor m.incl host path force inc ∧
    (find_match m.incl host path force).1 = inc.matches host path force) ∧
  ((find_match m.excl host path force).2 = none →
    MatchRules.matches m host path force = (find_match m.incl host path force).1) ∧
  (∀ ex, (find_match m.excl host path force).2 = some ex →
    (find_match m.incl host path force).2 = none →
    MatchRules.matches m host path force = PathMatchResult.EMPTY) ∧
  (∀ ex inc, (find_match m.excl host path force).2 = some ex →
    (find_match m.incl host path force).2 = some inc →
    MatchRules.matches m host path force =
      if hpmGt inc ex then (find_match m.incl host path force).1
      else PathMatchResult.EMPTY)

/-- Modelled from the spec: the request URI reduced to its path bytes and
optional query bytes. -/
structure Uri where
  path : List Nat
  query : Option (List Nat)

/-- The question-mark byte separating a path from a query. -/
def QMARK : Nat := 63

/-- Modelled from the spec: parsing a path-and-query byte string — everything
up to the first question mark is the path, the remainder is the query. -/
def splitQuery : List Nat → List Nat × Option (List Nat)
  | [] => ([], none)
  | b :: rest =>
    if b = QMARK then ([], some rest)
    else
      match splitQuery rest with
      | (p, q) => (b :: p, q)

/-- Embedding of `set_uri_path` from `handler.rs`: the new path bytes,
followed by a question mark and the original query when one is present, are
parsed again into a path and a query. -/
def set_uri_path (uri : Uri) (path : List Nat) : Uri :=
  match splitQuery (path ++ (match uri.query with | some q => QMARK :: q | none => [])) with
  | (p, q) => Uri.mk p q

/-- Embedding of the tail handling in `VirtualHostsHandler::best_match`,
taking the router lookup result: with the strip-prefix flag set the matched
tail is kept, an empty tail becoming `/`; without it the tail is discarded. -/
def best_match_tail {H : Type} (r : Option ((Bool × H) × Option (List Nat))) :
    Option (H × Option (List Nat)) :=
  r.map (fun p =>
    if p.1.1 then (p.1.2, p.2.map (fun t => if t.isEmpty then [SEPARATOR] else t))
    else (p.1.2, none))

/-- One virtual-host configuration entry: aliases, the default flag, the
subdirectory entries (path, strip-prefix flag, configuration), and the
host's own configuration, mirroring the data walked by `try_from`. -/
structure VHostConfEntry (C : Type) where
  aliases : List (List Nat)
  default : Bool
  subdirs : List (List Nat × Bool × C)
  config : C

/-- The per-host subdirectory loop of `try_from`: each subdirectory
configuration is converted (fallibly) and pushed for that host and path. -/
def convertSubdirs {C H : Type} (conv : C → Option H) (host : List Nat) :
    List (List Nat × Bool × C) → Option (List (List Nat × List Nat × Bool × H))
  | [] => some []
  | (path, sp, c) :: rest =>
    match conv c with
    | none => none
    | some h => (convertSubdirs conv host rest).map (fun r => (host, path, sp, h) :: r)

/-- Embedding of the construction loop of `VirtualHostsHandler::try_from`:
for each host it records aliases, applies the default-host rule (a second
default only appends a warning and is ignored), converts the host and
subdirectory configurations (fallibly), and accumulates the handler pushes. -/
def try_from_hosts {C H : Type} (conv : C → Option H) :
    List (List Nat × VHostConfEntry C) →
    List (List Nat × List Nat × Bool × H) →
    List (List Nat × List Nat) →
    Option (List Nat) →
    List (List Nat) →
    Option (List (List Nat × List Nat × Bool × H) × List (List Nat × List Nat) ×
      Option (List Nat) × List (List Nat))
  | [], pushes, aliases, dflt, warns => some (pushes, aliases, dflt, warns)
  | (host, hc) :: rest, pushes, aliases, dflt, warns =>
    let dw := if hc.default then
        (match dflt with
         | some prev => (some prev, warns ++ [host])
         | none => (some host, warns))
      else (dflt, warns)
    match conv hc.config with
    | none => none
    | some h =>
      match convertSubdirs conv host hc.subdirs with
      | none => none
      | some sds =>
        try_from_hosts conv rest (pushes ++ (host, [], false, h) :: sds)
          (aliases ++ hc.aliases.map (fun a => (a, host))) dw.1 dw.2

/-- The same entries with every default flag cleared. -/
def clearDefaults {C : Type} (entries : List (List Nat × VHostConfEntry C)) :
    List (List Nat × VHostConfEntry C) :=
  entries.map (fun e => (e.1, { e.2 with default := false }))

/-- The effective default host after processing `entries` starting from `d`. -/
def dfltResult {C : Type} (entries : List (List Nat × VHostConfEntry C))
    (d : Option (List Nat)) : Option (List Nat) :=
  match d with
  | some p => some p
  | none => ((entries.filter (fun e => e.2.default)).head?).map Prod.fst

/-- The duplicate-default warnings emitted while processing `entries`
starting from `d`. -/
def warnsDelta {C : Type} (entries : List (List Nat × VHostConfEntry C))
    (d : Option (List Nat)) : List (List Nat) :=
  match d with
  | some _ => (entries.filter (fun e => e.2.default)).map Prod.fst
  | none => ((entries.filter (fun e => e.2.default)).map Prod.fst).drop 1

/-- The full C9 behaviour: construction succeeds, the effective default is
the first host marked default, the warnings are exactly the subsequent
default hosts in order, and the pushes and aliases are the same as when no
host is marked default at all. -/
def tryFromSpec {C H : Type} (conv : C → Option H)
    (entries : List (List Nat × VHostConfEntry C)) : Prop :=
  ∃ pushes aliases,
    try_from_hosts conv entries [] [] none [] =
      some (pushes, aliases,
        ((entries.filter (fun e => e.2.default)).head?).map Prod.fst,
        ((entries.filter (fun e => e.2.default)).map Prod.fst).drop 1) ∧
    try_from_hosts conv (clearDefaults entries) [] [] none [] =
      some (pushes, aliases, none, [])

theorem cplLoop_spec (a b : List Nat) : ∀ (i l : Nat),
    cplLoop a b i l =
      (earlyStop a b, match lastRec a b with | some j => i + j | none => l) := by
  induction a generalizing b with
  | nil => intro i l; cases b <;> simp [cplLoop, earlyStop, lastRec]
  | cons x xs ih =>
    intro i l
    cases b with
    | nil => simp [cplLoop, earlyStop, lastRec]
    | cons y ys =>
      by_cases hxy : x = y
      · simp only [cplLoop, earlyStop, lastRec, hxy, ne_eq, not_true_eq_false, if_false,
          ite_not]
        rw [ih]
        cases hlr : lastRec xs ys with
        | some j => simp [hlr, Nat.add_assoc, Nat.add_comm 1 j]
        | none =>
          by_cases hsep : y = SEPARATOR <;> simp [hlr, hsep]
      · simp [cplLoop, earlyStop, lastRec, hxy]

/-- Closed form of `common_prefix_length` in terms of `earlyStop` and
`lastRec`. -/
theorem cpl_closed (a b : List Nat) :
    common_prefix_length a b =
      if earlyStop a b then (lastRec a b).getD 0
      else if a.length = b.length ∨ (a.length < b.length ∧ b[a.length]? = some SEPARATOR) then
        a.length
      else if b.length < a.length ∧ a[b.length]? = some SEPARATOR then
        b.length
      else (lastRec a b).getD 0 := by
  unfold common_prefix_length
  rw [cplLoop_spec a b 0 0]
  cases hes : earlyStop a b <;> cases hlr : lastRec a b <;> simp [hlr]

theorem goodCut_zero (a b : List Nat) : goodCut a b 0 := by
  simp [goodCut]

theorem goodCut_symm {a b : List Nat} {n : Nat} (h : goodCut a b n) : goodCut b a n := by
  obtain ⟨h1, h2, h3, h4⟩ := h
  exact ⟨h2, h1, h3.symm, by tauto⟩

theorem goodCut_intro {a b : List Nat} {n : Nat} (h1 : n ≤ a.length) (h2 : n ≤ b.length)
    (h3 : a.take n = b.take n) (h4 : n = 0 ∨ (bnd a n ∧ bnd b n)) : goodCut a b n :=
  ⟨h1, h2, h3, h4⟩

theorem bnd_end (s : List Nat) : bnd s s.length := Or.inl rfl

theorem bnd_of_eq {s : List Nat} {n : Nat} (h : n = s.length) : bnd s n := Or.inl h

theorem bnd_sep {s : List Nat} {n : Nat} (h : s[n]? = some SEPARATOR) : bnd s n := Or.inr h

theorem lastRec_spec {a b : List Nat} {j : Nat} (h : lastRec a b = some j) :
    a.take j = b.take j ∧ a[j]? = some SEPARATOR ∧ b[j]? = some SEPARATOR := by
  induction a generalizing b j with
  | nil => cases b <;> simp [lastRec] at h
  | cons x xs ih =>
    cases b with
    | nil => simp [lastRec] at h
    | cons y ys =>
      by_cases hxy : x = y
      · simp only [lastRec, hxy, ne_eq, not_true_eq_false, if_false, ite_not] at h
        cases hlr : lastRec xs ys with
        | some k =>
          rw [hlr] at h
          have hk := Option.some_inj.mp h
          obtain ⟨e1, e2, e3⟩ := ih hlr
          subst hk
          simp [hxy, e1, e2, e3]
        | none =>
          rw [hlr] at h
          by_cases hsep : y = SEPARATOR
          · simp only [hsep, if_pos rfl] at h
            have hk := Option.some_inj.mp h
            subst hk
            simp [hxy, hsep]
          · simp [hsep] at h
      · simp [lastRec, hxy] at h

theorem lastRec_ge {a b : List Nat} {n : Nat} (h1 : a.take n = b.take n)
    (h2 : a[n]? = some SEPARATOR) (h3 : b[n]? = some SEPARATOR) :
    ∃ j, lastRec a b = some j ∧ n ≤ j := by
  induction a generalizing b n with
  | nil => simp at h2
  | cons x xs ih =>
    cases b with
    | nil => simp at h3
    | cons y ys =>
      cases n with
      | zero =>
        simp only [List.getElem?_cons_zero, Option.some_inj] at h2 h3
        cases hlr : lastRec xs ys with
        | some k => exact ⟨k + 1, by simp [lastRec, h2, h3, hlr], Nat.zero_le _⟩
        | none => exact ⟨0, by simp [lastRec, h2, h3, hlr], Nat.le_refl 0⟩
      | succ m =>
        simp only [List.take_succ_cons, List.cons.injEq] at h1
        simp only [List.getElem?_cons_succ] at h2 h3
        obtain ⟨hxy, htk⟩ := h1
        obtain ⟨j, hj, hnj⟩ := ih htk h2 h3
        refine ⟨j + 1, ?_, Nat.succ_le_succ hnj⟩
        simp [lastRec, hxy, hj]

theorem earlyStop_false_iff (a b : List Nat) :
    earlyStop a b = false ↔ a.take b.length = b.take a.length := by
  induction a generalizing b with
  | nil => cases b <;> simp [earlyStop]
  | cons x xs ih =>
    cases b with
    | nil => simp [earlyStop]
    | cons y ys =>
      by_cases hxy : x = y
      · simp [earlyStop, hxy, ih]
      · simp [earlyStop, hxy]

theorem goodCut_lastRec {a b : List Nat} {j : Nat} (hlr : lastRec a b = some j) :
    goodCut a b j := by
  obtain ⟨e1, e2, e3⟩ := lastRec_spec hlr
  have hja : j < a.length := (List.getElem?_eq_some_iff.mp e2).1
  have hjb : j < b.length := (List.getElem?_eq_some_iff.mp e3).1
  exact goodCut_intro (Nat.le_of_lt hja) (Nat.le_of_lt hjb) e1
    (Or.inr ⟨bnd_sep e2, bnd_sep e3⟩)

theorem goodCut_cpl (a b : List Nat) : goodCut a b (common_prefix_length a b) := by
  rw [cpl_closed]
  by_cases hes : earlyStop a b = true
  · rw [if_pos hes]
    cases hlr : lastRec a b with
    | none => exact goodCut_zero a b
    | some j => exact goodCut_lastRec hlr
  · have hes' : earlyStop a b = false := by simpa using hes
    have hagree := (earlyStop_false_iff a b).mp hes'
    rw [if_neg (by simp [hes'])]
    by_cases h1 : a.length = b.length ∨ (a.length < b.length ∧ b[a.length]? = some SEPARATOR)
    · rw [if_pos h1]
      rcases h1 with h1 | ⟨h1, h2⟩
      · have hab : a = b := by
          have e1 : a.take b.length = a := List.take_of_length_le (Nat.le_of_eq h1)
          have e2 : b.take a.length = b := List.take_of_length_le (Nat.le_of_eq h1.symm)
          rw [e1, e2] at hagree
          exact hagree
        subst hab
        exact goodCut_intro (Nat.le_refl _) (Nat.le_refl _) rfl
          (Or.inr ⟨bnd_end a, bnd_end a⟩)
      · refine goodCut_intro (Nat.le_refl _) (Nat.le_of_lt h1) ?_
          (Or.inr ⟨bnd_end a, bnd_sep h2⟩)
        have e1 : a.take b.length = a := List.take_of_length_le (Nat.le_of_lt h1)
        rw [e1] at hagree
        rw [List.take_of_length_le (Nat.le_refl _)]
        exact hagree
    · rw [if_neg h1]
      by_cases h2 : b.length < a.length ∧ a[b.length]? = some SEPARATOR
      · rw [if_pos h2]
        refine goodCut_intro (Nat.le_of_lt h2.1) (Nat.le_refl _) ?_
          (Or.inr ⟨bnd_sep h2.2, bnd_end b⟩)
        have e1 : b.take a.length = b := List.take_of_length_le (Nat.le_of_lt h2.1)
        rw [e1] at hagree
        rw [List.take_of_length_le (Nat.le_refl _)]
        exact hagree
      · rw [if_neg h2]
        cases hlr : lastRec a b with
        | none => exact goodCut_zero a b
        | some j => exact goodCut_lastRec hlr

theorem le_cpl_of_goodCut {a b : List Nat} {n : Nat} (h : goodCut a b n) :
    n ≤ common_prefix_length a b := by
  obtain ⟨hna, hnb, htk, hbd⟩ := h
  rcases hbd with rfl | ⟨hba, hbb⟩
  · exact Nat.zero_le _
  rw [cpl_closed]
  rcases hba with hend | hsep
  · -- n = a.length, so the whole of a agrees with a prefix of b
    subst hend
    have hes : earlyStop a b = false := by
      rw [earlyStop_false_iff]
      have h1 : a.take a.length = a := List.take_of_length_le (Nat.le_refl _)
      have h2 : a.take b.length = a := List.take_of_length_le hnb
      rw [h2]
      rw [h1] at htk
      exact htk
    rw [if_neg (by simp [hes])]
    have hcond : a.length = b.length ∨ (a.length < b.length ∧ b[a.length]? = some SEPARATOR) := by
      rcases hbb with hbe | hbs
      · exact Or.inl hbe
      · rcases Nat.lt_or_ge a.length b.length with hlt | hge
        · exact Or.inr ⟨hlt, hbs⟩
        · exact Or.inl (Nat.le_antisymm hnb hge)
    rw [if_pos hcond]
  · -- a has a separator at n
    have hna' : n < a.length := (List.getElem?_eq_some_iff.mp hsep).1
    rcases hbb with hbe | hbs
    · -- n = b.length < a.length
      subst hbe
      have hes : earlyStop a b = false := by
        rw [earlyStop_false_iff]
        have h1 : b.take b.length = b := List.take_of_length_le (Nat.le_refl _)
        have h2 : b.take a.length = b := List.take_of_length_le (Nat.le_of_lt hna')
        rw [h2]
        rw [h1] at htk
        exact htk
      rw [if_neg (by simp [hes])]
      rw [if_neg (by
        push_neg
        constructor
        · intro he; exact absurd he (Nat.ne_of_gt hna')
        · intro hl; exact absurd hl (Nat.not_lt_of_ge (Nat.le_of_lt hna')))]
      rw [if_pos ⟨hna', hsep⟩]
    · -- separator at n in both labels strictly inside the overlap
      have hnb' : n < b.length := (List.getElem?_eq_some_iff.mp hbs).1
      obtain ⟨j, hj, hnj⟩ := lastRec_ge htk hsep hbs
      by_cases hes : earlyStop a b = true
      · rw [if_pos hes, hj]
        exact hnj
      · have hes' : earlyStop a b = false := by simpa using hes
        rw [if_neg (by simp [hes'])]
        by_cases h1 : a.length = b.length ∨ (a.length < b.length ∧ b[a.length]? = some SEPARATOR)
        · rw [if_pos h1]; exact Nat.le_of_lt hna'
        · rw [if_neg h1]
          by_cases h2 : b.length < a.length ∧ a[b.length]? = some SEPARATOR
          · rw [if_pos h2]; exact Nat.le_of_lt hnb'
          · rw [if_neg h2, hj]; exact hnj

theorem cpl_nil_right (a : List Nat) : common_prefix_length a [] = 0 := by
  have h := goodCut_cpl a []
  obtain ⟨h1, h2, h3, h4⟩ := h
  exact Nat.le_antisymm h2 (Nat.zero_le _)

theorem cpl_comm (a b : List Nat) : common_prefix_length a b = common_prefix_length b a :=
  Nat.le_antisymm (le_cpl_of_goodCut (goodCut_symm (goodCut_cpl a b)))
    (le_cpl_of_goodCut (goodCut_symm (goodCut_cpl b a)))

theorem render_cons {ms : List (List Nat)} (s : List Nat) (h : ms ≠ []) :
    render (s :: ms) = s ++ SEPARATOR :: render ms := by
  cases ms with
  | nil => exact absurd rfl h
  | cons m rest => rfl

theorem render_eq_nil_iff {ms : List (List Nat)} (h : SegsOK ms) :
    render ms = [] ↔ ms = [] := by
  cases ms with
  | nil => simp [render]
  | cons s rest =>
    have hs : s ≠ [] := (h s (by simp)).1
    cases rest with
    | nil => simpa [render] using hs
    | cons m r2 =>
      rw [render_cons s (show (m :: r2) ≠ [] by simp)]
      simp [hs]

theorem render_append {ms ns : List (List Nat)} (h1 : ms ≠ []) (h2 : ns ≠ []) :
    render (ms ++ ns) = render ms ++ SEPARATOR :: render ns := by
  induction ms with
  | nil => exact absurd rfl h1
  | cons s rest ih =>
    cases rest with
    | nil =>
      simp only [List.singleton_append]
      rw [render_cons s h2]
      rfl
    | cons m r2 =>
      have hne : (m :: r2) ++ ns ≠ [] := by simp
      rw [List.cons_append, render_cons s hne, render_cons s (by simp), ih (by simp)]
      simp

theorem segsOK_take {ms : List (List Nat)} (h : SegsOK ms) (j : Nat) : SegsOK (ms.take j) :=
  fun s hs => h s (List.mem_of_mem_take hs)

theorem segsOK_drop {ms : List (List Nat)} (h : SegsOK ms) (j : Nat) : SegsOK (ms.drop j) :=
  fun s hs => h s (List.mem_of_mem_drop hs)

theorem render_take_split {ms : List (List Nat)} {j : Nat} (hj : j < ms.length)
    (hne : 0 < j) :
    render ms = render (ms.take j) ++ SEPARATOR :: render (ms.drop j) := by
  have e : ms = ms.take j ++ ms.drop j := (List.take_append_drop j ms).symm
  have h1 : ms.take j ≠ [] := by
    intro h
    have := congrArg List.length h
    simp [Nat.min_eq_left (Nat.le_of_lt hj)] at this
    omega
  have h2 : ms.drop j ≠ [] := by
    intro h
    have := congrArg List.length h
    simp at this
    omega
  calc render ms = render (ms.take j ++ ms.drop j) := by rw [← e]
    _ = render (ms.take j) ++ SEPARATOR :: render (ms.drop j) := render_append h1 h2

theorem take_render_take {ms : List (List Nat)} {j : Nat} (hj : j ≤ ms.length) :
    (render ms).take (render (ms.take j)).length = render (ms.take j) := by
  rcases Nat.eq_zero_or_pos j with rfl | hpos
  · simp [render]
  rcases Nat.lt_or_ge j ms.length with hlt | hge
  · rw [render_take_split hlt hpos]
    simp
  · have : ms.take j = ms := List.take_of_length_le hge
    rw [this]
    exact List.take_of_length_le (Nat.le_refl _)

theorem drop_render_take {ms : List (List Nat)} {j : Nat} (hj : j < ms.length)
    (hpos : 0 < j) :
    (render ms).drop ((render (ms.take j)).length + 1) = render (ms.drop j) := by
  rw [render_take_split hj hpos]
  rw [show render (ms.take j) ++ SEPARATOR :: render (ms.drop j)
      = (render (ms.take j) ++ [SEPARATOR]) ++ render (ms.drop j) by simp]
  rw [show (render (ms.take j)).length + 1 = (render (ms.take j) ++ [SEPARATOR]).length by simp]
  exact List.drop_left _ _

theorem length_render_cons (s : List Nat) {u : List (List Nat)} (h : u ≠ []) :
    (render (s :: u)).length = s.length + 1 + (render u).length := by
  rw [render_cons s h]
  simp
  omega

theorem length_render_cons_ge (s : List Nat) (u : List (List Nat)) :
    s.length ≤ (render (s :: u)).length := by
  cases u with
  | nil => simp [render]
  | cons m r => rw [length_render_cons s (by simp)]; omega

theorem length_render_pos {ms : List (List Nat)} (h : SegsOK ms) (hne : ms ≠ []) :
    0 < (render ms).length := by
  cases ms with
  | nil => exact absurd rfl hne
  | cons s u =>
    have hs : s ≠ [] := (h s (by simp)).1
    have : 0 < s.length := List.length_pos.mpr hs
    have := length_render_cons_ge s u
    omega

theorem sep_positions {ms : List (List Nat)} (h : SegsOK ms) (n : Nat) :
    (render ms)[n]? = some SEPARATOR ↔
      ∃ j, 0 < j ∧ j < ms.length ∧ n = (render (ms.take j)).length := by
  induction ms generalizing n with
  | nil =>
    simp [render]
  | cons s u ih =>
    have hsep : SEPARATOR ∉ s := (h s (by simp)).2
    cases u with
    | nil =>
      constructor
      · intro hget
        exact absurd (List.getElem?_mem hget) hsep
      · rintro ⟨j, hj0, hj1, _⟩
        simp at hj1
        omega
    | cons m r =>
      have hu : (m :: r) ≠ [] := by simp
      have hok : SegsOK (m :: r) := fun t ht => h t (by simp [ht])
      rw [render_cons s hu]
      rcases Nat.lt_trichotomy n s.length with hn | hn | hn
      · rw [List.getElem?_append_left hn]
        constructor
        · intro hget
          exact absurd (List.getElem?_mem hget) hsep
        · rintro ⟨j, hj0, hj1, hj2⟩
          have h1 : (s :: m :: r).take j = s :: (m :: r).take (j - 1) := by
            cases j with
            | zero => omega
            | succ k => simp
          rw [h1] at hj2
          have hge := length_render_cons_ge s ((m :: r).take (j - 1))
          exact absurd hj2 (by omega)
      · subst hn
        rw [List.getElem?_append_right (Nat.le_refl _)]
        simp only [Nat.sub_self, List.getElem?_cons_zero]
        constructor
        · intro _
          exact ⟨1, by omega, by simp, by simp [render]⟩
        · intro _
          trivial
      · rw [List.getElem?_append_right (Nat.le_of_lt hn), show n - s.length = (n - s.length - 1) + 1 by omega]
        simp only [List.getElem?_cons_succ]
        rw [ih hok]
        constructor
        · rintro ⟨j, hj0, hj1, hj2⟩
          refine ⟨j + 1, by omega, by simp at hj1 ⊢; omega, ?_⟩
          have h1 : (s :: m :: r).take (j + 1) = s :: (m :: r).take j := by simp
          have h2 : (m :: r).take j ≠ [] := by
            intro hc
            have := congrArg List.length hc
            simp at this
            omega
          rw [h1, length_render_cons s h2]
          omega
        · rintro ⟨j, hj0, hj1, hj2⟩
          have hj2' : 2 ≤ j := by
            by_contra hc
            have hj1' : j = 1 := by omega
            subst hj1'
            rw [show (s :: m :: r).take 1 = [s] from rfl] at hj2
            simp only [render] at hj2
            omega
          refine ⟨j - 1, by omega, by simp at hj1 ⊢; omega, ?_⟩
          have h1 : (s :: m :: r).take j = s :: (m :: r).take (j - 1) := by
            cases j with
            | zero => omega
            | succ k => simp
          have h2 : (m :: r).take (j - 1) ≠ [] := by
            intro hc
            have := congrArg List.length hc
            simp at hj1 ⊢
            simp at this
            omega
          rw [h1, length_render_cons s h2] at hj2
          omega

theorem seg_append_inj {s t : List Nat} (hs : SEPARATOR ∉ s) (ht : SEPARATOR ∉ t)
    {x y : List Nat} (h : s ++ SEPARATOR :: x = t ++ SEPARATOR :: y) : s = t ∧ x = y := by
  induction s generalizing t with
  | nil =>
    cases t with
    | nil => simpa using h
    | cons c t2 =>
      simp only [List.nil_append, List.cons_append, List.cons.injEq] at h
      exact absurd (by simp [← h.1]) ht
  | cons a s2 ih =>
    cases t with
    | nil =>
      simp only [List.nil_append, List.cons_append, List.cons.injEq] at h
      exact absurd (by simp [h.1]) hs
    | cons c t2 =>
      simp only [List.cons_append, List.cons.injEq] at h
      obtain ⟨hac, hrest⟩ := h
      have := ih (fun hc => hs (by simp [hc])) (fun hc => ht (by simp [hc])) hrest
      exact ⟨by simp [hac, this.1], this.2⟩

theorem render_inj {ms ns : List (List Nat)} (hm : SegsOK ms) (hn : SegsOK ns)
    (h : render ms = render ns) : ms = ns := by
  induction ms generalizing ns with
  | nil =>
    have : render ns = [] := by rw [← h]; rfl
    rw [(render_eq_nil_iff hn).mp this]
  | cons s u ih =>
    cases ns with
    | nil =>
      have : render (s :: u) = [] := by rw [h]; rfl
      exact absurd ((render_eq_nil_iff hm).mp this) (by simp)
    | cons t v =>
      have hsep_s : SEPARATOR ∉ s := (hm s (by simp)).2
      have hsep_t : SEPARATOR ∉ t := (hn t (by simp)).2
      cases u with
      | nil =>
        cases v with
        | nil => simpa [render] using h
        | cons m2 r2 =>
          rw [render_cons t (by simp)] at h
          simp only [render] at h
          exact absurd (by rw [h]; simp) hsep_s
      | cons m r =>
        cases v with
        | nil =>
          rw [render_cons s (by simp)] at h
          simp only [render] at h
          exact absurd (by rw [← h]; simp) hsep_t
        | cons m2 r2 =>
          rw [render_cons s (by simp), render_cons t (by simp)] at h
          obtain ⟨h1, h2⟩ := seg_append_inj hsep_s hsep_t h
          have hu : SegsOK (m :: r) := fun w hw => hm w (by simp [hw])
          have hv : SegsOK (m2 :: r2) := fun w hw => hn w (by simp [hw])
          rw [h1, ih hu hv h2]

theorem cpSegs_take_left : ∀ (ms ns : List (List Nat)),
    ms.take (cpSegs ms ns).length = cpSegs ms ns
  | [], _ => by simp [cpSegs]
  | _ :: _, [] => by simp [cpSegs]
  | x :: xs, y :: ys => by
    by_cases hxy : x = y
    · simp [cpSegs, hxy, cpSegs_take_left xs ys]
    · simp [cpSegs, hxy]

theorem cpSegs_take_right : ∀ (ms ns : List (List Nat)),
    ns.take (cpSegs ms ns).length = cpSegs ms ns
  | [], _ => by simp [cpSegs]
  | _ :: _, [] => by simp [cpSegs]
  | x :: xs, y :: ys => by
    by_cases hxy : x = y
    · subst hxy
      simp [cpSegs, cpSegs_take_right xs ys]
    · simp [cpSegs, hxy]

theorem cpSegs_length_le_left : ∀ (ms ns : List (List Nat)),
    (cpSegs ms ns).length ≤ ms.length := by
  intro ms ns
  have := congrArg List.length (cpSegs_take_left ms ns)
  simp at this
  omega

theorem cpSegs_length_le_right : ∀ (ms ns : List (List Nat)),
    (cpSegs ms ns).length ≤ ns.length := by
  intro ms ns
  have := congrArg List.length (cpSegs_take_right ms ns)
  simp at this
  omega

theorem take_eq_le_cpSegs : ∀ {ms ns : List (List Nat)} {j : Nat},
    ms.take j = ns.take j → j ≤ ms.length → j ≤ ns.length → j ≤ (cpSegs ms ns).length := by
  intro ms
  induction ms with
  | nil => intro ns j _ hj _; simp at hj; omega
  | cons x xs ih =>
    intro ns j htk hj1 hj2
    cases j with
    | zero => omega
    | succ k =>
      cases ns with
      | nil => simp at hj2
      | cons y ys =>
        simp only [List.take_succ_cons, List.cons.injEq] at htk
        obtain ⟨hxy, htk2⟩ := htk
        have := ih htk2 (by simpa using hj1) (by simpa using hj2)
        simp [cpSegs, hxy]
        omega

theorem render_take_length_le (ms : List (List Nat)) (j : Nat) :
    (render (ms.take j)).length ≤ (render ms).length := by
  rcases Nat.lt_or_ge j ms.length with hlt | hge
  · have := @take_render_take ms j (Nat.le_of_lt hlt)
    have h2 := congrArg List.length this
    simp at h2
    omega
  · rw [List.take_of_length_le hge]

theorem render_take_mono (ms : List (List Nat)) {j k : Nat} (h : j ≤ k) :
    (render (ms.take j)).length ≤ (render (ms.take k)).length := by
  have e : ms.take j = (ms.take k).take j := by
    rw [List.take_take, Nat.min_eq_left h]
  rw [e]
  exact render_take_length_le (ms.take k) j

theorem bnd_render {ms : List (List Nat)} (h : SegsOK ms) {n : Nat}
    (hb : bnd (render ms) n) : ∃ j, j ≤ ms.length ∧ n = (render (ms.take j)).length := by
  rcases hb with he | hs
  · exact ⟨ms.length, Nat.le_refl _, by rw [List.take_of_length_le (Nat.le_refl _), he]⟩
  · obtain ⟨j, hj0, hj1, hj2⟩ := (sep_positions h n).mp hs
    exact ⟨j, Nat.le_of_lt hj1, hj2⟩

theorem cpl_render {ms ns : List (List Nat)} (hm : SegsOK ms) (hn : SegsOK ns) :
    common_prefix_length (render ms) (render ns) = (render (cpSegs ms ns)).length := by
  have hjp := cpSegs_length_le_left ms ns
  have hkp := cpSegs_length_le_right ms ns
  apply Nat.le_antisymm
  · -- the LCP is one of the good cuts, hence of the form given by a common segment prefix
    obtain ⟨h1, h2, h3, h4⟩ := goodCut_cpl (render ms) (render ns)
    rcases h4 with h0 | ⟨hba, hbb⟩
    · rw [h0]; exact Nat.zero_le _
    obtain ⟨j, hj, hjn⟩ := bnd_render hm hba
    obtain ⟨k, hk, hkn⟩ := bnd_render hn hbb
    have e1 : (render ms).take (common_prefix_length (render ms) (render ns))
        = render (ms.take j) := by rw [hjn]; exact take_render_take hj
    have e2 : (render ns).take (common_prefix_length (render ms) (render ns))
        = render (ns.take k) := by rw [hkn]; exact take_render_take hk
    have e3 : render (ms.take j) = render (ns.take k) := by rw [← e1, ← e2, h3]
    have e4 : ms.take j = ns.take k := render_inj (segsOK_take hm j) (segsOK_take hn k) e3
    have hjk : j = k := by
      have := congrArg List.length e4
      simp [Nat.min_eq_left hj, Nat.min_eq_left hk] at this
      exact this
    subst hjk
    have hle : j ≤ (cpSegs ms ns).length := take_eq_le_cpSegs e4 hj hk
    have := render_take_mono ms hle
    rw [cpSegs_take_left ms ns] at this
    omega
  · -- the common segment prefix induces a good cut
    apply le_cpl_of_goodCut
    set p := cpSegs ms ns with hp
    rcases List.eq_nil_or_concat p with hnil | _
    · rw [hnil]
      simp only [render, List.length_nil]
      exact goodCut_zero _ _
    have e1 : (render ms).take (render p).length = render p := by
      have := @take_render_take ms p.length hjp
      rw [cpSegs_take_left ms ns] at this
      exact this
    have e2 : (render ns).take (render p).length = render p := by
      have := @take_render_take ns p.length hkp
      rw [cpSegs_take_right ms ns] at this
      exact this
    have hlem : (render p).length ≤ (render ms).length := by
      have := render_take_length_le ms p.length
      rw [cpSegs_take_left ms ns] at this
      exact this
    have hlen : (render p).length ≤ (render ns).length := by
      have := render_take_length_le ns p.length
      rw [cpSegs_take_right ms ns] at this
      exact this
    refine goodCut_intro hlem hlen (by rw [e1, e2]) ?_
    rcases Nat.eq_zero_or_pos (render p).length with h0 | hpos
    · exact Or.inl h0
    refine Or.inr ⟨?_, ?_⟩
    · -- boundary in (render ms)
      rcases Nat.lt_or_ge p.length ms.length with hlt | hge
      · have hppos : 0 < p.length := by
          by_contra hc
          have : p = [] := List.length_eq_zero.mp (by omega)
          rw [this] at hpos
          simp [render] at hpos
        apply bnd_sep
        apply (sep_positions hm _).mpr
        exact ⟨p.length, hppos, hlt, by rw [cpSegs_take_left ms ns]⟩
      · have hmt : ms.take p.length = ms := List.take_of_length_le hge
        have e : ms = p := by
          rw [hp, ← cpSegs_take_left ms ns, ← hp]
          exact hmt.symm
        apply bnd_of_eq
        rw [e]
    · rcases Nat.lt_or_ge p.length ns.length with hlt | hge
      · have hppos : 0 < p.length := by
          by_contra hc
          have : p = [] := List.length_eq_zero.mp (by omega)
          rw [this] at hpos
          simp [render] at hpos
        apply bnd_sep
        apply (sep_positions hn _).mpr
        exact ⟨p.length, hppos, hlt, by rw [cpSegs_take_right ms ns]⟩
      · have hnt : ns.take p.length = ns := List.take_of_length_le hge
        have e : ns = p := by
          rw [hp, ← cpSegs_take_right ms ns, ← hp]
          exact hnt.symm
        apply bnd_of_eq
        rw [e]

theorem treeNodesL_eq_sum {V : Type} (cs : List (BuilderNode V)) :
    treeNodesL cs = (cs.map treeNodes).sum := by
  induction cs with
  | nil => rfl
  | cons c cs ih => simp [treeNodesL, ih]

theorem treeLabelsL_eq_sum {V : Type} (cs : List (BuilderNode V)) :
    treeLabelsL cs = (cs.map treeLabels).sum := by
  induction cs with
  | nil => rfl
  | cons c cs ih => simp [treeLabelsL, ih]

theorem treeValuesL_eq_sum {V : Type} (cs : List (BuilderNode V)) :
    treeValuesL cs = (cs.map treeValues).sum := by
  induction cs with
  | nil => rfl
  | cons c cs ih => simp [treeValuesL, ih]

theorem sum_map_set {α : Type} (f : α → Nat) (d : α) :
    ∀ (cs : List α) (i : Nat) (x : α), i < cs.length →
      ((cs.set i x).map f).sum + f (cs.getD i d) = (cs.map f).sum + f x := by
  intro cs
  induction cs with
  | nil => intro i x h; simp at h
  | cons c cs ih =>
    intro i x h
    cases i with
    | zero => simp [List.set]; omega
    | succ j =>
      simp only [List.set, List.map_cons, List.sum_cons, List.getD_cons_succ]
      have := ih j x (by simpa using h)
      omega

theorem getD_le_sum {α : Type} (f : α → Nat) (d : α) :
    ∀ (cs : List α) (i : Nat), i < cs.length → f (cs.getD i d) ≤ (cs.map f).sum := by
  intro cs
  induction cs with
  | nil => intro i h; simp at h
  | cons c cs ih =>
    intro i h
    cases i with
    | zero => simp
    | succ j =>
      simp only [List.getD_cons_succ, List.map_cons, List.sum_cons]
      have := ih j (by simpa using h)
      omega

theorem sortChildren_perm {V : Type} (cs : List (BuilderNode V)) :
    List.Perm (sortChildren cs) cs :=
  List.perm_insertionSort _ _

theorem treeNodesL_sortChildren {V : Type} (cs : List (BuilderNode V)) :
    treeNodesL (sortChildren cs) = treeNodesL cs := by
  rw [treeNodesL_eq_sum, treeNodesL_eq_sum]
  exact List.Perm.sum_eq (List.Perm.map treeNodes (sortChildren_perm cs))

theorem treeLabelsL_sortChildren {V : Type} (cs : List (BuilderNode V)) :
    treeLabelsL (sortChildren cs) = treeLabelsL cs := by
  rw [treeLabelsL_eq_sum, treeLabelsL_eq_sum]
  exact List.Perm.sum_eq (List.Perm.map treeLabels (sortChildren_perm cs))

theorem treeValuesL_sortChildren {V : Type} (cs : List (BuilderNode V)) :
    treeValuesL (sortChildren cs) = treeValuesL cs := by
  rw [treeValuesL_eq_sum, treeValuesL_eq_sum]
  exact List.Perm.sum_eq (List.Perm.map treeValues (sortChildren_perm cs))

theorem sortChildren_length {V : Type} (cs : List (BuilderNode V)) :
    (sortChildren cs).length = cs.length :=
  (sortChildren_perm cs).length_eq

theorem findChild_some {V : Type} {label : List Nat} :
    ∀ {cs : List (BuilderNode V)} {i len : Nat},
      findChild label cs = some (i, len) →
      i < cs.length ∧ 0 < len ∧
        len = common_prefix_length (cs.getD i (.mk [] [] none)).label label := by
  intro cs
  induction cs with
  | nil => intro i len h; simp [findChild] at h
  | cons c cs ih =>
    intro i len h
    unfold findChild at h
    by_cases hp : common_prefix_length c.label label > 0
    · rw [if_pos hp] at h
      simp only [Option.some_inj, Prod.mk.injEq] at h
      obtain ⟨h1, h2⟩ := h
      subst h1
      subst h2
      exact ⟨by simp, hp, by simp⟩
    · rw [if_neg hp] at h
      cases hfc : findChild label cs with
      | none => rw [hfc] at h; exact absurd h (by simp)
      | some p =>
        rw [hfc] at h
        obtain ⟨i0, len0⟩ := p
        simp only [Option.some_inj, Prod.mk.injEq] at h
        obtain ⟨h1, h2⟩ := h
        subst h1
        subst h2
        obtain ⟨e1, e2, e3⟩ := ih hfc
        exact ⟨by simpa using e1, e2, by simpa using e3⟩

theorem findChild_none {V : Type} {label : List Nat} :
    ∀ {cs : List (BuilderNode V)}, findChild label cs = none →
      ∀ c ∈ cs, common_prefix_length c.label label = 0 := by
  intro cs
  induction cs with
  | nil => intro _ c hc; simp at hc
  | cons c0 cs ih =>
    intro h c hc
    unfold findChild at h
    by_cases hp : common_prefix_length c0.label label > 0
    · rw [if_pos hp] at h; exact absurd h (by simp)
    · rw [if_neg hp] at h
      cases hfc : findChild label cs with
      | some p => rw [hfc] at h; obtain ⟨a, b⟩ := p; exact absurd h (by simp)
      | none =>
        rcases List.mem_cons.mp hc with rfl | hc
        · omega
        · exact ih hfc c hc

theorem splitNode_counts {V : Type} (c : BuilderNode V) (length : Nat)
    (h : length < c.label.length) :
    treeNodes (splitNode c length) = treeNodes c + 1 ∧
    treeLabels (splitNode c length) + 1 = treeLabels c ∧
    treeValues (splitNode c length) = treeValues c := by
  cases c with
  | mk lab ch v =>
    simp only [splitNode, BuilderNode.label, BuilderNode.children, BuilderNode.value] at h ⊢
    refine ⟨?_, ?_, ?_⟩
    · simp [treeNodes, treeNodesL]
      omega
    · simp only [treeLabels, treeLabelsL, List.length_take, List.length_drop]
      omega
    · simp [treeValues, treeValuesL]

theorem pushAt_some {V : Type} {node : BuilderNode V} {nodes labels values : Nat}
    {label : List Nat} {value : V} {i length : Nat}
    (h : findChild label node.children = some (i, length)) :
    pushAt node nodes labels values label value =
      (let child := node.children.getD i (.mk [] [] none)
       let nodes2 := if length < child.label.length then nodes + 1 else nodes
       let labels2 := if length < child.label.length then labels - 1 else labels
       let child2 := if length < child.label.length then splitNode child length else child
       let r := pushAt child2 nodes2 labels2 values (label.drop (min (length + 1) label.length)) value
       (.mk node.label (node.children.set i r.1) node.value, r.2.1, r.2.2.1, r.2.2.2.1, r.2.2.2.2)) := by
  conv_lhs => unfold pushAt
  split
  · rename_i i2 len2 heq
    rw [h] at heq
    simp only [Option.some_inj, Prod.mk.injEq] at heq
    obtain ⟨e1, e2⟩ := heq
    subst e1
    subst e2
    rfl
  · rename_i heq
    rw [h] at heq
    exact absurd heq (by simp)

theorem pushAt_none_empty {V : Type} {node : BuilderNode V} {nodes labels values : Nat}
    {value : V} (h : findChild ([] : List Nat) node.children = none) :
    pushAt node nodes labels values [] value =
      (.mk node.label node.children (some value), nodes, labels,
        if node.value.isSome then values else values + 1, node.value.isSome) := by
  conv_lhs => unfold pushAt
  split
  · rename_i i2 len2 heq
    rw [h] at heq
    exact absurd heq (by simp)
  · rfl

theorem pushAt_none_nonempty {V : Type} {node : BuilderNode V} {nodes labels values : Nat}
    {label : List Nat} {value : V} (h : findChild label node.children = none)
    (hne : label ≠ []) :
    pushAt node nodes labels values label value =
      (.mk node.label (node.children ++ [.mk label [] (some value)]) node.value,
        nodes + 1, labels + label.length, values + 1, false) := by
  conv_lhs => unfold pushAt
  split
  · rename_i i2 len2 heq
    rw [h] at heq
    exact absurd heq (by simp)
  · rw [if_neg (by simpa using hne)]

theorem BuilderNode.label_mk {V : Type} (l : List Nat) (c : List (BuilderNode V))
    (v : Option V) : (BuilderNode.mk l c v).label = l := rfl

theorem BuilderNode.children_mk {V : Type} (l : List Nat) (c : List (BuilderNode V))
    (v : Option V) : (BuilderNode.mk l c v).children = c := rfl

theorem BuilderNode.value_mk {V : Type} (l : List Nat) (c : List (BuilderNode V))
    (v : Option V) : (BuilderNode.mk l c v).value = v := rfl

theorem treeNodes_eq {V : Type} (b : BuilderNode V) :
    treeNodes b = 1 + treeNodesL b.children := by
  cases b with
  | mk l c v => simp [treeNodes, BuilderNode.children]

theorem treeLabels_eq {V : Type} (b : BuilderNode V) :
    treeLabels b = b.label.length + treeLabelsL b.children := by
  cases b with
  | mk l c v => simp [treeLabels, BuilderNode.label, BuilderNode.children]

theorem treeValues_eq {V : Type} (b : BuilderNode V) :
    treeValues b = (if b.value.isSome then 1 else 0) + treeValuesL b.children := by
  cases b with
  | mk l c v => simp [treeValues, BuilderNode.value, BuilderNode.children]

theorem pushAt_counts {V : Type} : ∀ (node : BuilderNode V) (nodes labels values : Nat)
    (label : List Nat) (value : V), treeLabels node ≤ labels →
    (pushAt node nodes labels values label value).2.1 + treeNodes node
        = nodes + treeNodes (pushAt node nodes labels values label value).1 ∧
    (pushAt node nodes labels values label value).2.2.1 + treeLabels node
        = labels + treeLabels (pushAt node nodes labels values label value).1 ∧
    (pushAt node nodes labels values label value).2.2.2.1 + treeValues node
        = values + treeValues (pushAt node nodes labels values label value).1 := by
  intro node nodes labels values label value
  induction node, nodes, labels, values, label, value using pushAt.induct with
  | case1 node nodes labels values label value i length h child nodes2 labels2 child2 ih =>
    intro hlab
    obtain ⟨hi, hpos, hlen⟩ := findChild_some h
    unfold_let child2 labels2 nodes2 child at ih
    rw [pushAt_some h]
    dsimp only
    simp only [dite_eq_ite] at ih
    -- facts about the child and the whole node
    have hch_nodes : treeNodes (node.children.getD i (BuilderNode.mk [] [] none))
        ≤ treeNodesL node.children := by
      rw [treeNodesL_eq_sum]
      exact getD_le_sum treeNodes _ node.children i hi
    have hch_labels : treeLabels (node.children.getD i (BuilderNode.mk [] [] none))
        ≤ treeLabelsL node.children := by
      rw [treeLabelsL_eq_sum]
      exact getD_le_sum treeLabels _ node.children i hi
    have hnode_n : treeNodes node = 1 + treeNodesL node.children := treeNodes_eq node
    have hnode_l : treeLabels node = node.label.length + treeLabelsL node.children :=
      treeLabels_eq node
    have hnode_v : treeValues node
        = (if node.value.isSome then 1 else 0) + treeValuesL node.children := treeValues_eq node
    by_cases hsplit : length < (node.children.getD i (BuilderNode.mk [] [] none)).label.length
    · simp only [if_pos hsplit] at ih ⊢
      obtain ⟨hs1, hs2, hs3⟩ :=
        splitNode_counts (node.children.getD i (BuilderNode.mk [] [] none)) length hsplit
      have hlab2 : treeLabels (splitNode (node.children.getD i (BuilderNode.mk [] [] none)) length)
          ≤ labels - 1 := by omega
      obtain ⟨ihn, ihl, ihv⟩ := ih hlab2
      -- the recursive result
      set r := pushAt (splitNode (node.children.getD i (BuilderNode.mk [] [] none)) length)
        (nodes + 1) (labels - 1) values (List.drop ((length + 1) ⊓ label.length) label) value with hr
      have e1 : treeNodesL (node.children.set i r.1)
            + treeNodes (node.children.getD i (BuilderNode.mk [] [] none))
          = treeNodesL node.children + treeNodes r.1 := by
        rw [treeNodesL_eq_sum, treeNodesL_eq_sum]
        exact sum_map_set treeNodes _ node.children i r.1 hi
      have e2 : treeLabelsL (node.children.set i r.1)
            + treeLabels (node.children.getD i (BuilderNode.mk [] [] none))
          = treeLabelsL node.children + treeLabels r.1 := by
        rw [treeLabelsL_eq_sum, treeLabelsL_eq_sum]
        exact sum_map_set treeLabels _ node.children i r.1 hi
      have e3 : treeValuesL (node.children.set i r.1)
            + treeValues (node.children.getD i (BuilderNode.mk [] [] none))
          = treeValuesL node.children + treeValues r.1 := by
        rw [treeValuesL_eq_sum, treeValuesL_eq_sum]
        exact sum_map_set treeValues _ node.children i r.1 hi
      have g1 : treeNodes (BuilderNode.mk node.label (node.children.set i r.1) node.value)
          = 1 + treeNodesL (node.children.set i r.1) := treeNodes_eq _
      have g2 : treeLabels (BuilderNode.mk node.label (node.children.set i r.1) node.value)
          = node.label.length + treeLabelsL (node.children.set i r.1) := treeLabels_eq _
      have g3 : treeValues (BuilderNode.mk node.label (node.children.set i r.1) node.value)
          = (if node.value.isSome then 1 else 0) + treeValuesL (node.children.set i r.1) :=
        treeValues_eq _
      simp only [BuilderNode.label_mk, BuilderNode.children_mk, BuilderNode.value_mk] at g1 g2 g3
      refine ⟨?_, ?_, ?_⟩ <;> omega
    · simp only [if_neg hsplit] at ih ⊢
      obtain ⟨ihn, ihl, ihv⟩ := ih (by omega)
      set r := pushAt (node.children.getD i (BuilderNode.mk [] [] none))
        nodes labels values (List.drop ((length + 1) ⊓ label.length) label) value with hr
      have e1 : treeNodesL (node.children.set i r.1)
            + treeNodes (node.children.getD i (BuilderNode.mk [] [] none))
          = treeNodesL node.children + treeNodes r.1 := by
        rw [treeNodesL_eq_sum, treeNodesL_eq_sum]
        exact sum_map_set treeNodes _ node.children i r.1 hi
      have e2 : treeLabelsL (node.children.set i r.1)
            + treeLabels (node.children.getD i (BuilderNode.mk [] [] none))
          = treeLabelsL node.children + treeLabels r.1 := by
        rw [treeLabelsL_eq_sum, treeLabelsL_eq_sum]
        exact sum_map_set treeLabels _ node.children i r.1 hi
      have e3 : treeValuesL (node.children.set i r.1)
            + treeValues (node.children.getD i (BuilderNode.mk [] [] none))
          = treeValuesL node.children + treeValues r.1 := by
        rw [treeValuesL_eq_sum, treeValuesL_eq_sum]
        exact sum_map_set treeValues _ node.children i r.1 hi
      have g1 : treeNodes (BuilderNode.mk node.label (node.children.set i r.1) node.value)
          = 1 + treeNodesL (node.children.set i r.1) := treeNodes_eq _
      have g2 : treeLabels (BuilderNode.mk node.label (node.children.set i r.1) node.value)
          = node.label.length + treeLabelsL (node.children.set i r.1) := treeLabels_eq _
      have g3 : treeValues (BuilderNode.mk node.label (node.children.set i r.1) node.value)
          = (if node.value.isSome then 1 else 0) + treeValuesL (node.children.set i r.1) :=
        treeValues_eq _
      simp only [BuilderNode.label_mk, BuilderNode.children_mk, BuilderNode.value_mk] at g1 g2 g3
      refine ⟨?_, ?_, ?_⟩ <;> omega
  | case2 node nodes labels values label value h hemp =>
    intro hlab
    have hl : label = [] := by simpa using hemp
    subst hl
    rw [pushAt_none_empty h]
    dsimp only
    have g1 : treeNodes (BuilderNode.mk node.label node.children (some value))
        = 1 + treeNodesL node.children := treeNodes_eq _
    have g2 : treeLabels (BuilderNode.mk node.label node.children (some value))
        = node.label.length + treeLabelsL node.children := treeLabels_eq _
    have g3 : treeValues (BuilderNode.mk node.label node.children (some value))
        = 1 + treeValuesL node.children := by
      rw [treeValues_eq]
      rfl
    simp only [BuilderNode.label_mk, BuilderNode.children_mk, BuilderNode.value_mk] at g1 g2 g3
    have hnode_n : treeNodes node = 1 + treeNodesL node.children := treeNodes_eq node
    have hnode_l : treeLabels node = node.label.length + treeLabelsL node.children :=
      treeLabels_eq node
    have hnode_v : treeValues node
        = (if node.value.isSome then 1 else 0) + treeValuesL node.children := treeValues_eq node
    by_cases hv : node.value.isSome
    · simp only [hv, if_true] at hnode_v ⊢
      refine ⟨by omega, by omega, by omega⟩
    · simp [hv] at hnode_v ⊢
      refine ⟨by omega, by omega, by omega⟩
  | case3 node nodes labels values label value h hemp =>
    intro hlab
    have hl : label ≠ [] := by simpa using hemp
    rw [pushAt_none_nonempty h hl]
    dsimp only
    have happ : ∀ (x : BuilderNode V),
        treeNodesL (node.children ++ [x]) = treeNodesL node.children + treeNodes x ∧
        treeLabelsL (node.children ++ [x]) = treeLabelsL node.children + treeLabels x ∧
        treeValuesL (node.children ++ [x]) = treeValuesL node.children + treeValues x := by
      intro x
      refine ⟨?_, ?_, ?_⟩
      · rw [treeNodesL_eq_sum, treeNodesL_eq_sum]; simp
      · rw [treeLabelsL_eq_sum, treeLabelsL_eq_sum]; simp
      · rw [treeValuesL_eq_sum, treeValuesL_eq_sum]; simp
    obtain ⟨ha1, ha2, ha3⟩ := happ (BuilderNode.mk label [] (some value))
    have hx1 : treeNodes (BuilderNode.mk label ([] : List (BuilderNode V)) (some value)) = 1 := by
      rw [treeNodes_eq]; rfl
    have hx2 : treeLabels (BuilderNode.mk label ([] : List (BuilderNode V)) (some value))
        = label.length := by
      rw [treeLabels_eq]
      simp [BuilderNode.label, BuilderNode.children, treeLabelsL]
    have hx3 : treeValues (BuilderNode.mk label ([] : List (BuilderNode V)) (some value)) = 1 := by
      rw [treeValues_eq]; rfl
    have g1 : treeNodes (BuilderNode.mk node.label (node.children ++ [BuilderNode.mk label [] (some value)]) node.value)
        = 1 + treeNodesL (node.children ++ [BuilderNode.mk label [] (some value)]) := treeNodes_eq _
    have g2 : treeLabels (BuilderNode.mk node.label (node.children ++ [BuilderNode.mk label [] (some value)]) node.value)
        = node.label.length + treeLabelsL (node.children ++ [BuilderNode.mk label [] (some value)]) := treeLabels_eq _
    have g3 : treeValues (BuilderNode.mk node.label (node.children ++ [BuilderNode.mk label [] (some value)]) node.value)
        = (if node.value.isSome then 1 else 0)
          + treeValuesL (node.children ++ [BuilderNode.mk label [] (some value)]) := treeValues_eq _
    simp only [BuilderNode.label_mk, BuilderNode.children_mk, BuilderNode.value_mk] at g1 g2 g3
    have hnode_n : treeNodes node = 1 + treeNodesL node.children := treeNodes_eq node
    have hnode_l : treeLabels node = node.label.length + treeLabelsL node.children :=
      treeLabels_eq node
    have hnode_v : treeValues node
        = (if node.value.isSome then 1 else 0) + treeValuesL node.children := treeValues_eq node
    refine ⟨by omega, by omega, by omega⟩

theorem mem_le_treeNodesL {V : Type} {c : BuilderNode V} {cs : List (BuilderNode V)}
    (h : c ∈ cs) : treeNodes c ≤ treeNodesL cs := by
  rw [treeNodesL_eq_sum]
  exact List.single_le_sum (fun x _ => Nat.zero_le x) _ (List.mem_map_of_mem treeNodes h)

theorem updateNode_length (ns : List Node) (i : Nat) (f : Node → Node) :
    (updateNode ns i f).length = ns.length := by
  simp [updateNode]

theorem push_sync {V : Type} (b : TrieBuilder V) (label : List Nat) (value : V)
    (h1 : b.nodes = treeNodes b.root) (h2 : b.labels = treeLabels b.root)
    (h3 : b.values = treeValues b.root) :
    (b.push label value).1.nodes = treeNodes (b.push label value).1.root ∧
    (b.push label value).1.labels = treeLabels (b.push label value).1.root ∧
    (b.push label value).1.values = treeValues (b.push label value).1.root := by
  obtain ⟨c1, c2, c3⟩ := pushAt_counts b.root b.nodes b.labels b.values label value (by omega)
  simp only [TrieBuilder.push]
  refine ⟨by omega, by omega, by omega⟩

theorem pushAll_sync {V : Type} : ∀ (ps : List (List Nat × V)) (b : TrieBuilder V),
    b.nodes = treeNodes b.root → b.labels = treeLabels b.root → b.values = treeValues b.root →
    (TrieBuilder.pushAll b ps).nodes = treeNodes (TrieBuilder.pushAll b ps).root ∧
    (TrieBuilder.pushAll b ps).labels = treeLabels (TrieBuilder.pushAll b ps).root ∧
    (TrieBuilder.pushAll b ps).values = treeValues (TrieBuilder.pushAll b ps).root := by
  intro ps
  induction ps with
  | nil => intro b h1 h2 h3; exact ⟨h1, h2, h3⟩
  | cons p ps ih =>
    intro b h1 h2 h3
    obtain ⟨l, v⟩ := p
    obtain ⟨g1, g2, g3⟩ := push_sync b l v h1 h2 h3
    simpa only [TrieBuilder.pushAll] using ih ((b.push l v).1) g1 g2 g3

theorem intoTrieChildren_len {V : Type} : ∀ (cs : List (BuilderNode V)) (idx : Nat)
    (st : List Node × List Nat × List V),
    (∀ c ∈ cs, ∀ (k : Nat) (st2 : List Node × List Nat × List V),
      (intoTrieNode c k st2).1.length + 1 = st2.1.length + treeNodes c ∧
      (intoTrieNode c k st2).2.1.length = st2.2.1.length + treeLabels c ∧
      (intoTrieNode c k st2).2.2.length = st2.2.2.length + treeValues c) →
    (intoTrieChildren cs idx st).1.length + cs.length = st.1.length + treeNodesL cs ∧
    (intoTrieChildren cs idx st).2.1.length = st.2.1.length + treeLabelsL cs ∧
    (intoTrieChildren cs idx st).2.2.length = st.2.2.length + treeValuesL cs := by
  intro cs
  induction cs with
  | nil =>
    intro idx st h
    simp [intoTrieChildren, treeNodesL, treeLabelsL, treeValuesL]
  | cons c cs ih =>
    intro idx st h
    simp only [intoTrieChildren]
    obtain ⟨h1, h2, h3⟩ := h c (by simp) idx st
    obtain ⟨g1, g2, g3⟩ := ih (idx + 1) (intoTrieNode c idx st) (fun c2 hc2 => h c2 (by simp [hc2]))
    have e1 : treeNodesL (c :: cs) = treeNodes c + treeNodesL cs := by simp [treeNodesL]
    have e2 : treeLabelsL (c :: cs) = treeLabels c + treeLabelsL cs := by simp [treeLabelsL]
    have e3 : treeValuesL (c :: cs) = treeValues c + treeValuesL cs := by simp [treeValuesL]
    refine ⟨by simp only [List.length_cons]; omega, by omega, by omega⟩

theorem intoTrieNode_len {V : Type} : ∀ (n : Nat) (b : BuilderNode V), treeNodes b ≤ n →
    ∀ (index : Nat) (st : List Node × List Nat × List V),
    (intoTrieNode b index st).1.length + 1 = st.1.length + treeNodes b ∧
    (intoTrieNode b index st).2.1.length = st.2.1.length + treeLabels b ∧
    (intoTrieNode b index st).2.2.length = st.2.2.length + treeValues b := by
  intro n
  induction n with
  | zero =>
    intro b hb
    have e := treeNodes_eq b
    exact absurd hb (by omega)
  | succ n ihn =>
    intro b hb index st
    have hchild : ∀ c ∈ sortChildren b.children, ∀ (k : Nat)
        (st2 : List Node × List Nat × List V),
        (intoTrieNode c k st2).1.length + 1 = st2.1.length + treeNodes c ∧
        (intoTrieNode c k st2).2.1.length = st2.2.1.length + treeLabels c ∧
        (intoTrieNode c k st2).2.2.length = st2.2.2.length + treeValues c := by
      intro c hc
      have hmem : c ∈ b.children := (sortChildren_perm b.children).mem_iff.mp hc
      have hle : treeNodes c ≤ treeNodesL b.children := mem_le_treeNodesL hmem
      have e := treeNodes_eq b
      exact ihn c (by omega)
    obtain ⟨ns, ls, vs⟩ := st
    have key := fun (idx2 : Nat) (st2 : List Node × List Nat × List V) =>
      intoTrieChildren_len (sortChildren b.children) idx2 st2 hchild
    have hsl : (sortChildren b.children).length = b.children.length := sortChildren_length _
    have hsn : treeNodesL (sortChildren b.children) = treeNodesL b.children :=
      treeNodesL_sortChildren _
    have hsb : treeLabelsL (sortChildren b.children) = treeLabelsL b.children :=
      treeLabelsL_sortChildren _
    have hsv : treeValuesL (sortChildren b.children) = treeValuesL b.children :=
      treeValuesL_sortChildren _
    have en := treeNodes_eq b
    have el := treeLabels_eq b
    have ev := treeValues_eq b
    cases hbv : b.value with
    | none =>
      rw [hbv] at ev
      simp only [intoTrieNode, hbv, updateNode_length]
      obtain ⟨G1, G2, G3⟩ := key ns.length
        (updateNode
            (updateNode ns index
              (fun nd => { nd with label := (ls.length, ls.length + b.label.length) }))
            index
            (fun nd => { nd with children :=
              (ns.length, ns.length + (sortChildren b.children).length) })
          ++ List.replicate (sortChildren b.children).length blankNode,
          ls ++ b.label, vs)
      simp only [List.length_append, List.length_replicate, updateNode_length] at G1 G2 G3
      simp only [Option.isSome_none, Bool.false_eq_true, if_false] at ev
      refine ⟨by omega, by omega, by omega⟩
    | some v0 =>
      rw [hbv] at ev
      simp only [intoTrieNode, hbv, updateNode_length]
      obtain ⟨G1, G2, G3⟩ := key ns.length
        (updateNode
            (updateNode
              (updateNode ns index
                (fun nd => { nd with label := (ls.length, ls.length + b.label.length) }))
              index
              (fun nd => { nd with value := some vs.length }))
            index
            (fun nd => { nd with children :=
              (ns.length, ns.length + (sortChildren b.children).length) })
          ++ List.replicate (sortChildren b.children).length blankNode,
          ls ++ b.label, vs ++ [v0])
      simp only [List.length_append, List.length_replicate, updateNode_length] at G1 G2 G3
      simp only [Option.isSome_some, if_true] at ev
      have hone : ([v0] : List V).length = 1 := rfl
      refine ⟨by omega, by omega, by omega⟩

/-- Theorem for claim C3: for every sequence of pushes with normalized labels,
the arrays produced by `build` have lengths exactly equal to the running
`nodes`/`labels`/`values` counters maintained during insertion, so the three
`assert_eq` consistency checks in `TrieBuilder::build` succeed. -/
theorem build_lengths_match_counters {V : Type} (ps : List (List (List Nat) × V))
    (hok : ∀ p ∈ ps, SegsOK p.1) :
    (buildFromSegs ps).build.nodes.length = (buildFromSegs ps).nodes ∧
    (buildFromSegs ps).build.labels.length = (buildFromSegs ps).labels ∧
    (buildFromSegs ps).build.values.length = (buildFromSegs ps).values := by
  have hroot : treeNodes (BuilderNode.mk ([] : List Nat) [] (none : Option V)) = 1 := by
    simp [treeNodes, treeNodesL]
  have hrootl : treeLabels (BuilderNode.mk ([] : List Nat) [] (none : Option V)) = 0 := by
    simp [treeLabels, treeLabelsL]
  have hrootv : treeValues (BuilderNode.mk ([] : List Nat) [] (none : Option V)) = 0 := by
    simp [treeValues, treeValuesL]
  obtain ⟨s1, s2, s3⟩ := pushAll_sync (ps.map (fun p => (render p.1, p.2))) (TrieBuilder.new V)
    (by simp [TrieBuilder.new, hroot]) (by simp [TrieBuilder.new, hrootl])
    (by simp [TrieBuilder.new, hrootv])
  obtain ⟨g1, g2, g3⟩ := intoTrieNode_len (treeNodes (buildFromSegs ps).root)
    (buildFromSegs ps).root (Nat.le_refl _) 0 (push_trie_node [], [], [])
  have hb : buildFromSegs ps = TrieBuilder.pushAll (TrieBuilder.new V)
      (ps.map (fun p => (render p.1, p.2))) := rfl
  rw [hb] at g1 g2 g3 ⊢
  simp only [TrieBuilder.build]
  have hst1 : ((push_trie_node ([] : List Node), ([] : List Nat), ([] : List V))).1.length
      = 1 := rfl
  have hst2 : ((push_trie_node ([] : List Node), ([] : List Nat), ([] : List V))).2.1.length
      = 0 := rfl
  have hst3 : ((push_trie_node ([] : List Node), ([] : List Nat), ([] : List V))).2.2.length
      = 0 := rfl
  refine ⟨by omega, by omega, by omega⟩

/-- Theorem for claim C2: `common_prefix_length` credits only whole segments.
The result is always a valid cut (the two labels agree on it and it ends on a
whole-segment boundary of both, or is 0) and it is the largest such cut; in
particular the five example values from the specification hold (`a`/`a/bc`,
`a/bc`/`a`, `a/b`/`a/bc`, `a/bc`/`a/bc` and `a/bc/d`/`x/bc/d`). -/
theorem common_prefix_length_whole_segments :
    (∀ a b : List Nat, goodCut a b (common_prefix_length a b)
      ∧ ∀ n, goodCut a b n → n ≤ common_prefix_length a b)
    ∧ common_prefix_length [97] [97, 47, 98, 99] = 1
    ∧ common_prefix_length [97, 47, 98, 99] [97] = 1
    ∧ common_prefix_length [97, 47, 98] [97, 47, 98, 99] = 1
    ∧ common_prefix_length [97, 47, 98, 99] [97, 47, 98, 99] = 4
    ∧ common_prefix_length [97, 47, 98, 99, 47, 100] [120, 47, 98, 99, 47, 100] = 0 := by
  refine ⟨fun a b => ⟨goodCut_cpl a b, fun n h => le_cpl_of_goodCut h⟩, rfl, rfl, rfl, rfl, rfl⟩

/-- Witness for C2 at a concrete input: the cut 1 of `a/` and `a/b` is a good
cut and therefore bounded by the computed common prefix length. -/
theorem common_prefix_length_whole_segments_witness :
    goodCut [97, 47] [97, 47, 98] 1 ∧ 1 ≤ common_prefix_length [97, 47] [97, 47, 98] :=
  ⟨by decide, (common_prefix_length_whole_segments.1 [97, 47] [97, 47, 98]).2 1 (by decide)⟩

/-- Theorem for claim C10: `common_prefix_length` is symmetric in its two
arguments, even though the implementation branches asymmetrically on which
argument is longer. -/
theorem common_prefix_length_symmetric (a b : List Nat) :
    common_prefix_length a b = common_prefix_length b a :=
  cpl_comm a b

/-- Witness for claim C3 at a concrete push sequence (which exercises the
node-splitting path: `a/bc/de` is pushed after `a/bc/de/f`). -/
theorem build_lengths_match_counters_witness :
    (∀ p ∈ ([([[97]], 1), ([[97], [98, 99], [100, 101], [102]], 2), ([[97], [98, 99]], 3)]
        : List (List (List Nat) × Nat)), SegsOK p.1)
    ∧ ((buildFromSegs [([[97]], 1), ([[97], [98, 99], [100, 101], [102]], 2),
          ([[97], [98, 99]], 3)]).build.nodes.length
        = (buildFromSegs [([[97]], 1), ([[97], [98, 99], [100, 101], [102]], 2),
          ([[97], [98, 99]], 3)] : TrieBuilder Nat).nodes ∧
      (buildFromSegs [([[97]], 1), ([[97], [98, 99], [100, 101], [102]], 2),
          ([[97], [98, 99]], 3)]).build.labels.length
        = (buildFromSegs [([[97]], 1), ([[97], [98, 99], [100, 101], [102]], 2),
          ([[97], [98, 99]], 3)] : TrieBuilder Nat).labels ∧
      (buildFromSegs [([[97]], 1), ([[97], [98, 99], [100, 101], [102]], 2),
          ([[97], [98, 99]], 3)]).build.values.length
        = (buildFromSegs [([[97]], 1), ([[97], [98, 99], [100, 101], [102]], 2),
          ([[97], [98, 99]], 3)] : TrieBuilder Nat).values) :=
  ⟨by decide, build_lengths_match_counters _ (by decide)⟩

theorem splitSep_no_sep {s : List Nat} (h : SEPARATOR ∉ s) : splitSep s = [s] := by
  induction s with
  | nil => rfl
  | cons x xs ih =>
    have hx : x ≠ SEPARATOR := fun hc => h (by simp [hc])
    have hxs : SEPARATOR ∉ xs := fun hc => h (by simp [hc])
    simp only [splitSep, if_neg hx, ih hxs]
    rfl

theorem splitSep_append_sep {s : List Nat} (h : SEPARATOR ∉ s) (r : List Nat) :
    splitSep (s ++ SEPARATOR :: r) = s :: splitSep r := by
  induction s with
  | nil => simp [splitSep]
  | cons x xs ih =>
    have hx : x ≠ SEPARATOR := fun hc => h (by simp [hc])
    have hxs : SEPARATOR ∉ xs := fun hc => h (by simp [hc])
    have e : splitSep ((x :: xs) ++ SEPARATOR :: r)
        = (x :: (splitSep (xs ++ SEPARATOR :: r)).headD [])
            :: (splitSep (xs ++ SEPARATOR :: r)).tail := by
      simp [splitSep, hx]
    rw [e, ih hxs]
    rfl

theorem splitSep_render {ms : List (List Nat)} (h : SegsOK ms) (hne : ms ≠ []) :
    splitSep (render ms) = ms := by
  induction ms with
  | nil => exact absurd rfl hne
  | cons s u ih =>
    have hs : SEPARATOR ∉ s := (h s (by simp)).2
    cases u with
    | nil => simpa [render] using splitSep_no_sep hs
    | cons m r2 =>
      rw [render_cons s (by simp), splitSep_append_sep hs]
      rw [ih (fun t ht => h t (by simp [ht])) (by simp)]

theorem findTree_nil {V : Type} (n : BuilderNode V) : findTree n [] = n.value := by
  unfold findTree
  rfl

theorem findTree_cons {V : Type} (n : BuilderNode V) (s : List Nat) (rest : List (List Nat)) :
    findTree n (s :: rest) =
      match n.children.find?
          (fun c => !c.label.isEmpty && (splitSep c.label).isPrefixOf (s :: rest)) with
      | some c => findTree c ((s :: rest).drop (splitSep c.label).length)
      | none => none := by
  conv_lhs => unfold findTree
  split
  · rename_i c heq
    rw [heq]
  · rename_i heq
    rw [heq]

theorem findTree_children_only {V : Type} (l l2 : List Nat) (ch : List (BuilderNode V))
    (v v2 : Option V) (s : List Nat) (rest : List (List Nat)) :
    findTree (BuilderNode.mk l ch v) (s :: rest) = findTree (BuilderNode.mk l2 ch v2) (s :: rest) := by
  rw [findTree_cons, findTree_cons]
  rfl

theorem find?_set_untouched {α : Type} (p : α → Bool) (d : α) :
    ∀ (l : List α) (i : Nat) (x : α), p x = false → p (l.getD i d) = false →
      (l.set i x).find? p = l.find? p := by
  intro l
  induction l with
  | nil => intro i x _ _; rfl
  | cons c cs ih =>
    intro i x hx hold
    cases i with
    | zero =>
      simp only [List.getD_cons_zero] at hold
      simp [List.set, List.find?, hx, hold]
    | succ j =>
      simp only [List.getD_cons_succ] at hold
      simp only [List.set, List.find?]
      cases hpc : p c with
      | true => rfl
      | false => exact ih j x hx hold

theorem find?_unique {α : Type} (p : α → Bool) (d : α) :
    ∀ (l : List α) (i : Nat), i < l.length →
      (∀ j, j < l.length → j ≠ i → p (l.getD j d) = false) →
      l.find? p = if p (l.getD i d) then some (l.getD i d) else none := by
  intro l
  induction l with
  | nil => intro i h; simp at h
  | cons c cs ih =>
    intro i hi hothers
    cases i with
    | zero =>
      simp only [List.getD_cons_zero]
      cases hpc : p c with
      | true => rw [List.find?_cons_of_pos _ hpc]; simp
      | false =>
        rw [List.find?_cons_of_neg _ (by simp [hpc]), if_neg (by simp [hpc])]
        cases hfc : cs.find? p with
        | none => rfl
        | some y =>
          obtain ⟨j, hj, hy⟩ : ∃ j, ∃ hj : j < cs.length, cs.get ⟨j, hj⟩ = y := by
            obtain ⟨⟨j, hj⟩, hy⟩ := List.get_of_mem (List.mem_of_find?_eq_some hfc)
            exact ⟨j, hj, hy⟩
          have hpy : p y = true := List.find?_some hfc
          have hthis := hothers (j + 1) (by simpa using Nat.succ_lt_succ hj) (by simp)
          simp only [List.getD_cons_succ] at hthis
          have hgd : cs.getD j d = y := by
            rw [List.getD_eq_getElem?_getD, List.getElem?_eq_getElem hj]
            simp only [Option.getD_some]
            exact hy
          rw [hgd] at hthis
          rw [hthis] at hpy
          exact absurd hpy (by simp)
    | succ j0 =>
      simp only [List.getD_cons_succ]
      have hc : p c = false := by
        have := hothers 0 (by simp) (by simp)
        simpa using this
      simp only [List.find?, hc]
      exact ih j0 (by simpa using hi)
        (fun j hj hne => by
          have := hothers (j + 1) (by simpa using Nat.succ_lt_succ hj) (by simpa using hne)
          simpa using this)

theorem isPrefixOf_iff (l1 l2 : List (List Nat)) :
    l1.isPrefixOf l2 = true ↔ l1 <+: l2 :=
  List.isPrefixOf_iff_prefix

theorem segsOK_cpSegs {ms ls : List (List Nat)} (hm : SegsOK ms) :
    SegsOK (cpSegs ms ls) := by
  intro s hs
  apply hm
  have := cpSegs_take_left ms ls
  rw [← this] at hs
  exact List.mem_of_mem_take hs

theorem cpSegs_ne_nil_iff : ∀ (ms ls : List (List Nat)),
    cpSegs ms ls ≠ [] ↔ (ms ≠ [] ∧ ls ≠ [] ∧ ms.headD [] = ls.headD []) := by
  intro ms ls
  cases ms with
  | nil => simp [cpSegs]
  | cons m ms2 =>
    cases ls with
    | nil => simp [cpSegs]
    | cons l ls2 =>
      by_cases h : m = l
      · subst h
        simp [cpSegs]
      · simp [cpSegs, h]

theorem cpl_render_pos_iff {ms ls : List (List Nat)} (hm : SegsOK ms) (hl : SegsOK ls) :
    0 < common_prefix_length (render ms) (render ls)
      ↔ cpSegs ms ls ≠ [] := by
  rw [cpl_render hm hl]
  constructor
  · intro h hc
    rw [hc] at h
    simp [render] at h
  · intro h
    exact length_render_pos (segsOK_cpSegs hm) h

theorem prefix_of_take_eq {α : Type} {u ks : List α} {j : Nat} (hj : j ≤ u.length) :
    u <+: ks ↔ (u.take j <+: ks ∧ u.drop j <+: ks.drop j) := by
  constructor
  · rintro ⟨t, rfl⟩
    refine ⟨⟨u.drop j ++ t, by rw [← List.append_assoc, List.take_append_drop]⟩, ⟨t, ?_⟩⟩
    exact (List.drop_append_of_le_length hj).symm
  · rintro ⟨⟨t1, ht1⟩, ⟨t2, ht2⟩⟩
    refine ⟨t2, ?_⟩
    have hkt : ks.take j = u.take j := by
      rw [← ht1, List.take_append_of_le_length (by simp [hj]), List.take_take]
      simp
    calc u ++ t2 = u.take j ++ (u.drop j ++ t2) := by
          rw [← List.append_assoc, List.take_append_drop]
      _ = ks.take j ++ ks.drop j := by rw [ht2, hkt]
      _ = ks := List.take_append_drop j ks

theorem eq_iff_drop_eq {α : Type} {ks ls : List α} {j : Nat}
    (h : ks.take j = ls.take j) : ks = ls ↔ ks.drop j = ls.drop j := by
  constructor
  · intro e; rw [e]
  · intro e
    calc ks = ks.take j ++ ks.drop j := (List.take_append_drop j ks).symm
      _ = ls.take j ++ ls.drop j := by rw [h, e]
      _ = ls := List.take_append_drop j ls

theorem prefix_head {u : List (List Nat)} {k : List Nat} {kr : List (List Nat)}
    (hne : u ≠ []) (h : u <+: (k :: kr)) : u.headD [] = k := by
  cases u with
  | nil => exact absurd rfl hne
  | cons a u2 =>
    have := (List.cons_prefix_cons.mp h).1
    simp [this]

theorem WFB_mk {V : Type} (l : List Nat) (ch : List (BuilderNode V)) (v : Option V) :
    WFB (BuilderNode.mk l ch v) ↔
      WFBL ch ∧ List.Pairwise (fun a b => firstSeg a.label ≠ firstSeg b.label) ch :=
  Iff.rfl

theorem WFBL_iff {V : Type} : ∀ (cs : List (BuilderNode V)),
    WFBL cs ↔ ∀ c ∈ cs, (∃ ms, ms ≠ [] ∧ SegsOK ms ∧ c.label = render ms) ∧ WFB c := by
  intro cs
  induction cs with
  | nil => simp [WFBL]
  | cons c cs ih =>
    simp only [WFBL, ih, List.mem_cons]
    constructor
    · rintro ⟨h1, h2, h3⟩ x hx
      rcases hx with rfl | hx
      · exact ⟨h1, h2⟩
      · exact h3 x hx
    · intro h
      exact ⟨(h c (Or.inl rfl)).1, (h c (Or.inl rfl)).2, fun x hx => h x (Or.inr hx)⟩

theorem getD_mem {α : Type} {l : List α} {i : Nat} (d : α) (h : i < l.length) :
    l.getD i d ∈ l := by
  rw [List.getD_eq_getElem?_getD, List.getElem?_eq_getElem h]
  simp only [Option.getD_some]
  exact List.getElem_mem h

theorem firstSeg_render {ms : List (List Nat)} (h : SegsOK ms) (hne : ms ≠ []) :
    firstSeg (render ms) = ms.headD [] := by
  rw [firstSeg, splitSep_render h hne]

theorem pairwise_set {α : Type} {R : α → α → Prop} (d : α) :
    ∀ (l : List α) (i : Nat) (x : α), i < l.length →
      (∀ y, R (l.getD i d) y → R x y) → (∀ y, R y (l.getD i d) → R y x) →
      l.Pairwise R → (l.set i x).Pairwise R := by
  intro l
  induction l with
  | nil => intro i x h; simp at h
  | cons c cs ih =>
    intro i x hi h1 h2 hp
    cases i with
    | zero =>
      simp only [List.getD_cons_zero] at h1 h2
      simp only [List.set]
      rw [List.pairwise_cons] at hp ⊢
      exact ⟨fun y hy => h1 y (hp.1 y hy), hp.2⟩
    | succ j =>
      simp only [List.getD_cons_succ] at h1 h2
      simp only [List.set]
      rw [List.pairwise_cons] at hp ⊢
      refine ⟨?_, ih j x (by simpa using hi) h1 h2 hp.2⟩
      intro y hy
      rcases List.mem_or_eq_of_mem_set hy with hmem | rfl
      · exact hp.1 y hmem
      · exact h2 c (hp.1 _ (getD_mem d (by simpa using hi)))

theorem findChild_first {V : Type} {label : List Nat} :
    ∀ {cs : List (BuilderNode V)} {i len : Nat},
      findChild label cs = some (i, len) →
      ∀ j, j < i → common_prefix_length ((cs.getD j (.mk [] [] none)).label) label = 0 := by
  intro cs
  induction cs with
  | nil => intro i len h; simp [findChild] at h
  | cons c cs ih =>
    intro i len h j hj
    unfold findChild at h
    by_cases hp : common_prefix_length c.label label > 0
    · rw [if_pos hp] at h
      simp only [Option.some_inj, Prod.mk.injEq] at h
      omega
    · rw [if_neg hp] at h
      cases hfc : findChild label cs with
      | none => rw [hfc] at h; exact absurd h (by simp)
      | some p =>
        rw [hfc] at h
        obtain ⟨i0, len0⟩ := p
        simp only [Option.some_inj, Prod.mk.injEq] at h
        obtain ⟨e1, e2⟩ := h
        cases j with
        | zero => simpa using (by omega : common_prefix_length c.label label = 0)
        | succ j2 =>
          simp only [List.getD_cons_succ]
          exact ih hfc j2 (by omega)

theorem findTree_congr {V : Type} {x y : BuilderNode V} (hc : x.children = y.children)
    (hv : x.value = y.value) : ∀ ks, findTree x ks = findTree y ks := by
  intro ks
  cases ks with
  | nil => rw [findTree_nil, findTree_nil, hv]
  | cons s rest =>
    rw [findTree_cons, findTree_cons, hc]

theorem findTree_splitNode {V : Type} (child : BuilderNode V) (ms : List (List Nat)) (j : Nat)
    (hms : SegsOK ms) (hlab : child.label = render ms) (hj0 : 0 < j) (hjlt : j < ms.length) :
    ∀ ks, findTree (splitNode child (render (ms.take j)).length) ks
      = if (ms.drop j) <+: ks then findTree child (ks.drop (ms.length - j)) else none := by
  intro ks
  have hdropOK : SegsOK (ms.drop j) := segsOK_drop hms j
  have hdropne : ms.drop j ≠ [] := by
    intro hc
    have := congrArg List.length hc
    simp at this
    omega
  have htrim : child.label.drop ((render (ms.take j)).length + 1) = render (ms.drop j) := by
    rw [hlab]
    exact drop_render_take hjlt hj0
  cases ks with
  | nil =>
    rw [findTree_nil]
    rw [if_neg (by simp [List.prefix_nil, hdropne])]
    rfl
  | cons k kr =>
    rw [findTree_cons]
    simp only [splitNode, BuilderNode.children_mk]
    rw [List.find?_cons]
    simp only [BuilderNode.label_mk]
    rw [htrim]
    have hlabne : (render (ms.drop j)).isEmpty = false := by
      have := length_render_pos hdropOK hdropne
      cases hr : render (ms.drop j) with
      | nil => rw [hr] at this; simp at this
      | cons a b => simp
    have hsplit : splitSep (render (ms.drop j)) = ms.drop j := splitSep_render hdropOK hdropne
    by_cases hpre : (ms.drop j) <+: (k :: kr)
    · rw [if_pos hpre]
      have hcond2 : (!(render (ms.drop j)).isEmpty
          && (ms.drop j).isPrefixOf (k :: kr)) = true := by
        rw [hlabne]
        simp only [Bool.not_false, Bool.true_and]
        exact (isPrefixOf_iff _ _).mpr hpre
      simp only [hsplit, hcond2, BuilderNode.label_mk]
      have hlen : (ms.drop j).length = ms.length - j := by simp
      rw [hlen]
      exact @findTree_congr V (BuilderNode.mk (render (ms.drop j)) child.children child.value)
        child rfl rfl _
    · rw [if_neg hpre]
      have hcond2 : (!(render (ms.drop j)).isEmpty
          && (ms.drop j).isPrefixOf (k :: kr)) = false := by
        rw [hlabne]
        simp only [Bool.not_false, Bool.true_and]
        rw [← Bool.not_eq_true]
        intro hc
        exact hpre ((isPrefixOf_iff _ _).mp hc)
      simp only [hsplit, hcond2]
      rfl

theorem headD_take {α : Type} (d : α) (l : List α) {j : Nat} (hj0 : 0 < j) :
    (l.take j).headD d = l.headD d := by
  cases l with
  | nil => simp
  | cons a r =>
    cases j with
    | zero => omega
    | succ m => simp

theorem take_ne_nil_of_pos {α : Type} {l : List α} {j : Nat} (hj0 : 0 < j) (hne : l ≠ []) :
    l.take j ≠ [] := by
  intro hc
  have h2 := congrArg List.length hc
  simp at h2
  rcases h2 with h | h
  · omega
  · exact hne h

theorem take_of_isPre {α : Type} {u ks : List α} (h : u <+: ks) : ks.take u.length = u := by
  obtain ⟨t, rfl⟩ := h
  simp

theorem pairwise_ne_getD {α : Type} {f : α → List Nat} (d : α) {l : List α}
    (hp : l.Pairwise (fun a b => f a ≠ f b)) {i j : Nat} (hi : i < l.length)
    (hj : j < l.length) (hne : i ≠ j) : f (l.getD i d) ≠ f (l.getD j d) := by
  have hgi : l.getD i d = l.get ⟨i, hi⟩ := by
    rw [List.getD_eq_getElem?_getD, List.getElem?_eq_getElem hi]
    simp only [Option.getD_some]
    rfl
  have hgj : l.getD j d = l.get ⟨j, hj⟩ := by
    rw [List.getD_eq_getElem?_getD, List.getElem?_eq_getElem hj]
    simp only [Option.getD_some]
    rfl
  rw [hgi, hgj]
  rcases Nat.lt_or_ge i j with h | h
  · exact List.pairwise_iff_getElem.mp hp i j hi hj h
  · have hlt : j < i := by omega
    exact (List.pairwise_iff_getElem.mp hp j i hj hi hlt).symm

theorem getD_set_same {α : Type} {l : List α} {i : Nat} (x d : α) (h : i < l.length) :
    (l.set i x).getD i d = x := by
  rw [List.getD_eq_getElem?_getD, List.getElem?_set_self (by simpa using h)]
  simp

theorem getD_set_diff {α : Type} {l : List α} {i jx : Nat} (x d : α) (h : jx ≠ i) :
    (l.set i x).getD jx d = l.getD jx d := by
  rw [List.getD_eq_getElem?_getD, List.getElem?_set_ne (by omega), ← List.getD_eq_getElem?_getD]

theorem pmatch_true_iff {V : Type} (c : BuilderNode V) {msc : List (List Nat)}
    (hlab : c.label = render msc) (hOK : SegsOK msc) (hne : msc ≠ []) (ks : List (List Nat)) :
    (!c.label.isEmpty && (splitSep c.label).isPrefixOf ks) = true ↔ msc <+: ks := by
  rw [hlab, splitSep_render hOK hne]
  have hpos := length_render_pos hOK hne
  have hie : (render msc).isEmpty = false := by
    cases hr : render msc with
    | nil => rw [hr] at hpos; simp at hpos
    | cons a b => simp
  rw [hie]
  simp only [Bool.not_false, Bool.true_and]
  exact isPrefixOf_iff _ _

theorem WFB_iff {V : Type} (n : BuilderNode V) : WFB n ↔ WFBL n.children ∧
    List.Pairwise (fun a b => firstSeg a.label ≠ firstSeg b.label) n.children := by
  cases n
  exact Iff.rfl

theorem pushAt_assemble {V : Type} {node : BuilderNode V} {i : Nat} {x : BuilderNode V}
    {ms ls : List (List Nat)} {j : Nat} {value : V}
    (hWF : WFB node)
    (hi : i < node.children.length)
    (hmsOK : SegsOK ms) (hmsne : ms ≠ [])
    (hchild : (node.children.getD i (.mk [] [] none)).label = render ms)
    (hlsOK : SegsOK ls) (hlsne : ls ≠ [])
    (hj0 : 0 < j) (hjm : j ≤ ms.length) (hjl : j ≤ ls.length)
    (htake : ms.take j = ls.take j)
    (hxlab : x.label = render (ms.take j))
    (hxWF : WFB x)
    (hxfind : ∀ ks, findTree x ks =
      if ks = ls.drop j then some value
      else if (ms.drop j) <+: ks then
        findTree (node.children.getD i (.mk [] [] none)) (ks.drop (ms.length - j))
      else none) :
    WFB (BuilderNode.mk node.label (node.children.set i x) node.value) ∧
    findTree node ls =
      (if (ms.drop j) <+: ls.drop j then
        findTree (node.children.getD i (.mk [] [] none)) (ls.drop ms.length) else none) ∧
    (∀ ks, findTree (BuilderNode.mk node.label (node.children.set i x) node.value) ks =
      if ks = ls then some value else findTree node ks) := by
  obtain ⟨nl, nch, nv⟩ := node
  simp only [BuilderNode.children_mk, BuilderNode.label_mk, BuilderNode.value_mk]
    at hi hchild hxfind ⊢
  rw [WFB_mk] at hWF
  obtain ⟨hWFL, hPW⟩ := hWF
  obtain ⟨l0, lrest, rfl⟩ : ∃ l0 lrest, ls = l0 :: lrest := by
    cases ls with
    | nil => exact absurd rfl hlsne
    | cons a b => exact ⟨a, b, rfl⟩
  have htkne : ms.take j ≠ [] := take_ne_nil_of_pos hj0 hmsne
  have htkOK : SegsOK (ms.take j) := segsOK_take hmsOK j
  have hhead : ms.headD [] = l0 := by
    have h1 := headD_take ([] : List Nat) ms hj0
    have h2 := headD_take ([] : List Nat) (l0 :: lrest) hj0
    rw [htake, h2] at h1
    simpa using h1.symm
  have hfsChild : firstSeg (nch.getD i (.mk [] [] none)).label = ms.headD [] := by
    rw [hchild, firstSeg_render hmsOK hmsne]
  have hfsX : firstSeg x.label = ms.headD [] := by
    rw [hxlab, firstSeg_render htkOK htkne, headD_take ([] : List Nat) ms hj0]
  have hWFB2 : WFB (BuilderNode.mk nl (nch.set i x) nv) := by
    rw [WFB_mk]
    constructor
    · rw [WFBL_iff]
      intro c hc
      rcases List.mem_or_eq_of_mem_set hc with hmem | rfl
      · exact (WFBL_iff nch).mp hWFL c hmem
      · exact ⟨⟨ms.take j, htkne, htkOK, hxlab⟩, hxWF⟩
    · apply pairwise_set (BuilderNode.mk [] [] none) nch i x hi ?_ ?_ hPW
      · intro y hy
        rw [hfsX]
        rw [hfsChild] at hy
        exact hy
      · intro y hy
        rw [hfsX]
        rw [hfsChild] at hy
        exact hy
  have hothers : ∀ (k : List Nat) (kr : List (List Nat)), k = ms.headD [] →
      ∀ jx, jx < nch.length → jx ≠ i →
      (!(nch.getD jx (BuilderNode.mk [] [] none)).label.isEmpty &&
        (splitSep (nch.getD jx (BuilderNode.mk [] [] none)).label).isPrefixOf (k :: kr))
        = false := by
    intro k kr hk jx hjx hne
    by_contra hcon
    rw [Bool.not_eq_false] at hcon
    have hcmem : nch.getD jx (BuilderNode.mk [] [] none) ∈ nch := getD_mem _ hjx
    obtain ⟨⟨msc, hmscne, hmscOK, hclab⟩, _⟩ := (WFBL_iff nch).mp hWFL _ hcmem
    have hpre := (pmatch_true_iff _ hclab hmscOK hmscne _).mp hcon
    have hfsc : firstSeg (nch.getD jx (BuilderNode.mk [] [] none)).label = k := by
      rw [hclab, firstSeg_render hmscOK hmscne]
      exact prefix_head hmscne hpre
    have hdiff := @pairwise_ne_getD (BuilderNode V) (fun c => firstSeg c.label)
      (BuilderNode.mk [] [] none) nch hPW jx i hjx hi hne
    simp only at hdiff
    rw [hfsc, hfsChild, hk] at hdiff
    exact hdiff rfl
  have hothers2 : ∀ (k : List Nat) (kr : List (List Nat)), k = ms.headD [] →
      ∀ jx, jx < (nch.set i x).length → jx ≠ i →
      (!((nch.set i x).getD jx (BuilderNode.mk [] [] none)).label.isEmpty &&
        (splitSep ((nch.set i x).getD jx (BuilderNode.mk [] [] none)).label).isPrefixOf (k :: kr))
        = false := by
    intro k kr hk jx hjx hne
    rw [getD_set_diff x _ hne]
    exact hothers k kr hk jx (by simpa using hjx) hne
  have hpci : ∀ (k : List Nat) (kr : List (List Nat)),
      ((!(nch.getD i (BuilderNode.mk [] [] none)).label.isEmpty &&
        (splitSep (nch.getD i (BuilderNode.mk [] [] none)).label).isPrefixOf (k :: kr)) = true)
      ↔ ms <+: (k :: kr) := fun k kr =>
    pmatch_true_iff _ hchild hmsOK hmsne _
  refine ⟨hWFB2, ?_, ?_⟩
  · rw [findTree_cons]
    simp only [BuilderNode.children_mk]
    rw [find?_unique _ (BuilderNode.mk [] [] none) nch i hi (hothers l0 lrest hhead.symm)]
    have hiff : ms <+: (l0 :: lrest) ↔ ms.drop j <+: (l0 :: lrest).drop j := by
      rw [prefix_of_take_eq hjm]
      constructor
      · rintro ⟨h1, h2⟩
        exact h2
      · intro h2
        refine ⟨?_, h2⟩
        rw [htake]
        exact List.take_prefix j (l0 :: lrest)
    by_cases hpre : ms.drop j <+: (l0 :: lrest).drop j
    · rw [if_pos hpre, if_pos ((hpci l0 lrest).mpr (hiff.mpr hpre))]
      dsimp only
      rw [hchild, splitSep_render hmsOK hmsne]
    · rw [if_neg hpre, if_neg (fun hc => hpre (hiff.mp ((hpci l0 lrest).mp hc)))]
  · intro ks
    cases ks with
    | nil =>
      rw [findTree_nil, findTree_nil]
      rw [if_neg (by simp)]
      rfl
    | cons k kr =>
      rw [findTree_cons, findTree_cons]
      simp only [BuilderNode.children_mk]
      by_cases hk : k = ms.headD []
      · rw [find?_unique _ (BuilderNode.mk [] [] none) nch i hi (hothers k kr hk)]
        rw [find?_unique _ (BuilderNode.mk [] [] none) (nch.set i x) i
          (by simpa using hi) (hothers2 k kr hk)]
        rw [getD_set_same x _ hi]
        have hpx : ((!x.label.isEmpty && (splitSep x.label).isPrefixOf (k :: kr)) = true)
            ↔ ms.take j <+: (k :: kr) :=
          pmatch_true_iff x hxlab htkOK htkne _
        have hlentk : (ms.take j).length = j := by
          simp [hjm]
        by_cases hxp : ms.take j <+: (k :: kr)
        · rw [if_pos (hpx.mpr hxp)]
          dsimp only
          rw [hxlab, splitSep_render htkOK htkne, hlentk]
          rw [hxfind]
          have h1 : (k :: kr).take (ms.take j).length = ms.take j := take_of_isPre hxp
          rw [hlentk] at h1
          have hkstk : (k :: kr).take j = (l0 :: lrest).take j := by
            rw [h1, htake]
          have heqiff : (k :: kr) = (l0 :: lrest) ↔
              (k :: kr).drop j = (l0 :: lrest).drop j := eq_iff_drop_eq hkstk
          have hmsiff : ms <+: (k :: kr) ↔ ms.drop j <+: (k :: kr).drop j := by
            rw [prefix_of_take_eq hjm]
            constructor
            · rintro ⟨h1b, h2⟩
              exact h2
            · intro h2
              exact ⟨hxp, h2⟩
          by_cases hdeq : (k :: kr).drop j = (l0 :: lrest).drop j
          · rw [if_pos hdeq, if_pos (heqiff.mpr hdeq)]
          · rw [if_neg hdeq, if_neg (fun hc => hdeq (heqiff.mp hc))]
            by_cases hp2 : ms.drop j <+: (k :: kr).drop j
            · rw [if_pos hp2, if_pos ((hpci k kr).mpr (hmsiff.mpr hp2))]
              dsimp only
              rw [hchild, splitSep_render hmsOK hmsne]
              rw [List.drop_drop]
              have hdd : j + (ms.length - j) = ms.length := by omega
              rw [hdd]
            · rw [if_neg hp2,
                if_neg (fun hc => hp2 (hmsiff.mp ((hpci k kr).mp hc)))]
        · rw [if_neg (fun hc => hxp (hpx.mp hc))]
          dsimp only
          have hlsp : ms.take j <+: (l0 :: lrest) := by
            rw [htake]
            exact List.take_prefix j _
          rw [if_neg (fun hc => hxp (by rw [hc]; exact hlsp))]
          rw [if_neg (fun hc => hxp ((List.take_prefix j ms).trans ((hpci k kr).mp hc)))]
      · have hpxf : (!x.label.isEmpty && (splitSep x.label).isPrefixOf (k :: kr)) = false := by
          by_contra hcon
          rw [Bool.not_eq_false] at hcon
          have hpre := (pmatch_true_iff x hxlab htkOK htkne _).mp hcon
          have hh := prefix_head htkne hpre
          rw [headD_take ([] : List Nat) ms hj0] at hh
          exact hk hh.symm
        have hpchf : (!(nch.getD i (BuilderNode.mk [] [] none)).label.isEmpty &&
            (splitSep (nch.getD i (BuilderNode.mk [] [] none)).label).isPrefixOf (k :: kr))
            = false := by
          by_contra hcon
          rw [Bool.not_eq_false] at hcon
          have hpre := (hpci k kr).mp hcon
          have hh := prefix_head hmsne hpre
          exact hk hh.symm
        rw [find?_set_untouched _ (BuilderNode.mk [] [] none) nch i x hpxf hpchf]
        rw [if_neg (fun hc : (k :: kr) = (l0 :: lrest) => by
          have := hhead
          rw [← (List.cons.injEq k kr l0 lrest).mp hc |>.1] at this
          exact hk this.symm)]

theorem some_or_eq {α : Type} (a : α) (o : Option α) : (some a).or o = some a := rfl

theorem nil_isPre {α : Type} (l : List α) : ([] : List α) <+: l := ⟨l, rfl⟩

theorem take_isPre {α : Type} (j : Nat) (l : List α) : l.take j <+: l :=
  ⟨l.drop j, List.take_append_drop j l⟩

theorem render_take_succ_le {ms : List (List Nat)} {j : Nat} (hj0 : 0 < j)
    (hjlt : j < ms.length) :
    (render (ms.take j)).length + 1 ≤ (render ms).length := by
  have h := congrArg List.length (render_take_split hjlt hj0)
  simp at h
  omega

theorem drop_render_min {ls : List (List Nat)} {j : Nat} (hj0 : 0 < j) (hjl : j ≤ ls.length) :
    (render ls).drop (min ((render (ls.take j)).length + 1) (render ls).length)
      = render (ls.drop j) := by
  rcases Nat.lt_or_ge j ls.length with hlt | hge
  · have hle := render_take_succ_le hj0 hlt
    rw [Nat.min_eq_left hle]
    exact drop_render_take hlt hj0
  · have hts : ls.take j = ls := List.take_of_length_le hge
    have hds : ls.drop j = [] := List.drop_eq_nil_of_le hge
    rw [hts, hds, Nat.min_eq_right (by omega), List.drop_length]
    rfl

theorem WFB_splitNode {V : Type} {child : BuilderNode V} {ms : List (List Nat)} {j : Nat}
    (hmsOK : SegsOK ms) (hlab : child.label = render ms) (hj0 : 0 < j) (hjlt : j < ms.length)
    (hWF : WFB child) :
    WFB (splitNode child (render (ms.take j)).length) := by
  have htrim : child.label.drop ((render (ms.take j)).length + 1) = render (ms.drop j) := by
    rw [hlab]
    exact drop_render_take hjlt hj0
  have hdropne : ms.drop j ≠ [] := by
    intro hc
    have h2 := congrArg List.length hc
    simp at h2
    omega
  simp only [splitNode]
  rw [WFB_mk]
  constructor
  · rw [WFBL_iff]
    intro c hc
    have hc2 : c = BuilderNode.mk (child.label.drop ((render (ms.take j)).length + 1))
        child.children child.value := by
      simpa using hc
    subst hc2
    refine ⟨⟨ms.drop j, hdropne, segsOK_drop hmsOK j, ?_⟩, ?_⟩
    · simp only [BuilderNode.label_mk]
      exact htrim
    · rw [WFB_mk]
      exact (WFB_iff child).mp hWF
  · simp

/-- Semantic characterization of `pushAt` on well-formed builder trees: the
label of the root is unchanged, well-formedness is preserved, the returned
flag tells whether the key already had a value, and the denotation is updated
exactly at the pushed key. -/
theorem pushAt_semantics {V : Type} : ∀ (node : BuilderNode V) (nodes labels values : Nat)
    (label : List Nat) (value : V), ∀ (ls : List (List Nat)),
    label = render ls → SegsOK ls → WFB node →
    (pushAt node nodes labels values label value).1.label = node.label ∧
    WFB (pushAt node nodes labels values label value).1 ∧
    (pushAt node nodes labels values label value).2.2.2.2 = (findTree node ls).isSome ∧
    (∀ ks, findTree (pushAt node nodes labels values label value).1 ks =
      if ks = ls then some value else findTree node ks) := by
  intro node nodes labels values label value
  induction node, nodes, labels, values, label, value using pushAt.induct with
  | case1 node nodes labels values label value i length h child nodes2 labels2 child2 ih =>
    intro ls hlab hlsOK hWF
    obtain ⟨hi, hpos, hlen⟩ := findChild_some h
    unfold_let child2 labels2 nodes2 child at ih
    rw [pushAt_some h]
    dsimp only
    simp only [dite_eq_ite] at ih
    have hchmem : node.children.getD i (BuilderNode.mk [] [] none) ∈ node.children :=
      getD_mem _ hi
    have hWFn := (WFB_iff node).mp hWF
    obtain ⟨⟨ms, hmsne, hmsOK, hchild⟩, hchildWF⟩ :=
      (WFBL_iff node.children).mp hWFn.1 _ hchmem
    have hlen2 : length = (render (cpSegs ms ls)).length := by
      rw [hlen, hchild, hlab, cpl_render hmsOK hlsOK]
    set j := (cpSegs ms ls).length with hjdef
    have hj0 : 0 < j := by
      have hcpl : 0 < common_prefix_length (render ms) (render ls) := by
        rw [← hchild, ← hlab, ← hlen]
        exact hpos
      have hne := (cpl_render_pos_iff hmsOK hlsOK).mp hcpl
      rw [hjdef]
      exact List.length_pos.mpr hne
    have hjm : j ≤ ms.length := by
      rw [hjdef]
      exact cpSegs_length_le_left ms ls
    have hjl : j ≤ ls.length := by
      rw [hjdef]
      exact cpSegs_length_le_right ms ls
    have htake : ms.take j = ls.take j := by
      rw [hjdef, cpSegs_take_left ms ls, cpSegs_take_right ms ls]
    have hlentake : length = (render (ms.take j)).length := by
      rw [hlen2, hjdef, cpSegs_take_left ms ls]
    have hlsne : ls ≠ [] := by
      intro hc
      rw [hc] at hjl
      simp at hjl
      omega
    have hlab2 : label.drop (min (length + 1) label.length) = render (ls.drop j) := by
      rw [hlab, hlentake, htake]
      exact drop_render_min hj0 hjl
    have hOKdrop : SegsOK (ls.drop j) := segsOK_drop hlsOK j
    by_cases hsplit : length < (node.children.getD i (BuilderNode.mk [] [] none)).label.length
    · simp only [if_pos hsplit] at ih ⊢
      have hjlt : j < ms.length := by
        by_contra hge
        have hje : j = ms.length := by omega
        have hx : length = (render ms).length := by
          rw [hlentake, hje, List.take_length]
        rw [hchild] at hsplit
        omega
      have hWFsplit : WFB (splitNode (node.children.getD i (BuilderNode.mk [] [] none)) length) := by
        rw [hlentake]
        exact WFB_splitNode hmsOK hchild hj0 hjlt hchildWF
      have hft2 : ∀ ks,
          findTree (splitNode (node.children.getD i (BuilderNode.mk [] [] none)) length) ks
          = if (ms.drop j) <+: ks then
              findTree (node.children.getD i (BuilderNode.mk [] [] none)) (ks.drop (ms.length - j))
            else none := by
        intro ks
        rw [hlentake]
        exact findTree_splitNode _ ms j hmsOK hchild hj0 hjlt ks
      obtain ⟨ihlab, ihWF, ihbool, ihfind⟩ := ih (ls.drop j) hlab2 hOKdrop hWFsplit
      set r := pushAt (splitNode (node.children.getD i (BuilderNode.mk [] [] none)) length)
        (nodes + 1) (labels - 1) values (List.drop ((length + 1) ⊓ label.length) label) value with hr
      have hxlab : r.1.label = render (ms.take j) := by
        rw [ihlab]
        simp only [splitNode, BuilderNode.label_mk]
        rw [hchild, hlentake]
        exact take_render_take hjm
      have hxfind : ∀ ks, findTree r.1 ks =
          if ks = ls.drop j then some value
          else if (ms.drop j) <+: ks then
            findTree (node.children.getD i (BuilderNode.mk [] [] none)) (ks.drop (ms.length - j))
          else none := by
        intro ks
        rw [ihfind ks, hft2 ks]
      obtain ⟨hA, hB, hC⟩ := pushAt_assemble hWF hi hmsOK hmsne hchild hlsOK hlsne hj0 hjm hjl
        htake hxlab ihWF hxfind
      refine ⟨rfl, hA, ?_, hC⟩
      rw [ihbool, hB, hft2 (ls.drop j), List.drop_drop]
      have hdd : j + (ms.length - j) = ms.length := by omega
      rw [hdd]
    · simp only [if_neg hsplit] at ih ⊢
      have hlenle : length ≤ (render ms).length := by
        rw [hlentake]
        exact render_take_length_le ms j
      rw [hchild] at hsplit
      have hje : j = ms.length := by
        by_contra hne
        have hjlt : j < ms.length := by omega
        have hs := render_take_succ_le hj0 hjlt
        rw [← hlentake] at hs
        omega
      obtain ⟨ihlab, ihWF, ihbool, ihfind⟩ := ih (ls.drop j) hlab2 hOKdrop hchildWF
      set r := pushAt (node.children.getD i (BuilderNode.mk [] [] none))
        nodes labels values (List.drop ((length + 1) ⊓ label.length) label) value with hr
      have hxlab : r.1.label = render (ms.take j) := by
        rw [ihlab, hchild, hje, List.take_length]
      have hmsdrop : ms.drop j = [] := by
        rw [hje]
        exact List.drop_length ms
      have hxfind : ∀ ks, findTree r.1 ks =
          if ks = ls.drop j then some value
          else if (ms.drop j) <+: ks then
            findTree (node.children.getD i (BuilderNode.mk [] [] none)) (ks.drop (ms.length - j))
          else none := by
        intro ks
        rw [ihfind ks]
        by_cases heq : ks = ls.drop j
        · rw [if_pos heq, if_pos heq]
        · rw [if_neg heq, if_neg heq, hmsdrop, if_pos (nil_isPre ks), hje]
          simp
      obtain ⟨hA, hB, hC⟩ := pushAt_assemble hWF hi hmsOK hmsne hchild hlsOK hlsne hj0 hjm hjl
        htake hxlab ihWF hxfind
      refine ⟨rfl, hA, ?_, hC⟩
      rw [ihbool, hB, hmsdrop, if_pos (nil_isPre (ls.drop j)), hje]
  | case2 node nodes labels values label value h hemp =>
    intro ls hlab hlsOK hWF
    have hl : label = [] := by simpa using hemp
    subst hl
    have hlse : ls = [] := (render_eq_nil_iff hlsOK).mp hlab.symm
    subst hlse
    rw [pushAt_none_empty h]
    dsimp only
    refine ⟨rfl, ?_, ?_, ?_⟩
    · rw [WFB_mk]
      exact (WFB_iff node).mp hWF
    · rw [findTree_nil]
    · intro ks
      cases ks with
      | nil =>
        rw [findTree_nil]
        simp [BuilderNode.value_mk]
      | cons k kr =>
        rw [if_neg (by simp)]
        obtain ⟨nl, nch, nv⟩ := node
        exact findTree_children_only _ _ _ _ _ _ _
  | case3 node nodes labels values label value h hemp =>
    intro ls hlab hlsOK hWF
    have hl : label ≠ [] := by simpa using hemp
    have hlsne : ls ≠ [] := by
      intro hc
      rw [hc] at hlab
      exact hl (by simpa [render] using hlab)
    obtain ⟨l0, lrest, rfl⟩ : ∃ l0 lrest, ls = l0 :: lrest := by
      cases ls with
      | nil => exact absurd rfl hlsne
      | cons a b => exact ⟨a, b, rfl⟩
    rw [pushAt_none_nonempty h hl]
    dsimp only
    have hWFn := (WFB_iff node).mp hWF
    have hchf : ∀ c ∈ node.children, firstSeg c.label ≠ l0 := by
      intro c hc hfs
      obtain ⟨⟨msc, hmscne, hmscOK, hclab⟩, _⟩ := (WFBL_iff node.children).mp hWFn.1 c hc
      have hz := findChild_none h c hc
      rw [hclab, hlab] at hz
      have hcs : cpSegs msc (l0 :: lrest) = [] := by
        by_contra hne2
        have := (cpl_render_pos_iff hmscOK hlsOK).mpr hne2
        omega
      rw [hclab, firstSeg_render hmscOK hmscne] at hfs
      have hne3 : cpSegs msc (l0 :: lrest) ≠ [] :=
        (cpSegs_ne_nil_iff _ _).mpr ⟨hmscne, by simp, by simpa using hfs⟩
      exact hne3 hcs
    have hnomatch : ∀ (kr2 : List (List Nat)), node.children.find?
        (fun c => !c.label.isEmpty && (splitSep c.label).isPrefixOf (l0 :: kr2)) = none := by
      intro kr2
      rw [List.find?_eq_none]
      intro c hc hpc
      obtain ⟨⟨msc, hmscne, hmscOK, hclab⟩, _⟩ := (WFBL_iff node.children).mp hWFn.1 c hc
      have hpre := (pmatch_true_iff c hclab hmscOK hmscne _).mp hpc
      have hh := prefix_head hmscne hpre
      exact hchf c hc (by rw [hclab, firstSeg_render hmscOK hmscne]; exact hh)
    have hfnls : findTree node (l0 :: lrest) = none := by
      rw [findTree_cons, hnomatch lrest]
    refine ⟨rfl, ?_, ?_, ?_⟩
    · rw [WFB_mk]
      constructor
      · rw [WFBL_iff]
        intro c hc
        rcases List.mem_append.mp hc with hmem | hmem
        · exact (WFBL_iff node.children).mp hWFn.1 c hmem
        · have hc2 : c = BuilderNode.mk label [] (some value) := by simpa using hmem
          subst hc2
          refine ⟨⟨l0 :: lrest, by simp, hlsOK, ?_⟩, ?_⟩
          · simp only [BuilderNode.label_mk]
            exact hlab
          · rw [WFB_mk]
            exact ⟨trivial, List.Pairwise.nil⟩
      · rw [List.pairwise_append]
        refine ⟨hWFn.2, by simp, ?_⟩
        intro a ha b hb
        have hb2 : b = BuilderNode.mk label [] (some value) := by simpa using hb
        subst hb2
        simp only [BuilderNode.label_mk]
        rw [hlab, firstSeg_render hlsOK (by simp)]
        simpa using hchf a ha
    · rw [hfnls]
      rfl
    · intro ks
      cases ks with
      | nil =>
        rw [findTree_nil, findTree_nil, if_neg (by simp)]
        rfl
      | cons k kr =>
        rw [findTree_cons, findTree_cons]
        simp only [BuilderNode.children_mk]
        rw [List.find?_append]
        cases hfc : node.children.find?
            (fun c => !c.label.isEmpty && (splitSep c.label).isPrefixOf (k :: kr)) with
        | some c =>
          rw [some_or_eq]
          have hksne : (k :: kr) ≠ (l0 :: lrest) := by
            intro hc2
            rw [hc2, hnomatch lrest] at hfc
            exact Option.noConfusion hfc
          rw [if_neg hksne]
        | none =>
          rw [Option.none_or]
          have hpleaf : ((!(BuilderNode.mk label [] (some value)).label.isEmpty &&
              (splitSep (BuilderNode.mk label [] (some value)).label).isPrefixOf (k :: kr)) = true)
              ↔ (l0 :: lrest) <+: (k :: kr) :=
            pmatch_true_iff _ (by simp only [BuilderNode.label_mk]; exact hlab) hlsOK (by simp) _
          by_cases hpre : (l0 :: lrest) <+: (k :: kr)
          · have hfind1 : List.find?
                (fun c => !c.label.isEmpty && (splitSep c.label).isPrefixOf (k :: kr))
                [BuilderNode.mk label [] (some value)]
                = some (BuilderNode.mk label [] (some value)) :=
              List.find?_cons_of_pos _ (hpleaf.mpr hpre)
            rw [hfind1]
            have hsplitlab : splitSep (BuilderNode.mk label [] (some value)).label
                = l0 :: lrest := by
              simp only [BuilderNode.label_mk]
              rw [hlab]
              exact splitSep_render hlsOK (by simp)
            by_cases hkeq : (k :: kr) = (l0 :: lrest)
            · rw [if_pos hkeq]
              dsimp only
              rw [hsplitlab, hkeq, List.drop_length, findTree_nil]
              rfl
            · rw [if_neg hkeq]
              dsimp only
              rw [hsplitlab]
              obtain ⟨t, ht⟩ := hpre
              have htne : t ≠ [] := by
                intro hc2
                rw [hc2, List.append_nil] at ht
                exact hkeq ht.symm
              have hdrop : (k :: kr).drop (l0 :: lrest).length = t := by
                rw [← ht, List.drop_left]
              rw [hdrop]
              cases t with
              | nil => exact absurd rfl htne
              | cons t0 ts =>
                rw [findTree_cons]
                simp only [BuilderNode.children_mk]
                rfl
          · have hfind0 : List.find?
                (fun c => !c.label.isEmpty && (splitSep c.label).isPrefixOf (k :: kr))
                [BuilderNode.mk label [] (some value)] = none := by
              rw [List.find?_eq_none]
              intro x hx hpx
              have hx2 : x = BuilderNode.mk label [] (some value) := by simpa using hx
              subst hx2
              exact hpre (hpleaf.mp hpx)
            rw [hfind0]
            have hksne : (k :: kr) ≠ (l0 :: lrest) := by
              intro hc2
              exact hpre (by rw [hc2])
            rw [if_neg hksne]

theorem eq_of_pairwise_ne {α β : Type} {f : α → β} : ∀ {l : List α},
    l.Pairwise (fun a b => f a ≠ f b) → ∀ {a b}, a ∈ l → b ∈ l → f a = f b → a = b := by
  intro l
  induction l with
  | nil => intro _ a b ha; simp at ha
  | cons x l2 ih =>
    intro hp a b ha hb hf
    rw [List.pairwise_cons] at hp
    rcases List.mem_cons.mp ha with rfl | ha2
    · rcases List.mem_cons.mp hb with rfl | hb2
      · rfl
      · exact absurd hf (hp.1 b hb2)
    · rcases List.mem_cons.mp hb with rfl | hb2
      · exact absurd hf.symm (hp.1 a ha2)
      · exact ih hp.2 ha2 hb2 hf

theorem find?_eq_some_of_unique {α : Type} (p : α → Bool) : ∀ {l : List α} {c : α},
    c ∈ l → p c = true →
    (∀ a ∈ l, ∀ b ∈ l, p a = true → p b = true → a = b) →
    l.find? p = some c := by
  intro l
  induction l with
  | nil => intro c hc; simp at hc
  | cons x l2 ih =>
    intro c hc hpc huniq
    cases hpx : p x with
    | true =>
      rw [List.find?_cons_of_pos _ hpx]
      have : x = c := huniq x (by simp) c hc hpx hpc
      rw [this]
    | false =>
      rw [List.find?_cons_of_neg _ (by simp [hpx])]
      rcases List.mem_cons.mp hc with rfl | hc2
      · rw [hpx] at hpc
        exact absurd hpc (by simp)
      · exact ih hc2 hpc (fun a ha b hb => huniq a (by simp [ha]) b (by simp [hb]))

theorem cpl_single {s : List Nat} {ms : List (List Nat)} (hs : SegOK s) (hms : SegsOK ms) :
    common_prefix_length s (render ms) = if ms.headD [] = s then s.length else 0 := by
  have hsOK : SegsOK [s] := by
    intro x hx
    have : x = s := by simpa using hx
    rw [this]
    exact hs
  have h1 : common_prefix_length (render [s]) (render ms) = (render (cpSegs [s] ms)).length :=
    cpl_render hsOK hms
  have hrs : render [s] = s := rfl
  rw [hrs] at h1
  cases ms with
  | nil =>
    have hc : cpSegs [s] ([] : List (List Nat)) = [] := rfl
    rw [hc] at h1
    rw [h1]
    have hne : ([] : List Nat) ≠ s := fun hc2 => hs.1 hc2.symm
    rw [if_neg (by simpa using hne)]
    rfl
  | cons m1 mr =>
    by_cases he : m1 = s
    · subst he
      have hc : cpSegs [m1] (m1 :: mr) = [m1] := by
        simp [cpSegs]
      rw [hc] at h1
      rw [h1, if_pos (by simp)]
      rfl
    · have hc : cpSegs [s] (m1 :: mr) = [] := by
        simp [cpSegs]
        intro hc2
        exact absurd hc2.symm he
      rw [hc] at h1
      rw [h1, if_neg (by simpa using he)]
      rfl

theorem findTree_cons_unique {V : Type} {b : BuilderNode V} (hWF : WFB b)
    {msc : List (List Nat)} {c : BuilderNode V} (hcmem : c ∈ b.children)
    (hclab : c.label = render msc) (hmscne : msc ≠ []) (hmscOK : SegsOK msc)
    {s : List Nat} (rest : List (List Nat)) (hhead : msc.headD [] = s) :
    findTree b (s :: rest) =
      if msc <+: (s :: rest) then findTree c ((s :: rest).drop msc.length) else none := by
  have hWFn := (WFB_iff b).mp hWF
  by_cases hpre : msc <+: (s :: rest)
  · rw [if_pos hpre]
    rw [findTree_cons]
    have hfind : b.children.find?
        (fun c2 => !c2.label.isEmpty && (splitSep c2.label).isPrefixOf (s :: rest)) = some c := by
      apply find?_eq_some_of_unique _ hcmem
      · exact (pmatch_true_iff c hclab hmscOK hmscne _).mpr hpre
      · intro a ha b2 hb2 hpa hpb
        obtain ⟨⟨ma, hmane, hmaOK, halab⟩, _⟩ := (WFBL_iff b.children).mp hWFn.1 a ha
        obtain ⟨⟨mb, hmbne, hmbOK, hblab⟩, _⟩ := (WFBL_iff b.children).mp hWFn.1 b2 hb2
        have hha := prefix_head hmane ((pmatch_true_iff a halab hmaOK hmane _).mp hpa)
        have hhb := prefix_head hmbne ((pmatch_true_iff b2 hblab hmbOK hmbne _).mp hpb)
        refine eq_of_pairwise_ne hWFn.2 ha hb2 ?_
        rw [halab, firstSeg_render hmaOK hmane, hblab, firstSeg_render hmbOK hmbne, hha, hhb]
    rw [hfind]
    have hsplitc : splitSep c.label = msc := by
      rw [hclab]
      exact splitSep_render hmscOK hmscne
    dsimp only
    rw [hsplitc]
  · rw [if_neg hpre]
    rw [findTree_cons]
    have hfind : b.children.find?
        (fun c2 => !c2.label.isEmpty && (splitSep c2.label).isPrefixOf (s :: rest)) = none := by
      rw [List.find?_eq_none]
      intro x hx hpx
      obtain ⟨⟨mx, hmxne, hmxOK, hxlab⟩, _⟩ := (WFBL_iff b.children).mp hWFn.1 x hx
      have hpre2 := (pmatch_true_iff x hxlab hmxOK hmxne _).mp hpx
      have hhx := prefix_head hmxne hpre2
      have hxc : x = c := by
        refine eq_of_pairwise_ne hWFn.2 hx hcmem ?_
        rw [hxlab, firstSeg_render hmxOK hmxne, hclab, firstSeg_render hmscOK hmscne, hhx, hhead]
      have hmm : mx = msc := render_inj hmxOK hmscOK (by rw [← hxlab, ← hclab, hxc])
      rw [hmm] at hpre2
      exact hpre hpre2
    rw [hfind]

theorem findTree_cons_nohead {V : Type} {b : BuilderNode V} (hWF : WFB b)
    {s : List Nat} (rest : List (List Nat))
    (hnone : ∀ c ∈ b.children, firstSeg c.label ≠ s) :
    findTree b (s :: rest) = none := by
  have hWFn := (WFB_iff b).mp hWF
  rw [findTree_cons]
  have hfind : b.children.find?
      (fun c2 => !c2.label.isEmpty && (splitSep c2.label).isPrefixOf (s :: rest)) = none := by
    rw [List.find?_eq_none]
    intro x hx hpx
    obtain ⟨⟨mx, hmxne, hmxOK, hxlab⟩, _⟩ := (WFBL_iff b.children).mp hWFn.1 x hx
    have hpre2 := (pmatch_true_iff x hxlab hmxOK hmxne _).mp hpx
    have hhx := prefix_head hmxne hpre2
    exact hnone x hx (by rw [hxlab, firstSeg_render hmxOK hmxne]; exact hhx)
  rw [hfind]

theorem slice_append_of_le {l ext : List Nat} {p e : Nat} (he : e ≤ l.length) :
    slice (l ++ ext) p e = slice l p e := by
  simp only [slice]
  rw [List.take_append_of_le_length he]

theorem getElem?_append_some {α : Type} {l ext : List α} {i : Nat} {a : α}
    (h : l[i]? = some a) : (l ++ ext)[i]? = some a := by
  obtain ⟨hlt, _⟩ := List.getElem?_eq_some_iff.mp h
  rw [List.getElem?_append_left hlt]
  exact h

theorem lt_of_getElem?_some {α : Type} {l : List α} {i : Nat} {a : α}
    (h : l[i]? = some a) : i < l.length := by
  obtain ⟨hlt, _⟩ := List.getElem?_eq_some_iff.mp h
  exact hlt

theorem RepIn_mono {V : Type} {t t2 : Trie V} {lo hi : Nat}
    (hnr : ∀ k, lo ≤ k → k < hi → t2.nodes[k]? = t.nodes[k]?)
    (hlab : ∃ ext, t2.labels = t.labels ++ ext)
    (hval : ∀ (vi : Nat) (v : V), t.values[vi]? = some v → t2.values[vi]? = some v) :
    ∀ {i : Nat} {b : BuilderNode V}, RepIn t lo hi i b → t2.nodes[i]? = t.nodes[i]? →
    RepIn t2 lo hi i b := by
  intro i b hrep
  induction hrep with
  | mk i b nd h1 h2 h3 h4 h5 h6 h7 h8 h9 ih =>
    intro hni
    refine RepIn.mk i b nd (by rw [hni]; exact h1) h2 ?_ ?_ ?_ h6 h7 h8 ?_
    · obtain ⟨ext, hext⟩ := hlab
      rw [hext]
      simp only [List.length_append]
      omega
    · obtain ⟨ext, hext⟩ := hlab
      rw [hext, slice_append_of_le h3]
      exact h4
    · cases hbv : b.value with
      | some v =>
        rw [hbv] at h5
        obtain ⟨vi, hv1, hv2⟩ := h5
        exact ⟨vi, hv1, hval vi v hv2⟩
      | none =>
        rw [hbv] at h5
        exact h5
    · intro j hj
      refine ih j hj (hnr _ (by omega) (by omega))

theorem RepIn_widen {V : Type} {t : Trie V} {lo hi lo2 hi2 : Nat} (hl : lo2 ≤ lo)
    (hh : hi ≤ hi2) :
    ∀ {i : Nat} {b : BuilderNode V}, RepIn t lo hi i b → RepIn t lo2 hi2 i b := by
  intro i b hrep
  induction hrep with
  | mk i b nd h1 h2 h3 h4 h5 h6 h7 h8 h9 ih =>
    exact RepIn.mk i b nd h1 h2 h3 h4 h5 (by omega) h7 (by omega) ih

theorem intoTrieNode_unfold {V : Type} (b : BuilderNode V) (index : Nat) (ns : List Node)
    (ls : List Nat) (vs : List V) (hblank : ns[index]? = some blankNode) :
    intoTrieNode b index (ns, ls, vs) =
      intoTrieChildren (sortChildren b.children) ns.length
        (ns.set index (Node.mk (ls.length, ls.length + b.label.length)
            (match b.value with | some _ => some vs.length | none => none)
            (ns.length, ns.length + (sortChildren b.children).length))
          ++ List.replicate (sortChildren b.children).length blankNode,
         ls ++ b.label,
         (match b.value with | some v => vs ++ [v] | none => vs)) := by
  have hlt : index < ns.length := lt_of_getElem?_some hblank
  have hgd : ns.getD index blankNode = blankNode := by
    rw [List.getD_eq_getElem?_getD, hblank]
    rfl
  cases hbv : b.value with
  | none =>
    have e1 : updateNode ns index
        (fun nd => { nd with label := (ls.length, ls.length + b.label.length) })
        = ns.set index (Node.mk (ls.length, ls.length + b.label.length) none (0, 0)) := by
      unfold updateNode
      rw [hgd]
      rfl
    have e3 : updateNode
        (ns.set index (Node.mk (ls.length, ls.length + b.label.length) none (0, 0))) index
        (fun nd => { nd with children :=
          (ns.length, ns.length + (sortChildren b.children).length) })
        = ns.set index (Node.mk (ls.length, ls.length + b.label.length) none
            (ns.length, ns.length + (sortChildren b.children).length)) := by
      unfold updateNode
      rw [getD_set_same _ blankNode hlt, List.set_set]
    simp only [intoTrieNode, hbv, updateNode_length, List.length_set]
    rw [e1, e3]
  | some v =>
    have e1 : updateNode ns index
        (fun nd => { nd with label := (ls.length, ls.length + b.label.length) })
        = ns.set index (Node.mk (ls.length, ls.length + b.label.length) none (0, 0)) := by
      unfold updateNode
      rw [hgd]
      rfl
    have e2 : updateNode
        (ns.set index (Node.mk (ls.length, ls.length + b.label.length) none (0, 0))) index
        (fun nd => { nd with value := some vs.length })
        = ns.set index (Node.mk (ls.length, ls.length + b.label.length) (some vs.length)
            (0, 0)) := by
      unfold updateNode
      rw [getD_set_same _ blankNode hlt, List.set_set]
    have e3 : updateNode
        (ns.set index (Node.mk (ls.length, ls.length + b.label.length) (some vs.length)
          (0, 0))) index
        (fun nd => { nd with children :=
          (ns.length, ns.length + (sortChildren b.children).length) })
        = ns.set index (Node.mk (ls.length, ls.length + b.label.length) (some vs.length)
            (ns.length, ns.length + (sortChildren b.children).length)) := by
      unfold updateNode
      rw [getD_set_same _ blankNode hlt, List.set_set]
    simp only [intoTrieNode, hbv, updateNode_length, List.length_set]
    rw [e1, e2, e3]

theorem intoTrieChildren_rep {V : Type} : ∀ (cs : List (BuilderNode V)) (idx : Nat)
    (st : List Node × List Nat × List V),
    (∀ c ∈ cs, ∀ (k : Nat) (st2 : List Node × List Nat × List V),
      k < st2.1.length → st2.1[k]? = some blankNode →
      st2.1.length ≤ (intoTrieNode c k st2).1.length ∧
      (∃ ext, (intoTrieNode c k st2).2.1 = st2.2.1 ++ ext) ∧
      (∃ ext, (intoTrieNode c k st2).2.2 = st2.2.2 ++ ext) ∧
      (∀ k2, k2 ≠ k → k2 < st2.1.length → (intoTrieNode c k st2).1[k2]? = st2.1[k2]?) ∧
      RepIn (mkTrie (intoTrieNode c k st2)) st2.1.length (intoTrieNode c k st2).1.length k c) →
    idx + cs.length ≤ st.1.length →
    (∀ j, j < cs.length → st.1[idx + j]? = some blankNode) →
    st.1.length ≤ (intoTrieChildren cs idx st).1.length ∧
    (∃ ext, (intoTrieChildren cs idx st).2.1 = st.2.1 ++ ext) ∧
    (∃ ext, (intoTrieChildren cs idx st).2.2 = st.2.2 ++ ext) ∧
    (∀ k, k < st.1.length → (k < idx ∨ idx + cs.length ≤ k) →
      (intoTrieChildren cs idx st).1[k]? = st.1[k]?) ∧
    (∀ j (hj : j < cs.length),
      RepIn (mkTrie (intoTrieChildren cs idx st)) st.1.length
        (intoTrieChildren cs idx st).1.length (idx + j) (cs.get ⟨j, hj⟩)) := by
  intro cs
  induction cs with
  | nil =>
    intro idx st hNS hpre hblank
    simp only [intoTrieChildren]
    refine ⟨Nat.le_refl _, ⟨[], (List.append_nil _).symm⟩, ⟨[], (List.append_nil _).symm⟩,
      ?_, ?_⟩
    · intro k hk hor
      trivial
    · intro j hj
      simp at hj
  | cons c cs2 ih =>
    intro idx st hNS hpre hblank
    simp only [List.length_cons] at hpre
    simp only [intoTrieChildren]
    obtain ⟨n1, nb1, nc1, nf1, nrep⟩ := hNS c (by simp) idx st (by omega)
      (by simpa using hblank 0 (by simp))
    obtain ⟨m1, mb1, mc1, mf1, mrep⟩ := ih (idx + 1) (intoTrieNode c idx st)
      (fun c2 hc2 => hNS c2 (by simp [hc2]))
      (by omega)
      (fun j hj => by
        rw [nf1 (idx + 1 + j) (by omega) (by omega)]
        have hb := hblank (1 + j) (by simpa using by omega)
        rw [show idx + (1 + j) = idx + 1 + j from by omega] at hb
        exact hb)
    refine ⟨by omega, ?_, ?_, ?_, ?_⟩
    · obtain ⟨e1, he1⟩ := nb1
      obtain ⟨e2, he2⟩ := mb1
      exact ⟨e1 ++ e2, by rw [he2, he1, List.append_assoc]⟩
    · obtain ⟨e1, he1⟩ := nc1
      obtain ⟨e2, he2⟩ := mc1
      exact ⟨e1 ++ e2, by rw [he2, he1, List.append_assoc]⟩
    · intro k hk hor
      rcases hor with h | h
      · rw [mf1 k (by omega) (Or.inl (by omega)), nf1 k (by omega) hk]
      · simp only [List.length_cons] at h
        rw [mf1 k (by omega) (Or.inr (by omega)), nf1 k (by omega) hk]
    · intro j hj
      cases j with
      | zero =>
        have hrep2 : RepIn (mkTrie (intoTrieChildren cs2 (idx + 1) (intoTrieNode c idx st)))
            st.1.length (intoTrieNode c idx st).1.length idx c := by
          refine RepIn_mono ?_ mb1 ?_ nrep ?_
          · intro k hk1 hk2
            exact mf1 k hk2 (Or.inr (by omega))
          · intro vi v hv
            obtain ⟨e2, he2⟩ := mc1
            show (intoTrieChildren cs2 (idx + 1) (intoTrieNode c idx st)).2.2[vi]? = some v
            rw [he2]
            exact getElem?_append_some hv
          · exact mf1 idx (by omega) (Or.inl (by omega))
        have hrep3 := RepIn_widen (Nat.le_refl _) m1 hrep2
        simpa using hrep3
      | succ j2 =>
        have hrep2 := mrep j2 (by simpa using hj)
        have hrep3 := RepIn_widen n1 (Nat.le_refl _) hrep2
        have he : idx + 1 + j2 = idx + (j2 + 1) := by omega
        rw [he] at hrep3
        exact hrep3

theorem intoTrieNode_rep {V : Type} : ∀ (n : Nat) (b : BuilderNode V), treeNodes b ≤ n →
    ∀ (index : Nat) (st : List Node × List Nat × List V),
    index < st.1.length → st.1[index]? = some blankNode →
    st.1.length ≤ (intoTrieNode b index st).1.length ∧
    (∃ ext, (intoTrieNode b index st).2.1 = st.2.1 ++ ext) ∧
    (∃ ext, (intoTrieNode b index st).2.2 = st.2.2 ++ ext) ∧
    (∀ k2, k2 ≠ index → k2 < st.1.length → (intoTrieNode b index st).1[k2]? = st.1[k2]?) ∧
    RepIn (mkTrie (intoTrieNode b index st)) st.1.length (intoTrieNode b index st).1.length
      index b := by
  intro n
  induction n with
  | zero =>
    intro b hb
    have e := treeNodes_eq b
    exact absurd hb (by omega)
  | succ n ihn =>
    intro b hb index st hidx hblank
    obtain ⟨ns, ls, vs⟩ := st
    dsimp only at hidx hblank
    have hchild : ∀ c ∈ sortChildren b.children, ∀ (k : Nat)
        (st2 : List Node × List Nat × List V),
        k < st2.1.length → st2.1[k]? = some blankNode →
        st2.1.length ≤ (intoTrieNode c k st2).1.length ∧
        (∃ ext, (intoTrieNode c k st2).2.1 = st2.2.1 ++ ext) ∧
        (∃ ext, (intoTrieNode c k st2).2.2 = st2.2.2 ++ ext) ∧
        (∀ k2, k2 ≠ k → k2 < st2.1.length → (intoTrieNode c k st2).1[k2]? = st2.1[k2]?) ∧
        RepIn (mkTrie (intoTrieNode c k st2)) st2.1.length (intoTrieNode c k st2).1.length
          k c := by
      intro c hc
      have hmem : c ∈ b.children := (sortChildren_perm b.children).mem_iff.mp hc
      have hle : treeNodes c ≤ treeNodesL b.children := mem_le_treeNodesL hmem
      have e := treeNodes_eq b
      intro k st2 hk hbl
      exact ihn c (by omega) k st2 hk hbl
    have hunf := intoTrieNode_unfold b index ns ls vs hblank
    set st4 : List Node × List Nat × List V :=
      (ns.set index (Node.mk (ls.length, ls.length + b.label.length)
          (match b.value with | some _ => some vs.length | none => none)
          (ns.length, ns.length + (sortChildren b.children).length))
        ++ List.replicate (sortChildren b.children).length blankNode,
       ls ++ b.label,
       (match b.value with | some v => vs ++ [v] | none => vs)) with hst4
    have hst41 : st4.1.length = ns.length + (sortChildren b.children).length := by
      rw [hst4]
      simp [List.length_set]
    have hfr : ∀ k2, k2 ≠ index → k2 < ns.length → st4.1[k2]? = ns[k2]? := by
      intro k2 hne hk2
      rw [hst4]
      simp only
      rw [List.getElem?_append_left (by simp only [List.length_set]; omega)]
      rw [List.getElem?_set_ne (by omega)]
    have hidxv : st4.1[index]? = some (Node.mk (ls.length, ls.length + b.label.length)
        (match b.value with | some _ => some vs.length | none => none)
        (ns.length, ns.length + (sortChildren b.children).length)) := by
      rw [hst4]
      simp only
      rw [List.getElem?_append_left (by simp only [List.length_set]; omega)]
      rw [List.getElem?_set_self (by simpa using hidx)]
    have hblk : ∀ j, j < (sortChildren b.children).length →
        st4.1[ns.length + j]? = some blankNode := by
      intro j hj
      rw [hst4]
      simp only
      rw [List.getElem?_append_right (by simp only [List.length_set]; omega)]
      simp only [List.length_set]
      rw [show ns.length + j - ns.length = j from by omega]
      rw [List.getElem?_replicate]
      rw [if_pos hj]
    obtain ⟨C1, CB, CC, CF, CE⟩ := intoTrieChildren_rep (sortChildren b.children) ns.length st4
      hchild (by omega) hblk
    rw [hunf]
    refine ⟨?_, ?_, ?_, ?_, ?_⟩
    · show ns.length ≤ _
      omega
    · obtain ⟨e2, he2⟩ := CB
      refine ⟨b.label ++ e2, ?_⟩
      rw [he2, hst4]
      simp only
      rw [List.append_assoc]
    · obtain ⟨e2, he2⟩ := CC
      cases hbv : b.value with
      | some v =>
        refine ⟨[v] ++ e2, ?_⟩
        rw [he2, hst4]
        simp only [hbv]
        rw [List.append_assoc]
      | none =>
        refine ⟨e2, ?_⟩
        rw [he2, hst4]
        simp only [hbv]
    · intro k2 hne hk2
      have hk2b : k2 < ns.length := hk2
      rw [CF k2 (by omega) (Or.inl hk2b)]
      exact hfr k2 hne hk2b
    · refine RepIn.mk index b (Node.mk (ls.length, ls.length + b.label.length)
          (match b.value with | some _ => some vs.length | none => none)
          (ns.length, ns.length + (sortChildren b.children).length)) ?_ ?_ ?_ ?_ ?_ ?_ ?_ ?_ ?_
      · show (intoTrieChildren (sortChildren b.children) ns.length st4).1[index]? = _
        rw [CF index (by omega) (Or.inl (by omega))]
        exact hidxv
      · show ls.length ≤ ls.length + b.label.length
        omega
      · obtain ⟨e2, he2⟩ := CB
        show ls.length + b.label.length ≤ (intoTrieChildren _ _ _).2.1.length
        rw [he2, hst4]
        simp
      · obtain ⟨e2, he2⟩ := CB
        show slice (intoTrieChildren _ _ _).2.1 ls.length (ls.length + b.label.length) = b.label
        rw [he2, hst4]
        simp only
        rw [slice_append_of_le (by simp)]
        simp only [slice]
        rw [show ls.length + b.label.length = (ls ++ b.label).length from by simp]
        rw [List.take_length]
        rw [List.drop_left]
      · cases hbv : b.value with
        | some v =>
          obtain ⟨e2, he2⟩ := CC
          refine ⟨vs.length, by simp [hbv], ?_⟩
          show (intoTrieChildren _ _ _).2.2[vs.length]? = some v
          rw [he2, hst4]
          simp only [hbv]
          exact getElem?_append_some (List.getElem?_concat_length vs v)
        | none =>
          simp [hbv]
      · show ns.length ≤ ns.length
        exact Nat.le_refl _
      · rfl
      · show ns.length + (sortChildren b.children).length ≤
          (intoTrieChildren (sortChildren b.children) ns.length st4).1.length
        rw [← hst41]
        exact C1
      · intro j hj
        have hle2 : (ns, ls, vs).1.length ≤ st4.1.length := by
          show ns.length ≤ st4.1.length
          omega
        exact RepIn_widen hle2 (Nat.le_refl _) (CE j hj)

theorem build_rep {V : Type} (b : TrieBuilder V) :
    RepIn b.build 1 b.build.nodes.length 0 b.root := by
  have spec := intoTrieNode_rep (treeNodes b.root) b.root (Nat.le_refl _) 0
    (push_trie_node [], [], []) (by simp [push_trie_node]) (by simp [push_trie_node])
  exact spec.2.2.2.2

theorem slice_length_eq {l : List Nat} {p e : Nat} (hp : p ≤ e) (he : e ≤ l.length) :
    (slice l p e).length = e - p := by
  simp [slice]
  omega

theorem slice_shift (l : List Nat) (p e k : Nat) :
    slice l (p + k) e = (slice l p e).drop k := by
  simp only [slice]
  rw [List.drop_drop]

theorem consumeLabel_spec {V : Type} (t : Trie V) :
    ∀ (msc : List (List Nat)) (p e : Nat) (segs : List (List Nat)),
    SegsOK msc → SegsOK segs → p ≤ e → e ≤ t.labels.length →
    slice t.labels p e = tailRender msc →
    consumeLabel t p e segs = if msc <+: segs then some msc.length else none := by
  intro msc
  induction msc with
  | nil =>
    intro p e segs hmOK hsOK hpe hel hsl
    have hlen : e - p = 0 := by
      have := slice_length_eq hpe hel
      rw [hsl] at this
      simpa [tailRender] using this.symm
    unfold consumeLabel
    rw [if_neg (by omega)]
    rw [if_pos (nil_isPre segs)]
    rfl
  | cons m1 more ih =>
    intro p e segs hmOK hsOK hpe hel hsl
    have hmoreOK : SegsOK more := fun x hx => hmOK x (by simp [hx])
    have hm1OK : SegOK m1 := hmOK m1 (by simp)
    have hlen : e - p = 1 + (render (m1 :: more)).length := by
      have h0 := slice_length_eq hpe hel
      rw [hsl] at h0
      simp [tailRender] at h0
      omega
    have hm1len : 0 < m1.length := List.length_pos.mpr hm1OK.1
    have hrlen : m1.length ≤ (render (m1 :: more)).length := length_render_cons_ge m1 more
    have hgt : e > p := by omega
    have hsl2 : slice t.labels (p + 1) e = render (m1 :: more) := by
      rw [slice_shift, hsl]
      rfl
    unfold consumeLabel
    rw [if_pos hgt]
    cases segs with
    | nil =>
      rw [if_neg (by simp)]
    | cons seg rest =>
      dsimp only
      have hsegOK : SegOK seg := hsOK seg (by simp)
      have hcpl : common_prefix_length seg (slice t.labels (p + 1) e)
          = if m1 = seg then seg.length else 0 := by
        rw [hsl2]
        have := cpl_single hsegOK (fun x hx => hmOK x hx)
        simpa using this
      by_cases heq : m1 = seg
      · subst heq
        rw [hcpl]
        rw [if_pos (by simp; omega)]
        rw [if_pos (rfl : m1 = m1)]
        have hsl3 : slice t.labels (p + 1 + m1.length) e = tailRender more := by
          rw [slice_shift, hsl2]
          cases more with
          | nil =>
            simp [tailRender, render]
          | cons m2 mr =>
            rw [render_cons m1 (by simp)]
            rw [show m1 ++ SEPARATOR :: render (m2 :: mr)
              = m1 ++ (SEPARATOR :: render (m2 :: mr)) from rfl]
            rw [show m1.length = m1.length from rfl]
            have := List.drop_left m1 (SEPARATOR :: render (m2 :: mr))
            rw [this]
            rfl
        have hbound : p + 1 + m1.length ≤ e := by
          have h2 := length_render_cons_ge m1 more
          omega
        rw [ih (p + 1 + m1.length) e rest hmoreOK
          (fun x hx => hsOK x (by simp [hx])) hbound hel hsl3]
        by_cases hpre : more <+: rest
        · rw [if_pos hpre, if_pos (List.cons_prefix_cons.mpr ⟨rfl, hpre⟩)]
          simp
        · rw [if_neg hpre]
          rw [if_neg (by
            intro hc
            exact hpre (List.cons_prefix_cons.mp hc).2)]
      · rw [hcpl, if_neg heq]
        rw [if_neg (by simp)]
        rw [if_neg (by
          intro hc
          exact heq (List.cons_prefix_cons.mp hc).1)]

theorem take_isPre_take {α : Type} (l : List α) {m j : Nat} (h : m ≤ j) :
    l.take m <+: l.take j := by
  have e : l.take m = (l.take j).take m := by
    rw [List.take_take, Nat.min_eq_left h]
  rw [e]
  exact take_isPre m (l.take j)

theorem findTree_take_ge {V : Type} {b : BuilderNode V} (hWF : WFB b)
    {msc : List (List Nat)} {c : BuilderNode V} (hcmem : c ∈ b.children)
    (hclab : c.label = render msc) (hmscne : msc ≠ []) (hmscOK : SegsOK msc)
    {segs : List (List Nat)} (hpre : msc <+: segs) :
    ∀ {j : Nat}, msc.length ≤ j →
    findTree b (segs.take j) = findTree c ((segs.drop msc.length).take (j - msc.length)) := by
  intro j hj
  have hm1 : 1 ≤ msc.length := List.length_pos.mpr hmscne
  cases segs with
  | nil =>
    rw [List.prefix_nil.mp hpre] at hmscne
    exact absurd rfl hmscne
  | cons s rest =>
    have hhead : msc.headD [] = s := prefix_head hmscne hpre
    cases j with
    | zero => omega
    | succ j2 =>
      rw [List.take_succ_cons]
      rw [findTree_cons_unique hWF hcmem hclab hmscne hmscOK (rest.take j2) hhead]
      rw [if_pos ?hp]
      case hp =>
        have h1 : msc = (s :: rest).take msc.length := by
          rw [take_of_isPre hpre]
        rw [h1, ← List.take_succ_cons]
        exact take_isPre_take (s :: rest) hj
      rw [← List.take_succ_cons, List.drop_take]

theorem findTree_take_lt {V : Type} {b : BuilderNode V} (hWF : WFB b)
    {msc : List (List Nat)} {c : BuilderNode V} (hcmem : c ∈ b.children)
    (hclab : c.label = render msc) (hmscne : msc ≠ []) (hmscOK : SegsOK msc)
    {segs : List (List Nat)} (hpre : msc <+: segs) :
    ∀ {j : Nat}, 1 ≤ j → j < msc.length →
    findTree b (segs.take j) = none := by
  intro j hj1 hjlt
  have hm := hpre.length_le
  cases segs with
  | nil =>
    rw [List.prefix_nil.mp hpre] at hmscne
    exact absurd rfl hmscne
  | cons s rest =>
    have hhead : msc.headD [] = s := prefix_head hmscne hpre
    cases j with
    | zero => omega
    | succ j2 =>
      rw [List.take_succ_cons]
      rw [findTree_cons_unique hWF hcmem hclab hmscne hmscOK (rest.take j2) hhead]
      rw [if_neg ?hp]
      case hp =>
        intro hc
        have := hc.length_le
        simp only [List.length_cons, List.length_take] at this
        simp only [List.length_cons] at hm
        omega

theorem findTree_take_stop {V : Type} {b : BuilderNode V}
    {s : List Nat} {rest : List (List Nat)}
    (hnm : ∀ c ∈ b.children, ¬ ((splitSep c.label) <+: (s :: rest))) :
    ∀ {j : Nat}, 1 ≤ j → findTree b ((s :: rest).take j) = none := by
  intro j hj1
  cases j with
  | zero => omega
  | succ j2 =>
    rw [List.take_succ_cons, findTree_cons]
    have hfind : b.children.find?
        (fun c2 => !c2.label.isEmpty && (splitSep c2.label).isPrefixOf (s :: rest.take j2))
        = none := by
      rw [List.find?_eq_none]
      intro x hx hpx
      simp only [Bool.and_eq_true, Bool.not_eq_true'] at hpx
      have hp2 := (isPrefixOf_iff _ _).mp hpx.2
      refine hnm x hx (hp2.trans ?_)
      rw [← List.take_succ_cons]
      exact take_isPre (j2 + 1) (s :: rest)
    rw [hfind]

theorem treeBestAux_low {V : Type} {b : BuilderNode V} {segs : List (List Nat)} {jmax : Nat}
    (hlow : ∀ j2, 1 ≤ j2 → j2 ≤ jmax → findTree b (segs.take j2) = none) :
    ∀ j, j ≤ jmax → treeBestAux b segs j = (findTree b []).map (fun v => (v, 0)) := by
  intro j
  induction j with
  | zero => intro h; rfl
  | succ j2 ih =>
    intro hle
    simp only [treeBestAux]
    rw [hlow (j2 + 1) (by omega) hle]
    exact ih (by omega)

theorem treeBestAux_shift {V : Type} {b c : BuilderNode V} {segs : List (List Nat)} {m : Nat}
    (hge : ∀ j2, m ≤ j2 → findTree b (segs.take j2)
      = findTree c ((segs.drop m).take (j2 - m)))
    (hlt : ∀ j2, 1 ≤ j2 → j2 < m → findTree b (segs.take j2) = none)
    (hm1 : 1 ≤ m) :
    ∀ j2, treeBestAux b segs (m + j2)
      = match treeBestAux c (segs.drop m) j2 with
        | some (v, jj) => some (v, m + jj)
        | none => (findTree b []).map (fun v => (v, 0)) := by
  intro j2
  induction j2 with
  | zero =>
    cases m with
    | zero => omega
    | succ m2 =>
      simp only [Nat.add_zero, treeBestAux]
      rw [hge (m2 + 1) (Nat.le_refl _), Nat.sub_self, List.take_zero]
      cases hcv : findTree c [] with
      | some v =>
        simp only [hcv, Option.map_some]
        rfl
      | none =>
        simp only [hcv, Option.map_none]
        exact treeBestAux_low (fun j3 h1 h2 => hlt j3 h1 (by omega)) m2 (Nat.le_refl _)
  | succ j3 ih =>
    rw [show m + (j3 + 1) = (m + j3) + 1 from rfl]
    simp only [treeBestAux]
    rw [hge (m + j3 + 1) (by omega)]
    rw [show m + j3 + 1 - m = j3 + 1 from by omega]
    cases hcv : findTree c ((segs.drop m).take (j3 + 1)) with
    | some v =>
      simp only [treeBestAux, hcv]
      rfl
    | none =>
      simp only [treeBestAux, hcv]
      exact ih

theorem treeBest_descend {V : Type} {b : BuilderNode V} (hWF : WFB b)
    {msc : List (List Nat)} {c : BuilderNode V} (hcmem : c ∈ b.children)
    (hclab : c.label = render msc) (hmscne : msc ≠ []) (hmscOK : SegsOK msc)
    {segs : List (List Nat)} (hpre : msc <+: segs) :
    treeBest b segs = match treeBest c (segs.drop msc.length) with
      | some (v, jj) => some (v, msc.length + jj)
      | none => (findTree b []).map (fun v => (v, 0)) := by
  have hm := hpre.length_le
  have hm1 : 1 ≤ msc.length := List.length_pos.mpr hmscne
  have hsh := treeBestAux_shift
    (fun j2 hj2 => findTree_take_ge hWF hcmem hclab hmscne hmscOK hpre hj2)
    (fun j2 h1 h2 => findTree_take_lt hWF hcmem hclab hmscne hmscOK hpre h1 h2)
    hm1 (segs.length - msc.length)
  rw [show msc.length + (segs.length - msc.length) = segs.length from by omega] at hsh
  unfold treeBest
  rw [hsh, List.length_drop]

theorem treeBest_stop {V : Type} {b : BuilderNode V}
    {s : List Nat} {rest : List (List Nat)}
    (hnm : ∀ c ∈ b.children, ¬ ((splitSep c.label) <+: (s :: rest))) :
    treeBest b (s :: rest) = (findTree b []).map (fun v => (v, 0)) := by
  unfold treeBest
  exact treeBestAux_low (fun j2 h1 h2 => findTree_take_stop hnm h1) _ (Nat.le_refl _)

theorem RepIn_node {V : Type} {t : Trie V} {lo hi i : Nat} {b : BuilderNode V}
    (h : RepIn t lo hi i b) :
    ∃ nd, t.nodes[i]? = some nd ∧ nd.label.1 ≤ nd.label.2 ∧ nd.label.2 ≤ t.labels.length ∧
      slice t.labels nd.label.1 nd.label.2 = b.label ∧
      (match b.value with
        | some v => ∃ vi, nd.value = some vi ∧ t.values[vi]? = some v
        | none => nd.value = none) ∧
      nd.children.2 = nd.children.1 + (sortChildren b.children).length ∧
      (∀ j (hj : j < (sortChildren b.children).length),
        RepIn t lo hi (nd.children.1 + j) ((sortChildren b.children).get ⟨j, hj⟩)) := by
  cases h with
  | mk i b nd h1 h2 h3 h4 h5 h6 h7 h8 h9 =>
    exact ⟨nd, h1, h2, h3, h4, h5, h7, h9⟩

theorem lookup_refines {V : Type} {t : Trie V} : ∀ (n : Nat) (segs : List (List Nat)),
    segs.length ≤ n → SegsOK segs →
    ∀ (lo hi i : Nat) (b : BuilderNode V), RepIn t lo hi i b → WFB b →
    ∀ (nd : Node), t.nodes[i]? = some nd →
    ∀ (cnt : Nat) (res : Option (V × Nat)),
    lookupGo t nd segs cnt res
      = match treeBest b segs with
        | some (v, j) => some (v, cnt + j)
        | none => res := by
  intro n
  induction n with
  | zero =>
    intro segs hn hsOK lo hi i b hrep hWF nd hnd cnt res
    have hnil : segs = [] := List.eq_nil_of_length_eq_zero (by omega)
    subst hnil
    obtain ⟨nd2, hnd2, _, _, _, hval, _, _⟩ := RepIn_node hrep
    rw [hnd] at hnd2
    have hndeq : nd = nd2 := Option.some_inj.mp hnd2
    subst hndeq
    have hgo : lookupGo t nd [] cnt res = lookupBody t nd [] cnt
        (match b.value with | some v => some (v, cnt) | none => res) := by
      cases hbv : b.value with
      | some v =>
        rw [hbv] at hval
        obtain ⟨vi, hvi, hvv⟩ := hval
        unfold lookupGo
        rw [hvi]
        dsimp only
        rw [hvv]
      | none =>
        rw [hbv] at hval
        unfold lookupGo
        rw [hval]
    rw [hgo]
    unfold lookupBody
    unfold treeBest treeBestAux
    rw [findTree_nil]
    cases hbv : b.value with
    | some v => rfl
    | none => rfl
  | succ n ihn =>
    intro segs hn hsOK lo hi i b hrep hWF nd hnd cnt res
    obtain ⟨nd2, hnd2, hl12, hl2len, hslice, hval, hch2, hchildren⟩ := RepIn_node hrep
    rw [hnd] at hnd2
    have hndeq : nd = nd2 := Option.some_inj.mp hnd2
    subst hndeq
    have hgo : lookupGo t nd segs cnt res = lookupBody t nd segs cnt
        (match b.value with | some v => some (v, cnt) | none => res) := by
      cases hbv : b.value with
      | some v =>
        rw [hbv] at hval
        obtain ⟨vi, hvi, hvv⟩ := hval
        unfold lookupGo
        rw [hvi]
        dsimp only
        rw [hvv]
      | none =>
        rw [hbv] at hval
        unfold lookupGo
        rw [hval]
    rw [hgo]
    cases segs with
    | nil =>
      unfold lookupBody
      unfold treeBest treeBestAux
      rw [findTree_nil]
      cases hbv : b.value with
      | some v => rfl
      | none => rfl
    | cons seg rest =>
      have hsegOK : SegOK seg := hsOK seg (by simp)
      have hrestOK : SegsOK rest := fun x hx => hsOK x (by simp [hx])
      have hWFn := (WFB_iff b).mp hWF
      unfold lookupBody
      -- the child scan
      have SCAN : ∀ (csuf : List (BuilderNode V)) (k : Nat),
          (sortChildren b.children).drop k = csuf →
          scanChildren t (nd.children.1 + k) nd.children.2 seg rest (cnt + 1)
            (match b.value with | some v => some (v, cnt) | none => res)
          = match csuf.find? (fun c => decide (0 < common_prefix_length seg c.label)) with
            | none => (match b.value with | some v => some (v, cnt) | none => res)
            | some c =>
              if splitSep c.label <+: (seg :: rest)
              then (match treeBest c ((seg :: rest).drop (splitSep c.label).length) with
                    | some (v, j) => some (v, cnt + (splitSep c.label).length + j)
                    | none => (match b.value with | some v => some (v, cnt) | none => res))
              else (match b.value with | some v => some (v, cnt) | none => res) := by
        intro csuf
        induction csuf with
        | nil =>
          intro k hk
          have hk2 : (sortChildren b.children).length ≤ k := by
            have := congrArg List.length hk
            simp at this
            omega
          unfold scanChildren
          rw [if_neg (by omega)]
          rfl
        | cons c csuf2 ih =>
          intro k hk
          have hklt : k < (sortChildren b.children).length := by
            have := congrArg List.length hk
            simp at this
            omega
          have hget : (sortChildren b.children)[k]? = some c := by
            have h0 : ((sortChildren b.children).drop k)[0]? = some c := by
              rw [hk]
              simp
            rw [List.getElem?_drop] at h0
            simpa using h0
          have hgetk : (sortChildren b.children).get ⟨k, hklt⟩ = c := by
            have := List.getElem?_eq_getElem hklt
            rw [hget] at this
            exact (Option.some_inj.mp this.symm)
          have hrepc : RepIn t lo hi (nd.children.1 + k) c := by
            have := hchildren k hklt
            rwa [hgetk] at this
          have hcmem : c ∈ b.children := by
            have h1 : c ∈ sortChildren b.children := by
              have := List.getElem?_mem hget
              exact this
            exact (sortChildren_perm b.children).mem_iff.mp h1
          obtain ⟨⟨msc, hmscne, hmscOK, hclab⟩, hcWF⟩ :=
            (WFBL_iff b.children).mp hWFn.1 c hcmem
          obtain ⟨ndc, hndc, hcl12, hcl2len, hcslice, hcval, hcch2, hcchildren⟩ :=
            RepIn_node hrepc
          unfold scanChildren
          rw [if_pos (by omega)]
          rw [hndc]
          dsimp only
          rw [hcslice]
          have hcpl : common_prefix_length seg c.label
              = if msc.headD [] = seg then seg.length else 0 := by
            rw [hclab]
            exact cpl_single hsegOK hmscOK
          by_cases hhm : msc.headD [] = seg
          · have hcplv : common_prefix_length seg c.label = seg.length := by
              rw [hcpl, if_pos hhm]
            have hsegpos : 0 < seg.length := List.length_pos.mpr hsegOK.1
            have hpos : 0 < common_prefix_length seg c.label := by
              rw [hcplv]
              exact hsegpos
            rw [if_pos hpos]
            obtain ⟨m1, mtail, rfl⟩ : ∃ m1 mtail, msc = m1 :: mtail := by
              cases msc with
              | nil => exact absurd rfl hmscne
              | cons a bb => exact ⟨a, bb, rfl⟩
            have hm1 : seg = m1 := by
              have := hhm
              simp at this
              exact this.symm
            subst hm1
            have hmtailOK : SegsOK mtail := fun x hx => hmscOK x (by simp [hx])
            have hclen : (slice t.labels ndc.label.1 ndc.label.2).length
                = ndc.label.2 - ndc.label.1 := slice_length_eq hcl12 hcl2len
            rw [hcslice, hclab] at hclen
            have hrock : seg.length ≤ (render (seg :: mtail)).length :=
              length_render_cons_ge seg mtail
            have hsl3 : slice t.labels (ndc.label.1 + common_prefix_length seg c.label)
                ndc.label.2 = tailRender mtail := by
              rw [hcplv, slice_shift, hcslice, hclab]
              cases mtail with
              | nil => simp [tailRender, render]
              | cons m2 mr =>
                rw [render_cons seg (by simp)]
                have := List.drop_left seg (SEPARATOR :: render (m2 :: mr))
                rw [this]
                rfl
            rw [consumeLabel_spec t mtail (ndc.label.1 + common_prefix_length seg c.label)
              ndc.label.2 rest hmtailOK hrestOK (by rw [hcplv]; omega) hcl2len hsl3]
            have hsplitc : splitSep c.label = seg :: mtail := by
              rw [hclab]
              exact splitSep_render hmscOK hmscne
            have hfind1 : (c :: csuf2).find?
                (fun c2 => decide (0 < common_prefix_length seg c2.label)) = some c :=
              List.find?_cons_of_pos _ (decide_eq_true hpos)
            rw [hfind1]
            dsimp only
            rw [hsplitc]
            by_cases hpre : mtail <+: rest
            · rw [if_pos hpre]
              dsimp only
              have hdOK : SegsOK (rest.drop mtail.length) := segsOK_drop hrestOK _
              have hrec := ihn (rest.drop mtail.length)
                (by simp only [List.length_cons] at hn; simp only [List.length_drop]; omega)
                hdOK lo hi (nd.children.1 + k) c hrepc hcWF ndc hndc
                (cnt + 1 + mtail.length)
                (match b.value with | some v => some (v, cnt) | none => res)
              rw [hrec]
              rw [if_pos (List.cons_prefix_cons.mpr ⟨rfl, hpre⟩)]
              rw [show (seg :: mtail).length = mtail.length + 1 from by simp]
              rw [List.drop_succ_cons]
              have harith : cnt + 1 + mtail.length = cnt + (mtail.length + 1) := by omega
              rw [harith]
            · rw [if_neg hpre]
              dsimp only
              rw [if_neg (by
                intro hc
                exact hpre (List.cons_prefix_cons.mp hc).2)]
          · have hcpl0 : common_prefix_length seg c.label = 0 := by
              rw [hcpl, if_neg hhm]
            rw [if_neg (by omega)]
            rw [show nd.children.1 + k + 1 = nd.children.1 + (k + 1) from by omega]
            rw [ih (k + 1) (by
              have : (sortChildren b.children).drop (k + 1)
                  = ((sortChildren b.children).drop k).drop 1 := by
                rw [List.drop_drop]
              rw [this, hk]
              rfl)]
            have hfind0 : (c :: csuf2).find?
                (fun c2 => decide (0 < common_prefix_length seg c2.label))
                = csuf2.find? (fun c2 => decide (0 < common_prefix_length seg c2.label)) :=
              List.find?_cons_of_neg _ (by simp [hcpl0])
            rw [hfind0]
      have hs0 := SCAN (sortChildren b.children) 0 (by simp)
      rw [Nat.add_zero] at hs0
      rw [hs0]
      -- relate the sorted find? to the tree-level best
      cases hfc : (sortChildren b.children).find?
          (fun c => decide (0 < common_prefix_length seg c.label)) with
      | none =>
        -- no child matches the head: every prefix fails
        have hnm : ∀ c ∈ b.children, ¬ ((splitSep c.label) <+: (seg :: rest)) := by
          intro c hc hp
          obtain ⟨⟨msc, hmscne, hmscOK, hclab⟩, _⟩ := (WFBL_iff b.children).mp hWFn.1 c hc
          rw [hclab, splitSep_render hmscOK hmscne] at hp
          have hhm : msc.headD [] = seg := prefix_head hmscne hp
          have hmem2 : c ∈ sortChildren b.children :=
            (sortChildren_perm b.children).mem_iff.mpr hc
          have := List.find?_eq_none.mp hfc c hmem2
          refine this (decide_eq_true ?_)
          rw [hclab, cpl_single hsegOK hmscOK, if_pos hhm]
          exact List.length_pos.mpr hsegOK.1
        rw [treeBest_stop hnm, findTree_nil]
        cases hbv : b.value with
        | some v => rfl
        | none => rfl
      | some c =>
        dsimp only
        have hcmem : c ∈ b.children :=
          (sortChildren_perm b.children).mem_iff.mp (List.mem_of_find?_eq_some hfc)
        obtain ⟨⟨msc, hmscne, hmscOK, hclab⟩, _⟩ := (WFBL_iff b.children).mp hWFn.1 c hcmem
        have hpc := List.find?_some hfc
        have hpos : 0 < common_prefix_length seg c.label := of_decide_eq_true hpc
        have hhm : msc.headD [] = seg := by
          rw [hclab, cpl_single hsegOK hmscOK] at hpos
          by_cases h2 : msc.headD [] = seg
          · exact h2
          · rw [if_neg h2] at hpos
            omega
        have hsplitc : splitSep c.label = msc := by
          rw [hclab]
          exact splitSep_render hmscOK hmscne
        rw [hsplitc]
        by_cases hpre : msc <+: (seg :: rest)
        · rw [if_pos hpre]
          rw [treeBest_descend hWF hcmem hclab hmscne hmscOK hpre, findTree_nil]
          cases htb : treeBest c ((seg :: rest).drop msc.length) with
          | some p =>
            obtain ⟨v, jj⟩ := p
            dsimp only
            have harith : cnt + (msc.length + jj) = cnt + msc.length + jj := by omega
            rw [harith]
          | none =>
            dsimp only
            cases hbv : b.value with
            | some v => rfl
            | none => rfl
        · rw [if_neg hpre]
          have hnm : ∀ c2 ∈ b.children, ¬ ((splitSep c2.label) <+: (seg :: rest)) := by
            intro c2 hc2 hp
            obtain ⟨⟨msc2, hmsc2ne, hmsc2OK, hclab2⟩, _⟩ :=
              (WFBL_iff b.children).mp hWFn.1 c2 hc2
            rw [hclab2, splitSep_render hmsc2OK hmsc2ne] at hp
            have hhm2 : msc2.headD [] = seg := prefix_head hmsc2ne hp
            have hceq : c2 = c := by
              refine eq_of_pairwise_ne hWFn.2 hc2 hcmem ?_
              rw [hclab2, firstSeg_render hmsc2OK hmsc2ne,
                hclab, firstSeg_render hmscOK hmscne, hhm2, hhm]
            subst hceq
            have hmeq : msc2 = msc := render_inj hmsc2OK hmscOK (by rw [← hclab2, ← hclab])
            rw [hmeq] at hp
            exact hpre hp
          rw [treeBest_stop hnm, findTree_nil]
          cases hbv : b.value with
          | some v => rfl
          | none => rfl

theorem lookup_build {V : Type} (b : TrieBuilder V) (segs : List (List Nat))
    (hOK : SegsOK segs) (hWF : WFB b.root) :
    Trie.lookup b.build segs = match treeBest b.root segs with
      | some (v, j) => some (v, j)
      | none => none := by
  have hrep := build_rep b
  obtain ⟨nd, hnd, _⟩ := RepIn_node hrep
  unfold Trie.lookup
  rw [hnd]
  dsimp only
  rw [lookup_refines segs.length segs (Nat.le_refl _) hOK 1 b.build.nodes.length 0 b.root
    hrep hWF nd hnd 0 none]
  cases htb : treeBest b.root segs with
  | some p =>
    obtain ⟨v, j⟩ := p
    dsimp only
    rw [Nat.zero_add]
  | none => rfl

theorem getLast?_cons_or {α : Type} (a : α) : ∀ (l : List α),
    (a :: l).getLast? = (l.getLast?).or (some a) := by
  intro l
  induction l generalizing a with
  | nil => rfl
  | cons b l2 ih =>
    rw [List.getLast?_cons_cons, ih b]
    cases hgl : l2.getLast? <;> rfl

theorem pushedValue_cons {V : Type} (p : List (List Nat) × V)
    (ps : List (List (List Nat) × V)) (k : List (List Nat)) :
    pushedValue (p :: ps) k = match pushedValue ps k with
      | some v => some v
      | none => if p.1 = k then some p.2 else none := by
  unfold pushedValue
  by_cases hp : p.1 = k
  · rw [List.filter_cons_of_pos (by simp [hp])]
    rw [getLast?_cons_or]
    cases hf : (ps.filter (fun q => q.1 = k)).getLast? with
    | some q =>
      rfl
    | none =>
      rw [if_pos hp]
      rfl
  · rw [List.filter_cons_of_neg (by simp [hp])]
    cases hf : (ps.filter (fun q => q.1 = k)).getLast? with
    | some q => rfl
    | none =>
      rw [if_neg hp]
      rfl

theorem findTree_new {V : Type} (ks : List (List Nat)) :
    findTree (BuilderNode.mk ([] : List Nat) [] (none : Option V)) ks = none := by
  cases ks with
  | nil =>
    rw [findTree_nil]
    rfl
  | cons k kr =>
    rw [findTree_cons]
    rfl

theorem WFB_new {V : Type} : WFB (BuilderNode.mk ([] : List Nat) [] (none : Option V)) := by
  rw [WFB_mk]
  exact ⟨trivial, List.Pairwise.nil⟩

theorem pushAll_findTree {V : Type} : ∀ (ps : List (List (List Nat) × V)) (b : TrieBuilder V),
    (∀ p ∈ ps, SegsOK p.1) → WFB b.root →
    WFB (b.pushAll (ps.map (fun p => (render p.1, p.2)))).root ∧
    ∀ ks, findTree (b.pushAll (ps.map (fun p => (render p.1, p.2)))).root ks
      = match pushedValue ps ks with
        | some v => some v
        | none => findTree b.root ks := by
  intro ps
  induction ps with
  | nil =>
    intro b hOK hWF
    refine ⟨hWF, ?_⟩
    intro ks
    rfl
  | cons p ps2 ih =>
    intro b hOK hWF
    obtain ⟨hlab, hWF1, hbool, hfind⟩ := pushAt_semantics b.root b.nodes b.labels b.values
      (render p.1) p.2 p.1 rfl (hOK p (by simp)) hWF
    have hstep : (b.pushAll ((p :: ps2).map (fun q => (render q.1, q.2))))
        = ((b.push (render p.1) p.2).1).pushAll (ps2.map (fun q => (render q.1, q.2))) := rfl
    rw [hstep]
    obtain ⟨ih1, ih2⟩ := ih (b.push (render p.1) p.2).1
      (fun q hq => hOK q (by simp [hq])) hWF1
    refine ⟨ih1, ?_⟩
    intro ks
    rw [ih2 ks]
    rw [pushedValue_cons]
    cases h2 : pushedValue ps2 ks with
    | some v => rfl
    | none =>
      dsimp only
      have hroot : ((b.push (render p.1) p.2).1).root
          = (pushAt b.root b.nodes b.labels b.values (render p.1) p.2).1 := rfl
      rw [hroot, hfind ks]
      by_cases he : ks = p.1
      · rw [if_pos he, if_pos he.symm]
      · rw [if_neg he, if_neg (fun hc => he hc.symm)]

theorem treeBest_eq_bestMatch {V : Type} (ps : List (List (List Nat) × V))
    (root : BuilderNode V) (hf : ∀ ks, findTree root ks = pushedValue ps ks)
    (segs : List (List Nat)) :
    treeBest root segs = bestMatch ps segs := by
  unfold treeBest bestMatch
  suffices h : ∀ j, treeBestAux root segs j = bestMatchAux ps segs j from h _
  intro j
  induction j with
  | zero =>
    simp only [treeBestAux, bestMatchAux]
    rw [hf]
  | succ j2 ih =>
    simp only [treeBestAux, bestMatchAux]
    rw [hf]
    cases hx : pushedValue ps (segs.take (j2 + 1)) with
    | some v => rfl
    | none =>
      dsimp only
      exact ih

theorem childLabels_eq {V : Type} {t : Trie V} {lo hi : Nat} {b : BuilderNode V} {nd : Node}
    (hch2 : nd.children.2 = nd.children.1 + (sortChildren b.children).length)
    (hchildren : ∀ j (hj : j < (sortChildren b.children).length),
      RepIn t lo hi (nd.children.1 + j) ((sortChildren b.children).get ⟨j, hj⟩)) :
    childLabels t nd = (sortChildren b.children).map (fun c => c.label) := by
  apply List.ext_getElem?
  intro j
  unfold childLabels
  rw [List.getElem?_map, List.getElem?_map, List.getElem?_drop, List.getElem?_take]
  by_cases hj : j < (sortChildren b.children).length
  · rw [if_pos (by omega)]
    obtain ⟨ndj, hndj, _, _, hslj, _, _, _⟩ := RepIn_node (hchildren j hj)
    rw [hndj]
    rw [List.getElem?_eq_getElem hj]
    simp only [Option.map_some']
    rw [hslj]
    rfl
  · rw [if_neg (by omega)]
    rw [List.getElem?_eq_none (by omega)]
    rfl

theorem RepIn_structured {V : Type} {t : Trie V} {lo hi : Nat} (hhi : hi ≤ t.nodes.length) :
    ∀ {i : Nat} {b : BuilderNode V}, RepIn t lo hi i b → WFB b → Structured t i := by
  intro i b hrep
  induction hrep with
  | mk i b nd h1 h2 h3 h4 h5 h6 h7 h8 h9 ih =>
    intro hWF
    have hWFn := (WFB_iff b).mp hWF
    have hcl : childLabels t nd = (sortChildren b.children).map (fun c => c.label) :=
      childLabels_eq h7 h9
    refine Structured.mk i nd h1 (by omega) (by omega) ?_ ?_ ?_
    · rw [hcl, List.pairwise_map]
      exact List.sorted_insertionSort _ _
    · rw [hcl, List.pairwise_map]
      exact ((sortChildren_perm b.children).pairwise_iff
        (fun hxy => Ne.symm hxy)).mpr hWFn.2
    · intro k hk1 hk2
      have hj : k - nd.children.1 < (sortChildren b.children).length := by omega
      have hwfc : WFB ((sortChildren b.children).get ⟨k - nd.children.1, hj⟩) := by
        have hmem : (sortChildren b.children).get ⟨k - nd.children.1, hj⟩ ∈ b.children := by
          have h0 : (sortChildren b.children).get ⟨k - nd.children.1, hj⟩
              ∈ sortChildren b.children := List.getElem_mem hj
          exact (sortChildren_perm b.children).mem_iff.mp h0
        exact ((WFBL_iff b.children).mp hWFn.1 _ hmem).2
      have hst := ih (k - nd.children.1) hj hwfc
      rwa [show nd.children.1 + (k - nd.children.1) = k from by omega] at hst

theorem buildFromSegs_sem {V : Type} (ps : List (List (List Nat) × V))
    (hOK : ∀ p ∈ ps, SegsOK p.1) :
    WFB (buildFromSegs ps).root ∧
    ∀ ks, findTree (buildFromSegs ps).root ks = pushedValue ps ks := by
  obtain ⟨hWF, hfind⟩ := pushAll_findTree ps (TrieBuilder.new V) hOK WFB_new
  refine ⟨hWF, ?_⟩
  intro ks
  have hb : findTree (buildFromSegs ps).root ks
      = match pushedValue ps ks with
        | some v => some v
        | none => findTree (TrieBuilder.new V).root ks := hfind ks
  rw [hb]
  cases hx : pushedValue ps ks with
  | some v => rfl
  | none =>
    show findTree (BuilderNode.mk ([] : List Nat) [] (none : Option V)) ks = none
    exact findTree_new ks

theorem bestMatch_self {V : Type} (ps : List (List (List Nat) × V)) (ls : List (List Nat))
    (v : V) (h : pushedValue ps ls = some v) :
    bestMatch ps ls = some (v, ls.length) := by
  unfold bestMatch
  cases hl : ls.length with
  | zero =>
    have he : ls = [] := List.eq_nil_of_length_eq_zero hl
    subst he
    simp only [bestMatchAux]
    rw [h]
    rfl
  | succ j =>
    simp only [bestMatchAux]
    rw [show ls.take (j + 1) = ls from by rw [← hl]; exact List.take_length ls]
    rw [h]

theorem lookup_bestMatch {V : Type} (ps : List (List (List Nat) × V))
    (hOK : ∀ p ∈ ps, SegsOK p.1) (segs : List (List Nat)) (hsegs : SegsOK segs) :
    Trie.lookup ((buildFromSegs ps).build) segs = bestMatch ps segs := by
  obtain ⟨hWF, hf2⟩ := buildFromSegs_sem ps hOK
  rw [lookup_build (buildFromSegs ps) segs hsegs hWF]
  rw [treeBest_eq_bestMatch ps _ hf2 segs]
  cases hbm : bestMatch ps segs with
  | some pr =>
    obtain ⟨v, j⟩ := pr
    rfl
  | none => rfl

/-- Theorem for claim C1: `Trie::lookup` implements longest-match-wins. For
every trie built from a sequence of pushes of normalized keys and every
segment iterator, the lookup result equals the value of the longest stored
key that is a whole-segment prefix of the input (the last push at that key
winning), paired with the number of input segments consumed to reach it, and
is `None` exactly when no such key has a value — a root value matches any
input as the zero-length prefix. -/
theorem trie_lookup_longest_match {V : Type} (ps : List (List (List Nat) × V))
    (hOK : ∀ p ∈ ps, SegsOK p.1) (segs : List (List Nat)) (hsegs : SegsOK segs) :
    Trie.lookup ((buildFromSegs ps).build) segs = bestMatch ps segs :=
  lookup_bestMatch ps hOK segs hsegs

/-- Theorem for claim C4: in every trie built from a sequence of pushes with
normalized labels, the children of each node occupy a contiguous slot range
of the nodes vector, are sorted lexicographically by label, and no two
sibling labels share a first segment, hereditarily from the root. -/
theorem built_trie_structure {V : Type} (ps : List (List (List Nat) × V))
    (hOK : ∀ p ∈ ps, SegsOK p.1) :
    Structured ((buildFromSegs ps).build) 0 := by
  obtain ⟨hWF, _⟩ := buildFromSegs_sem ps hOK
  exact RepIn_structured (Nat.le_refl _) (build_rep (buildFromSegs ps)) hWF

theorem push_flag {V : Type} (ps : List (List (List Nat) × V))
    (hOK : ∀ p ∈ ps, SegsOK p.1) (ls : List (List Nat)) (hls : SegsOK ls) (v : V) :
    ((buildFromSegs ps).push (render ls) v).2 = (pushedValue ps ls).isSome := by
  obtain ⟨hWF, hf2⟩ := buildFromSegs_sem ps hOK
  obtain ⟨_, _, hbool, _⟩ := pushAt_semantics (buildFromSegs ps).root (buildFromSegs ps).nodes
    (buildFromSegs ps).labels (buildFromSegs ps).values (render ls) v ls rfl hls hWF
  show (pushAt (buildFromSegs ps).root (buildFromSegs ps).nodes (buildFromSegs ps).labels
    (buildFromSegs ps).values (render ls) v).2.2.2.2 = _
  rw [hbool, hf2 ls]

theorem pushedValue_concat {V : Type} (ps : List (List (List Nat) × V))
    (ls : List (List Nat)) (v : V) :
    pushedValue (ps ++ [(ls, v)]) ls = some v := by
  unfold pushedValue
  rw [List.filter_append]
  rw [show List.filter (fun p => p.1 = ls) [(ls, v)] = [(ls, v)] from by simp]
  rw [List.getLast?_concat]
  rfl

/-- Theorem for claim C8: the `push` return flag is `true` exactly when a
value is already stored at that exact label; after the push the built trie
serves the new value at that key; in particular pushing the same label again
returns `true` and subsequent lookups see the second value. -/
theorem push_overwrite_semantics {V : Type} (ps : List (List (List Nat) × V))
    (hOK : ∀ p ∈ ps, SegsOK p.1) (ls : List (List Nat)) (hls : SegsOK ls) (v1 v2 : V) :
    ((buildFromSegs ps).push (render ls) v1).2 = (pushedValue ps ls).isSome ∧
    Trie.lookup ((buildFromSegs (ps ++ [(ls, v1)])).build) ls = some (v1, ls.length) ∧
    ((buildFromSegs (ps ++ [(ls, v1)])).push (render ls) v2).2 = true ∧
    Trie.lookup ((buildFromSegs (ps ++ [(ls, v1), (ls, v2)])).build) ls
      = some (v2, ls.length) := by
  have hOK1 : ∀ p ∈ ps ++ [(ls, v1)], SegsOK p.1 := by
    intro p hp
    rcases List.mem_append.mp hp with h | h
    · exact hOK p h
    · have : p = (ls, v1) := by simpa using h
      rw [this]
      exact hls
  have hOK2 : ∀ p ∈ ps ++ [(ls, v1), (ls, v2)], SegsOK p.1 := by
    intro p hp
    rcases List.mem_append.mp hp with h | h
    · exact hOK p h
    · rcases List.mem_cons.mp h with h2 | h2
      · rw [h2]
        exact hls
      · have : p = (ls, v2) := by simpa using h2
        rw [this]
        exact hls
  refine ⟨push_flag ps hOK ls hls v1, ?_, ?_, ?_⟩
  · rw [lookup_bestMatch (ps ++ [(ls, v1)]) hOK1 ls hls]
    exact bestMatch_self _ ls v1 (pushedValue_concat ps ls v1)
  · rw [push_flag (ps ++ [(ls, v1)]) hOK1 ls hls v2]
    rw [pushedValue_concat ps ls v1]
    rfl
  · rw [lookup_bestMatch (ps ++ [(ls, v1), (ls, v2)]) hOK2 ls hls]
    refine bestMatch_self _ ls v2 ?_
    rw [show ps ++ [(ls, v1), (ls, v2)] = (ps ++ [(ls, v1)]) ++ [(ls, v2)] from by simp]
    exact pushedValue_concat (ps ++ [(ls, v1)]) ls v2

/-- Witness for claim C1 at a concrete push sequence and input: keys `""`,
`"a"` and `"a/bc"`, looked up at `"a/x"`. -/
theorem trie_lookup_longest_match_witness :
    (∀ p ∈ ([([], 0), ([[97]], 1), ([[97], [98, 99]], 2)]
        : List (List (List Nat) × Nat)), SegsOK p.1)
    ∧ SegsOK [[97], [120]]
    ∧ Trie.lookup ((buildFromSegs ([([], 0), ([[97]], 1), ([[97], [98, 99]], 2)]
          : List (List (List Nat) × Nat))).build) [[97], [120]]
        = bestMatch [([], 0), ([[97]], 1), ([[97], [98, 99]], 2)] [[97], [120]] :=
  ⟨by decide, by decide,
    trie_lookup_longest_match [([], 0), ([[97]], 1), ([[97], [98, 99]], 2)]
      (by decide) [[97], [120]] (by decide)⟩

/-- Witness for claim C4 at a concrete push sequence, including two keys
sharing the first segment `a`. -/
theorem built_trie_structure_witness :
    (∀ p ∈ ([([[97]], 1), ([[97], [98, 99]], 2), ([[100]], 3)]
        : List (List (List Nat) × Nat)), SegsOK p.1)
    ∧ Structured ((buildFromSegs ([([[97]], 1), ([[97], [98, 99]], 2), ([[100]], 3)]
        : List (List (List Nat) × Nat))).build) 0 :=
  ⟨by decide,
    built_trie_structure [([[97]], 1), ([[97], [98, 99]], 2), ([[100]], 3)] (by decide)⟩

/-- Witness for claim C8 at a concrete builder: pushing `b` twice over an
existing key `a`. -/
theorem push_overwrite_semantics_witness :
    (∀ p ∈ ([([[97]], 5)] : List (List (List Nat) × Nat)), SegsOK p.1)
    ∧ SegsOK [[98]]
    ∧ (((buildFromSegs ([([[97]], 5)] : List (List (List Nat) × Nat))).push
          (render [[98]]) 10).2 = (pushedValue [([[97]], 5)] [[98]]).isSome ∧
      Trie.lookup ((buildFromSegs ([([[97]], 5)] ++ [([[98]], 10)])).build) [[98]]
        = some (10, ([[98]] : List (List Nat)).length) ∧
      ((buildFromSegs (([([[97]], 5)] : List (List (List Nat) × Nat)) ++ [([[98]], 10)])).push
          (render [[98]]) 20).2 = true ∧
      Trie.lookup ((buildFromSegs ([([[97]], 5)] ++ [([[98]], 10), ([[98]], 20)])).build) [[98]]
        = some (20, ([[98]] : List (List Nat)).length)) :=
  ⟨by decide, by decide,
    push_overwrite_semantics [([[97]], 5)] (by decide) [[98]] (by decide) 10 20⟩

theorem hpmGt_iff (a b : HostPathMatcher) :
    hpmGt a b = true ↔
      (HostPathMatcher.key b < HostPathMatcher.key a ∨
        (HostPathMatcher.key a = HostPathMatcher.key b ∧ b.path.length < a.path.length)) := by
  unfold hpmGt
  simp

theorem hpmGt_false_iff (a b : HostPathMatcher) :
    hpmGt a b = false ↔
      ¬(HostPathMatcher.key b < HostPathMatcher.key a ∨
        (HostPathMatcher.key a = HostPathMatcher.key b ∧ b.path.length < a.path.length)) := by
  rw [← hpmGt_iff]
  cases hpmGt a b <;> simp

theorem hpmGt_irrefl (a : HostPathMatcher) : hpmGt a a = false := by
  rw [hpmGt_false_iff]
  omega

theorem hpmGt_trans {a b c : HostPathMatcher} (h1 : hpmGt a b = true)
    (h2 : hpmGt b c = true) : hpmGt a c = true := by
  rw [hpmGt_iff] at h1 h2 ⊢
  omega

theorem hpmGt_neg_trans {a b c : HostPathMatcher} (h1 : hpmGt a b = false)
    (h2 : hpmGt b c = false) : hpmGt a c = false := by
  rw [hpmGt_false_iff] at h1 h2 ⊢
  omega

theorem fm_fold {host : List Nat} {path : List (List Nat)} {force : Bool} :
    ∀ (rules : List HostPathMatcher) (res0 : PathMatchResult) (o0 : Option HostPathMatcher),
    (match o0 with
     | none => res0 = PathMatchResult.EMPTY
     | some c => (c.matches host path force).any = true ∧ res0 = c.matches host path force) →
    ((rules.foldl (fmStep host path force) (res0, o0)).2 = none ↔
      (o0 = none ∧ ∀ x ∈ rules, (x.matches host path force).any = false)) ∧
    (∀ c, (rules.foldl (fmStep host path force) (res0, o0)).2 = some c →
      (c ∈ rules ∨ o0 = some c) ∧ (c.matches host path force).any = true ∧
        (rules.foldl (fmStep host path force) (res0, o0)).1 = c.matches host path force) ∧
    (∀ c, (rules.foldl (fmStep host path force) (res0, o0)).2 = some c →
      (∀ x ∈ rules, (x.matches host path force).any = true → hpmGt x c = false) ∧
      (∀ c0, o0 = some c0 → hpmGt c0 c = false)) := by
  intro rules
  induction rules with
  | nil =>
    intro res0 o0 hinv
    simp only [List.foldl_nil]
    refine ⟨?_, ?_, ?_⟩
    · constructor
      · intro h
        exact ⟨h, fun x hx => nomatch hx⟩
      · intro h
        exact h.1
    · intro c hc
      have ho : o0 = some c := hc
      rw [ho] at hinv
      exact ⟨Or.inr ho, hinv.1, hinv.2⟩
    · intro c hc
      have ho : o0 = some c := hc
      refine ⟨fun x hx => (nomatch hx), ?_⟩
      intro c0 h0
      rw [ho] at h0
      have he : c = c0 := Option.some_inj.mp h0
      rw [← he]
      exact hpmGt_irrefl c
  | cons r rest ih =>
    intro res0 o0 hinv
    simp only [List.foldl_cons]
    cases hany : (r.matches host path force).any with
    | false =>
      have hstep : fmStep host path force (res0, o0) r = (res0, o0) := by
        simp [fmStep, hany]
      rw [hstep]
      obtain ⟨i1, i2, i3⟩ := ih res0 o0 hinv
      refine ⟨?_, ?_, ?_⟩
      · rw [i1]
        constructor
        · rintro ⟨h1, h2⟩
          refine ⟨h1, fun x hx => ?_⟩
          rcases List.mem_cons.mp hx with he | hx2
          · rw [he]
            exact hany
          · exact h2 x hx2
        · rintro ⟨h1, h2⟩
          exact ⟨h1, fun x hx => h2 x (List.mem_cons_of_mem r hx)⟩
      · intro c hc
        obtain ⟨m1, m2, m3⟩ := i2 c hc
        refine ⟨?_, m2, m3⟩
        rcases m1 with h | h
        · exact Or.inl (List.mem_cons_of_mem r h)
        · exact Or.inr h
      · intro c hc
        obtain ⟨m1, m2⟩ := i3 c hc
        refine ⟨?_, m2⟩
        intro x hx hxany
        rcases List.mem_cons.mp hx with he | hx2
        · rw [he] at hxany
          rw [hany] at hxany
          exact Bool.noConfusion hxany
        · exact m1 x hx2 hxany
    | true =>
      cases o0 with
      | none =>
        have hstep : fmStep host path force (res0, none) r =
            (r.matches host path force, some r) := by
          simp [fmStep, hany]
        rw [hstep]
        obtain ⟨i1, i2, i3⟩ := ih (r.matches host path force) (some r) ⟨hany, rfl⟩
        refine ⟨?_, ?_, ?_⟩
        · rw [i1]
          constructor
          · rintro ⟨h1, _⟩
            exact Option.noConfusion h1
          · rintro ⟨_, h2⟩
            have hcontra := h2 r (List.mem_cons_self r rest)
            rw [hany] at hcontra
            exact Bool.noConfusion hcontra
        · intro c hc
          obtain ⟨m1, m2, m3⟩ := i2 c hc
          refine ⟨?_, m2, m3⟩
          rcases m1 with h | h
          · exact Or.inl (List.mem_cons_of_mem r h)
          · refine Or.inl ?_
            rw [← Option.some_inj.mp h]
            exact List.mem_cons_self r rest
        · intro c hc
          obtain ⟨m1, m2⟩ := i3 c hc
          have hrc : hpmGt r c = false := m2 r rfl
          refine ⟨?_, fun c0 h0 => nomatch h0⟩
          intro x hx hxany
          rcases List.mem_cons.mp hx with he | hx2
          · rw [he]
            exact hrc
          · exact m1 x hx2 hxany
      | some prev =>
        have hinv2 : (prev.matches host path force).any = true ∧
            res0 = prev.matches host path force := hinv
        cases hgt : hpmGt prev r with
        | true =>
          have hstep : fmStep host path force (res0, some prev) r = (res0, some prev) := by
            simp [fmStep, hany, hgt]
          rw [hstep]
          obtain ⟨i1, i2, i3⟩ := ih res0 (some prev) hinv2
          refine ⟨?_, ?_, ?_⟩
          · rw [i1]
            constructor
            · rintro ⟨h1, _⟩
              exact Option.noConfusion h1
            · rintro ⟨h1, _⟩
              exact Option.noConfusion h1
          · intro c hc
            obtain ⟨m1, m2, m3⟩ := i2 c hc
            refine ⟨?_, m2, m3⟩
            rcases m1 with h | h
            · exact Or.inl (List.mem_cons_of_mem r h)
            · exact Or.inr h
          · intro c hc
            obtain ⟨m1, m2⟩ := i3 c hc
            have hprevc : hpmGt prev c = false := m2 prev rfl
            refine ⟨?_, m2⟩
            intro x hx hxany
            rcases List.mem_cons.mp hx with he | hx2
            · rw [he]
              cases hrc : hpmGt r c with
              | false => rfl
              | true =>
                have htr := hpmGt_trans hgt hrc
                rw [hprevc] at htr
                exact Bool.noConfusion htr
            · exact m1 x hx2 hxany
        | false =>
          have hstep : fmStep host path force (res0, some prev) r =
              (r.matches host path force, some r) := by
            simp [fmStep, hany, hgt]
          rw [hstep]
          obtain ⟨i1, i2, i3⟩ := ih (r.matches host path force) (some r) ⟨hany, rfl⟩
          refine ⟨?_, ?_, ?_⟩
          · rw [i1]
            constructor
            · rintro ⟨h1, _⟩
              exact Option.noConfusion h1
            · rintro ⟨h1, _⟩
              exact Option.noConfusion h1
          · intro c hc
            obtain ⟨m1, m2, m3⟩ := i2 c hc
            refine ⟨?_, m2, m3⟩
            rcases m1 with h | h
            · exact Or.inl (List.mem_cons_of_mem r h)
            · refine Or.inl ?_
              rw [← Option.some_inj.mp h]
              exact List.mem_cons_self r rest
          · intro c hc
            obtain ⟨m1, m2⟩ := i3 c hc
            have hrc : hpmGt r c = false := m2 r rfl
            refine ⟨?_, ?_⟩
            · intro x hx hxany
              rcases List.mem_cons.mp hx with he | hx2
              · rw [he]
                exact hrc
              · exact m1 x hx2 hxany
            · intro c0 h0
              rw [← Option.some_inj.mp h0]
              exact hpmGt_neg_trans hgt hrc

theorem find_match_none (rules : List HostPathMatcher) (host : List Nat)
    (path : List (List Nat)) (force : Bool) :
    ((find_match rules host path force).2 = none ↔
      ∀ x ∈ rules, (x.matches host path force).any = false) := by
  obtain ⟨i1, i2, i3⟩ := @fm_fold host path force rules PathMatchResult.EMPTY none rfl
  have h2 : (find_match rules host path force).2 =
      (rules.foldl (fmStep host path force) (PathMatchResult.EMPTY, none)).2 := rfl
  rw [h2, i1]
  simp

theorem find_match_some (rules : List HostPathMatcher) (host : List Nat)
    (path : List (List Nat)) (force : Bool) (c : HostPathMatcher)
    (h : (find_match rules host path force).2 = some c) :
    c ∈ rules ∧ (c.matches host path force).any = true ∧
      (find_match rules host path force).1 = c.matches host path force ∧
      ∀ x ∈ rules, (x.matches host path force).any = true → hpmGt x c = false := by
  obtain ⟨i1, i2, i3⟩ := @fm_fold host path force rules PathMatchResult.EMPTY none rfl
  have h2 : (rules.foldl (fmStep host path force) (PathMatchResult.EMPTY, none)).2 = some c := h
  obtain ⟨m1, m2, m3⟩ := i2 c h2
  obtain ⟨n1, _⟩ := i3 c h2
  refine ⟨?_, m2, m3, n1⟩
  rcases m1 with hh | hh
  · exact hh
  · exact Option.noConfusion hh

/-- Theorem for claim C5: exclude suppression in `MatchRules::matches`. On a
non-empty rule set, `find_match` returns `none` exactly when no rule of the
list matches, and otherwise a matching rule maximal for the specificity
order together with its result; the overall result is the empty match result
whenever some exclude pattern matches and the best include is not strictly
more specific than the best exclude (in particular when no include matches),
and the best include match's result otherwise. -/
theorem match_rules_exclude_suppression (m : MatchRules) (host : List Nat)
    (path : List (List Nat)) (force : Bool)
    (hne : (m.incl.isEmpty && m.excl.isEmpty) = false) :
    excludeSuppressionSpec m host path force := by
  refine ⟨find_match_none _ _ _ _, ?_, find_match_none _ _ _ _, ?_, ?_, ?_, ?_⟩
  · intro ex hex
    obtain ⟨a1, a2, _, a4⟩ := find_match_some _ _ _ _ ex hex
    exact ⟨a1, a2, a4⟩
  · intro inc hinc
    obtain ⟨a1, a2, a3, a4⟩ := find_match_some _ _ _ _ inc hinc
    exact ⟨⟨a1, a2, a4⟩, a3⟩
  · intro hnone
    simp only [MatchRules.matches, hne]
    rw [hnone]
    rfl
  · intro ex hex hnone
    simp only [MatchRules.matches, hne]
    rw [hex, hnone]
    rfl
  · intro ex inc hex hinc
    simp only [MatchRules.matches, hne]
    rw [hex, hinc]
    rfl

theorem match_rules_exclude_suppression_witness :
    ((MatchRules.mk [HostPathMatcher.mk [104] [[97]] false]
        [HostPathMatcher.mk [] [[97]] false]).incl.isEmpty &&
      (MatchRules.mk [HostPathMatcher.mk [104] [[97]] false]
        [HostPathMatcher.mk [] [[97]] false]).excl.isEmpty) = false ∧
    excludeSuppressionSpec
      (MatchRules.mk [HostPathMatcher.mk [104] [[97]] false]
        [HostPathMatcher.mk [] [[97]] false]) [104] [[97]] false :=
  ⟨rfl, match_rules_exclude_suppression
    (MatchRules.mk [HostPathMatcher.mk [104] [[97]] false]
      [HostPathMatcher.mk [] [[97]] false]) [104] [[97]] false rfl⟩

/-- Theorem for claim C7: an empty rule set is a universal catch-all — for
every host, path and prefix-forcing flag, `MatchRules::matches` with empty
include and exclude lists returns a matching (non-empty) result, marked
fallback exactly when the host is non-empty, always marked prefix, and
marked exact exactly when the path is empty. -/
theorem match_rules_empty_catch_all (host : List Nat) (path : List (List Nat)) (force : Bool) :
    ((MatchRules.mk [] []).matches host path force).any = true ∧
    (((MatchRules.mk [] []).matches host path force).fallback = true ↔ host ≠ []) ∧
    ((MatchRules.mk [] []).matches host path force).isPref = true ∧
    (((MatchRules.mk [] []).matches host path force).exact = true ↔ path = []) := by
  have e : (MatchRules.mk [] []).matches host path force =
      (if path.isEmpty then
        ((if host.isEmpty then PathMatchResult.EMPTY
          else PathMatchResult.EMPTY.set_fallback).set_exact).set_pref
       else (if host.isEmpty then PathMatchResult.EMPTY
          else PathMatchResult.EMPTY.set_fallback).set_pref) := rfl
  rw [e]
  cases hhost : host.isEmpty with
  | true =>
    have hh : host = [] := List.isEmpty_iff.mp hhost
    cases hpath : path.isEmpty with
    | true =>
      have hp : path = [] := List.isEmpty_iff.mp hpath
      subst hh
      subst hp
      simp [PathMatchResult.any, PathMatchResult.set_pref, PathMatchResult.set_exact,
        PathMatchResult.set_fallback, PathMatchResult.EMPTY]
    | false =>
      have hp : path ≠ [] := by
        intro h
        rw [h] at hpath
        exact Bool.noConfusion hpath
      subst hh
      simp [PathMatchResult.any, PathMatchResult.set_pref, PathMatchResult.set_exact,
        PathMatchResult.set_fallback, PathMatchResult.EMPTY, hp]
  | false =>
    have hh : host ≠ [] := by
      intro h
      rw [h] at hhost
      exact Bool.noConfusion hhost
    cases hpath : path.isEmpty with
    | true =>
      have hp : path = [] := List.isEmpty_iff.mp hpath
      subst hp
      simp [PathMatchResult.any, PathMatchResult.set_pref, PathMatchResult.set_exact,
        PathMatchResult.set_fallback, PathMatchResult.EMPTY, hh]
    | false =>
      have hp : path ≠ [] := by
        intro h
        rw [h] at hpath
        exact Bool.noConfusion hpath
      simp [PathMatchResult.any, PathMatchResult.set_pref, PathMatchResult.set_exact,
        PathMatchResult.set_fallback, PathMatchResult.EMPTY, hh, hp]

theorem splitQuery_no_q : ∀ p : List Nat, QMARK ∉ p → splitQuery p = (p, none) := by
  intro p
  induction p with
  | nil =>
    intro _
    rfl
  | cons b rest ih =>
    intro h
    have hb : b ≠ QMARK := by
      intro he
      exact h (by rw [← he]; exact List.mem_cons_self b rest)
    have hrest : QMARK ∉ rest := fun hm => h (List.mem_cons_of_mem b hm)
    unfold splitQuery
    rw [if_neg hb, ih hrest]

theorem splitQuery_app : ∀ p q : List Nat, QMARK ∉ p →
    splitQuery (p ++ QMARK :: q) = (p, some q) := by
  intro p
  induction p with
  | nil =>
    intro q _
    show splitQuery (QMARK :: q) = ([], some q)
    unfold splitQuery
    rw [if_pos rfl]
  | cons b rest ih =>
    intro q h
    have hb : b ≠ QMARK := by
      intro he
      exact h (by rw [← he]; exact List.mem_cons_self b rest)
    have hrest : QMARK ∉ rest := fun hm => h (List.mem_cons_of_mem b hm)
    show splitQuery (b :: (rest ++ QMARK :: q)) = (b :: rest, some q)
    unfold splitQuery
    rw [if_neg hb, ih q hrest]

/-- Theorem for claim C6: strip-prefix path rewriting by the dispatcher. For
a matched route with the strip-prefix flag and a tail, the handler is paired
with exactly that tail, an empty tail replaced by `/`; without the flag the
tail is discarded, so the path is left untouched; and rewriting the URI to
the returned tail preserves the original query component unchanged. -/
theorem strip_tail_rewrites_path {H : Type} (handler : H) (tail : List Nat)
    (uri : Uri) (hq : QMARK ∉ tail) :
    best_match_tail (some ((true, handler), some tail)) =
      some (handler, some (if tail.isEmpty then [SEPARATOR] else tail)) ∧
    best_match_tail (some ((false, handler), some tail)) = some (handler, none) ∧
    set_uri_path uri (if tail.isEmpty then [SEPARATOR] else tail) =
      Uri.mk (if tail.isEmpty then [SEPARATOR] else tail) uri.query := by
  refine ⟨rfl, rfl, ?_⟩
  obtain ⟨up, uq⟩ := uri
  cases tail with
  | nil =>
    cases uq with
    | none => rfl
    | some q0 => rfl
  | cons b bs =>
    show set_uri_path (Uri.mk up uq) (b :: bs) = Uri.mk (b :: bs) uq
    cases uq with
    | none =>
      show (match splitQuery ((b :: bs) ++ []) with | (p, q) => Uri.mk p q) =
        Uri.mk (b :: bs) none
      rw [List.append_nil, splitQuery_no_q (b :: bs) hq]
    | some q0 =>
      show (match splitQuery ((b :: bs) ++ QMARK :: q0) with | (p, q) => Uri.mk p q) =
        Uri.mk (b :: bs) (some q0)
      rw [splitQuery_app (b :: bs) q0 hq]

theorem strip_tail_rewrites_path_witness :
    QMARK ∉ [47, 120] ∧
    (best_match_tail (some ((true, (0 : Nat)), some [47, 120])) =
        some (0, some (if ([47, 120] : List Nat).isEmpty then [SEPARATOR] else [47, 120])) ∧
      best_match_tail (some ((false, (0 : Nat)), some [47, 120])) = some (0, none) ∧
      set_uri_path (Uri.mk [47, 115] (some [97, 98]))
          (if ([47, 120] : List Nat).isEmpty then [SEPARATOR] else [47, 120]) =
        Uri.mk (if ([47, 120] : List Nat).isEmpty then [SEPARATOR] else [47, 120])
          (Uri.mk [47, 115] (some [97, 98])).query) :=
  ⟨by decide,
    strip_tail_rewrites_path (0 : Nat) [47, 120] (Uri.mk [47, 115] (some [97, 98])) (by decide)⟩

theorem convertSubdirs_isSome {C H : Type} (conv : C → Option H) (host : List Nat) :
    ∀ sdl : List (List Nat × Bool × C), (∀ sd ∈ sdl, (conv sd.2.2).isSome = true) →
      ∃ sds, convertSubdirs conv host sdl = some sds := by
  intro sdl
  induction sdl with
  | nil =>
    intro _
    exact ⟨[], rfl⟩
  | cons sd rest ih =>
    intro h
    obtain ⟨p, sp, c⟩ := sd
    have hc : (conv c).isSome = true := h (p, sp, c) (List.mem_cons_self _ _)
    obtain ⟨hv, hcv⟩ := Option.isSome_iff_exists.mp hc
    obtain ⟨sds, hsds⟩ := ih (fun sd2 hm => h sd2 (List.mem_cons_of_mem _ hm))
    refine ⟨(host, p, sp, hv) :: sds, ?_⟩
    unfold convertSubdirs
    rw [hcv, hsds]
    rfl

theorem try_from_hosts_cons {C H : Type} (conv : C → Option H) (host : List Nat)
    (hc : VHostConfEntry C) (rest : List (List Nat × VHostConfEntry C))
    (pushes : List (List Nat × List Nat × Bool × H)) (aliases : List (List Nat × List Nat))
    (dflt : Option (List Nat)) (warns : List (List Nat)) (hv : H)
    (sds : List (List Nat × List Nat × Bool × H))
    (hcv : conv hc.config = some hv)
    (hsds : convertSubdirs conv host hc.subdirs = some sds) :
    try_from_hosts conv ((host, hc) :: rest) pushes aliases dflt warns =
      try_from_hosts conv rest (pushes ++ (host, [], false, hv) :: sds)
        (aliases ++ hc.aliases.map (fun a => (a, host)))
        (if hc.default then
          (match dflt with | some prev => some prev | none => some host) else dflt)
        (if hc.default then
          (match dflt with | some prev => warns ++ [host] | none => warns) else warns) := by
  rw [try_from_hosts.eq_def]
  dsimp only
  rw [hcv, hsds]
  cases hc.default <;> cases dflt <;> rfl

theorem try_from_hosts_go {C H : Type} (conv : C → Option H) :
    ∀ entries : List (List Nat × VHostConfEntry C),
      (∀ e ∈ entries, (conv e.2.config).isSome = true ∧
        ∀ sd ∈ e.2.subdirs, (conv sd.2.2).isSome = true) →
      ∃ dp da,
        (∀ pushes aliases dflt warns,
          try_from_hosts conv entries pushes aliases dflt warns =
            some (pushes ++ dp, aliases ++ da, dfltResult entries dflt,
              warns ++ warnsDelta entries dflt)) ∧
        (∀ pushes aliases dflt warns,
          try_from_hosts conv (clearDefaults entries) pushes aliases dflt warns =
            some (pushes ++ dp, aliases ++ da, dflt, warns)) := by
  intro entries
  induction entries with
  | nil =>
    intro _
    refine ⟨[], [], ?_, ?_⟩
    · intro pushes aliases dflt warns
      cases dflt with
      | none => simp [try_from_hosts, dfltResult, warnsDelta]
      | some p => simp [try_from_hosts, dfltResult, warnsDelta]
    · intro pushes aliases dflt warns
      simp [clearDefaults, try_from_hosts]
  | cons e rest ih =>
    intro h
    obtain ⟨host, hc⟩ := e
    have he := h (host, hc) (List.mem_cons_self _ _)
    obtain ⟨hv, hcv⟩ := Option.isSome_iff_exists.mp he.1
    obtain ⟨sds, hsds⟩ := convertSubdirs_isSome conv host hc.subdirs he.2
    obtain ⟨dp, da, ih1, ih2⟩ := ih (fun e2 hm => h e2 (List.mem_cons_of_mem _ hm))
    refine ⟨(host, [], false, hv) :: sds ++ dp,
      hc.aliases.map (fun a => (a, host)) ++ da, ?_, ?_⟩
    · intro pushes aliases dflt warns
      rw [try_from_hosts_cons conv host hc rest pushes aliases dflt warns hv sds hcv hsds]
      rw [ih1]
      cases hd : hc.default with
      | true =>
        cases dflt with
        | none =>
          simp [dfltResult, warnsDelta, List.filter_cons, hd, List.append_assoc]
        | some p =>
          simp [dfltResult, warnsDelta, List.filter_cons, hd, List.append_assoc]
      | false =>
        cases dflt with
        | none =>
          simp [dfltResult, warnsDelta, List.filter_cons, hd, List.append_assoc]
        | some p =>
          simp [dfltResult, warnsDelta, List.filter_cons, hd, List.append_assoc]
    · intro pushes aliases dflt warns
      show try_from_hosts conv ((host, { hc with default := false }) :: clearDefaults rest)
        pushes aliases dflt warns = _
      rw [try_from_hosts_cons conv host { hc with default := false } (clearDefaults rest)
        pushes aliases dflt warns hv sds hcv hsds]
      rw [ih2]
      simp [List.append_assoc]

/-- Theorem for claim C9: duplicate default-host declarations are a
recoverable warning with first-wins semantics. Whenever every host and
subdirectory configuration converts, the construction loop succeeds however
many hosts are marked default; the effective default is the first host
marked default, each subsequent default host only adds a warning, and the
accumulated pushes and aliases are identical to those of the same
configuration with no default flags at all. -/
theorem duplicate_default_first_wins {C H : Type} (conv : C → Option H)
    (entries : List (List Nat × VHostConfEntry C))
    (hconv : ∀ e ∈ entries, (conv e.2.config).isSome = true ∧
      ∀ sd ∈ e.2.subdirs, (conv sd.2.2).isSome = true) :
    tryFromSpec conv entries := by
  obtain ⟨dp, da, h1, h2⟩ := try_from_hosts_go conv entries hconv
  refine ⟨dp, da, ?_, ?_⟩
  · have hh := h1 [] [] none []
    rw [hh]
    simp [dfltResult, warnsDelta]
  · have hh := h2 [] [] none []
    rw [hh]
    simp

theorem duplicate_default_first_wins_witness :
    (∀ e ∈ [([104, 97], VHostConfEntry.mk [[97]] true [] (0 : Nat)),
        ([104, 98], VHostConfEntry.mk [] true [([100], true, 1)] 2)],
      ((fun c : Nat => some c) e.2.config).isSome = true ∧
        ∀ sd ∈ e.2.subdirs, ((fun c : Nat => some c) sd.2.2).isSome = true) ∧
    tryFromSpec (fun c : Nat => some c)
      [([104, 97], VHostConfEntry.mk [[97]] true [] 0),
       ([104, 98], VHostConfEntry.mk [] true [([100], true, 1)] 2)] :=
  ⟨by decide,
    duplicate_default_first_wins (fun c : Nat => some c)
      [([104, 97], VHostConfEntry.mk [[97]] true [] 0),
       ([104, 98], VHostConfEntry.mk [] true [([100], true, 1)] 2)] (by decide)⟩

end Pandora


